import Mathlib

/-!
Shallow embedding of `sc::list<T>` (include/list.h).

The container is a chain of heap nodes between two sentinel nodes.  The
embedding keeps the pointer structure: a `Heap` maps node addresses to nodes,
a `list` object is the triple `(m_len, m_head, m_tail)`, and every member
function is a state-passing function `Heap → list → … → Except Fault (Heap × …)`.

* A node pointer (`Node *`) is a natural number, the address; `0` is `nullptr`.
* `new` hands out the next unused address; a deleted address is never reused.
* Dereferencing `nullptr`, an address that was never allocated or a deleted
  node is undefined behaviour in C++; here it is the fault `invalid_access`.
* `throw std::out_of_range` is the fault `out_of_range`.  An error carries no
  state; `pop_back_exit` gives, next to the exception, the heap and the list
  object with which `pop_back` exits, and `pop_back` is its `exit_result`.
* `while` loops and the recursion of `sort` and of
  `const_iterator::operator!=` take a fuel argument; running out of it is the
  fault `out_of_fuel`.  Counted `for` loops recurse on the count.
  `sort_body` is the body of `sort` with the two recursive calls as a
  parameter; `sort (fuel + 1)` is `sort_body (sort fuel) fuel`.
* `size_t m_len` is a natural number; `--m_len` wraps at zero as in C++.
  `++m_len` is not reduced modulo `2^64` (a list of `2^64` nodes does not fit
  in the address space), and the `int` loop counters of `sort`, of the
  count constructor and of `operator==` are not reduced modulo `2^32`.
* A data member read before it is assigned has an indeterminate value (the
  copy constructor reads `m_tail` in its first statement); that value is an
  extra argument of the function.
* A function whose body assigns neither to the heap nor to the list object
  (`front`, `back`, `find`, `operator==`) returns its result only.
* `T::operator==` is decidable equality, `T::operator<` a decidable `<`.
* The debugging output of `insert` (`std::cout << …`) is not modelled; the
  reads it performs are.

A list is well formed in a heap when `Rep h l cs` holds: `cs` lists the real
nodes (address and value) in traversal order.  `LenOK l cs` says that the
cached length is the number of real nodes.  Two lists are distinct objects
when their footprints share no address.
-/

namespace sc

/-- The ways in which a member function can fail to return normally. -/
inductive Fault where
  | out_of_range
  | invalid_access
  | out_of_fuel
  deriving DecidableEq, Repr

/-- `struct Node { T data; Node *next; Node *prev; }`. -/
structure Node (α : Type) where
  data : α
  next : Nat
  prev : Nat
  deriving DecidableEq, Repr

/-- The free store: `node p` is the node stored at address `p`; addresses
`1 … brk` have been handed out by `new`, a deleted node is `none`. -/
structure Heap (α : Type) where
  node : Nat → Option (Node α)
  brk : Nat

variable {α : Type}

/-- The node at address `p`, if `p` is a live node. -/
def Heap.read (h : Heap α) (p : Nat) : Option (Node α) :=
  if p = 0 ∨ h.brk < p then none else h.node p

/-- Overwrite the live node at address `p`. -/
def Heap.write (h : Heap α) (p : Nat) (n : Node α) : Heap α :=
  { h with node := fun q => if q = p then (h.node p).map (fun _ => n) else h.node q }

/-- The expression `new Node(d, n, p)`: the next unused address. -/
def Heap.alloc (h : Heap α) (n : Node α) : Heap α × Nat :=
  ({ node := fun q => if q = h.brk + 1 then some n else h.node q, brk := h.brk + 1 },
   h.brk + 1)

/-- Release the node at address `p`. -/
def Heap.free (h : Heap α) (p : Nat) : Heap α :=
  { h with node := fun q => if q = p then none else h.node q }

/-- The statement `delete p`; deleting what is not a live node is undefined
behaviour. -/
def Heap.delete (h : Heap α) (p : Nat) : Except Fault (Heap α) :=
  match h.read p with
  | some _ => .ok (h.free p)
  | none => .error .invalid_access

/-- The expression `p->data`. -/
def getData (h : Heap α) (p : Nat) : Except Fault α :=
  match h.read p with
  | some n => .ok n.data
  | none => .error .invalid_access

/-- The expression `p->next`. -/
def getNext (h : Heap α) (p : Nat) : Except Fault Nat :=
  match h.read p with
  | some n => .ok n.next
  | none => .error .invalid_access

/-- The expression `p->prev`. -/
def getPrev (h : Heap α) (p : Nat) : Except Fault Nat :=
  match h.read p with
  | some n => .ok n.prev
  | none => .error .invalid_access

/-- The statement `p->next = q`. -/
def setNext (h : Heap α) (p q : Nat) : Except Fault (Heap α) :=
  match h.read p with
  | some n => .ok (h.write p { n with next := q })
  | none => .error .invalid_access

/-- The statement `p->prev = q`. -/
def setPrev (h : Heap α) (p q : Nat) : Except Fault (Heap α) :=
  match h.read p with
  | some n => .ok (h.write p { n with prev := q })
  | none => .error .invalid_access

/-- `--m_len` on a `size_t`. -/
def size_t_dec (n : Nat) : Nat := if n = 0 then 2 ^ 64 - 1 else n - 1

/-- `class iterator`: a wrapped node pointer. -/
structure iterator where
  m_ptr : Nat
  deriving DecidableEq, Repr

/-- `iterator::operator==`. -/
def iterator.eq (a rhs : iterator) : Bool := a.m_ptr == rhs.m_ptr

/-- `iterator::operator!=`. -/
def iterator.ne (a rhs : iterator) : Bool := !(a.m_ptr == rhs.m_ptr)

/-- `iterator::operator*`. -/
def iterator.deref (h : Heap α) (it : iterator) : Except Fault α := getData h it.m_ptr

/-- `iterator::operator++(int)`: the iterator after the step (the returned
copy of the old position is the argument itself). -/
def iterator.post_inc (h : Heap α) (it : iterator) : Except Fault iterator := do
  let n ← getNext h it.m_ptr
  pure ⟨n⟩

/-- `class const_iterator`: a wrapped node pointer. -/
structure const_iterator where
  m_ptr : Nat
  deriving DecidableEq, Repr

/-- `const_iterator::operator*`. -/
def const_iterator.deref (h : Heap α) (it : const_iterator) : Except Fault α :=
  getData h it.m_ptr

/-- `const_iterator::operator++(int)`: the iterator after the step. -/
def const_iterator.post_inc (h : Heap α) (it : const_iterator) : Except Fault const_iterator := do
  let n ← getNext h it.m_ptr
  pure ⟨n⟩

/-- `const_iterator::operator==`. -/
def const_iterator.eq (a rhs : const_iterator) : Bool := a.m_ptr == rhs.m_ptr

/-- `const_iterator::operator!=`.  The body is `return *this != rhs.m_ptr;`:
the pointer `rhs.m_ptr` is converted by the converting constructor
`const_iterator(Node *ptr)` and the same operator is called on the result.
`fuel` bounds the depth of these nested calls. -/
def const_iterator.ne : Nat → const_iterator → const_iterator → Except Fault Bool
  | 0, _, _ => .error .out_of_fuel
  | fuel + 1, a, rhs => const_iterator.ne fuel a ⟨rhs.m_ptr⟩

/-- The data members of `class list`. -/
structure list where
  m_len : Nat
  m_head : Nat
  m_tail : Nat
  deriving DecidableEq, Repr

namespace list

/-- `list::list()`, the default constructor. -/
def list_default [Inhabited α] (h : Heap α) : Except Fault (Heap α × list) := do
  let (h, m_head) := h.alloc ⟨default, 0, 0⟩
  let (h, m_tail) := h.alloc ⟨default, 0, 0⟩
  let h ← setNext h m_head m_tail
  let h ← setPrev h m_tail m_head
  pure (h, ⟨0, m_head, m_tail⟩)

/-- `list::begin()`. -/
def begin_ (h : Heap α) (l : list) : Except Fault iterator := do
  let n ← getNext h l.m_head
  pure ⟨n⟩

/-- `list::end()`. -/
def end_ (l : list) : iterator := ⟨l.m_tail⟩

/-- `list::empty()`. -/
def empty (l : list) : Bool := l.m_len == 0

/-- `list::size()`. -/
def size (l : list) : Nat := l.m_len

/-- `list::push_front`. -/
def push_front (h : Heap α) (l : list) (value_ : α) : Except Fault (Heap α × list) := do
  let (h, new_node) := h.alloc ⟨value_, 0, 0⟩
  let hn ← getNext h l.m_head
  let h ← setNext h new_node hn
  let h ← setPrev h new_node l.m_head
  let hn ← getNext h l.m_head
  let h ← setPrev h hn new_node
  let h ← setNext h l.m_head new_node
  pure (h, { l with m_len := l.m_len + 1 })

/-- `list::push_back`. -/
def push_back (h : Heap α) (l : list) (value_ : α) : Except Fault (Heap α × list) := do
  let (h, new_node) := h.alloc ⟨value_, 0, 0⟩
  let h ← setNext h new_node l.m_tail
  let tp ← getPrev h l.m_tail
  let h ← setNext h tp new_node
  let tp ← getPrev h l.m_tail
  let h ← setPrev h new_node tp
  let h ← setPrev h l.m_tail new_node
  pure (h, { l with m_len := l.m_len + 1 })

/-- The body of the loop of `list::list(size_t count)`, run `count` times. -/
def list_count_loop [Inhabited α] (m_tail : Nat) : Nat → Heap α → Nat → Except Fault (Heap α × Nat)
  | 0, h, m_len => pure (h, m_len)
  | k + 1, h, m_len => do
    let (h, new_n) := h.alloc ⟨default, 0, 0⟩
    let tp ← getPrev h m_tail
    let h ← setPrev h new_n tp
    let h ← setNext h new_n m_tail
    let tp ← getPrev h m_tail
    let h ← setNext h tp new_n
    let h ← setPrev h m_tail new_n
    list_count_loop m_tail k h (m_len + 1)

/-- `list::list(size_t count)`. -/
def list_count [Inhabited α] (h : Heap α) (count : Nat) : Except Fault (Heap α × list) := do
  let (h, m_head) := h.alloc ⟨default, 0, 0⟩
  let (h, m_tail) := h.alloc ⟨default, 0, 0⟩
  let h ← setNext h m_head m_tail
  let h ← setPrev h m_tail m_head
  let (h, m_len) ← list_count_loop m_tail count h 0
  pure (h, ⟨m_len, m_head, m_tail⟩)

/-- `list::pop_back`. -/
def pop_back (h : Heap α) (l : list) : Except Fault (Heap α × list) :=
  if l.m_len = 0 then .error .out_of_range
  else do
    let tp ← getPrev h l.m_tail
    if tp ≠ l.m_head then do
      let last ← getPrev h l.m_tail
      let new_last ← getPrev h last
      let h ← setPrev h l.m_tail new_last
      let h ← setNext h new_last l.m_tail
      let h ← h.delete last
      pure (h, { l with m_len := size_t_dec l.m_len })
    else pure (h, l)

/-- `list::pop_back` with the state at exit made explicit.  The result is
the heap and the list object with which the call exits, together with the
exception it exits by (`none` on a normal return): a `throw` statement leaves
the function in the state reached by the statements executed before it.
Undefined behaviour is still a fault of the whole run. -/
def pop_back_exit (h : Heap α) (l : list) : Except Fault ((Heap α × list) × Option Fault) :=
  if l.m_len = 0 then pure ((h, l), some .out_of_range)
  else do
    let tp ← getPrev h l.m_tail
    if tp ≠ l.m_head then do
      let last ← getPrev h l.m_tail
      let new_last ← getPrev h last
      let h ← setPrev h l.m_tail new_last
      let h ← setNext h new_last l.m_tail
      let h ← h.delete last
      pure ((h, { l with m_len := size_t_dec l.m_len }), none)
    else pure ((h, l), none)

/-- The loop `while(!empty()) pop_back();` of `list::clear`. -/
def clear_loop : Nat → Heap α → list → Except Fault (Heap α × list)
  | 0, _, _ => .error .out_of_fuel
  | fuel + 1, h, l =>
    if !l.empty then do
      let (h, l) ← l.pop_back h
      clear_loop fuel h l
    else pure (h, l)

/-- `list::clear`. -/
def clear [Inhabited α] (fuel : Nat) (h : Heap α) (l : list) : Except Fault (Heap α × list) := do
  let (h, l) ← clear_loop fuel h l
  let h ← h.delete l.m_head
  let h ← h.delete l.m_tail
  let (h, m_head) := h.alloc ⟨default, 0, 0⟩
  let (h, m_tail) := h.alloc ⟨default, 0, 0⟩
  let h ← setNext h m_head m_tail
  let h ← setPrev h m_tail m_head
  pure (h, ⟨0, m_head, m_tail⟩)

/-- `list::~list`. -/
def destroy [Inhabited α] (fuel : Nat) (h : Heap α) (l : list) : Except Fault (Heap α) := do
  let (h, l) ← l.clear fuel h
  let h ← h.delete l.m_head
  h.delete l.m_tail

/-- `list::insert(iterator pos_, const T &value_)`.  The four `std::cout`
statements of the general path read `prevNode->data`, `nextNode->data`,
`prevNode->next->data` and `nextNode->prev->data`; the reads are kept, the
output is not modelled. -/
def insert (h : Heap α) (l : list) (pos_ : iterator) (value_ : α) :
    Except Fault (Heap α × list × iterator) :=
  if pos_.m_ptr = l.m_head then do
    let (h, l) ← l.push_front h value_
    let hn ← getNext h l.m_head
    pure (h, l, ⟨hn⟩)
  else if pos_.m_ptr = l.m_tail then do
    let (h, l) ← l.push_back h value_
    let tp ← getPrev h l.m_tail
    pure (h, l, ⟨tp⟩)
  else do
    let (h, newNode) := h.alloc ⟨value_, 0, 0⟩
    let prevNode ← getPrev h pos_.m_ptr
    let nextNode := pos_.m_ptr
    let h ← setPrev h newNode prevNode
    let _ ← getData h prevNode
    let h ← setNext h newNode nextNode
    let _ ← getData h nextNode
    let h ← setNext h prevNode newNode
    let pn ← getNext h prevNode
    let _ ← getData h pn
    let h ← setPrev h nextNode newNode
    let np ← getPrev h nextNode
    let _ ← getData h np
    pure (h, { l with m_len := l.m_len + 1 }, pos_)

/-- The loop of `list::insert(iterator pos_, InputIt first_, InputIt last_)`;
the source range `[first_, last_)` is the sequence of values it yields. -/
def insert_range_loop (nextNode : Nat) : List α → Heap α → Nat → Nat → Except Fault (Heap α × Nat)
  | [], h, _, m_len => pure (h, m_len)
  | x :: rest, h, prevNode, m_len => do
    let (h, newNode) := h.alloc ⟨x, 0, 0⟩
    let h ← setPrev h newNode prevNode
    let h ← setNext h newNode nextNode
    let h ← setNext h prevNode newNode
    let h ← setPrev h nextNode newNode
    insert_range_loop nextNode rest h newNode (m_len + 1)

/-- `list::insert(iterator pos_, InputIt first_, InputIt last_)`. -/
def insert_range (h : Heap α) (l : list) (pos_ : iterator) (src : List α) :
    Except Fault (Heap α × list × iterator) := do
  let prevNode ← getPrev h pos_.m_ptr
  let nextNode := pos_.m_ptr
  let (h, m_len) ← insert_range_loop nextNode src h prevNode l.m_len
  pure (h, { l with m_len := m_len }, pos_)

/-- `list::insert(iterator cpos_, std::initializer_list<T> ilist_)`. -/
def insert_ilist (h : Heap α) (l : list) (cpos_ : iterator) (ilist_ : List α) :
    Except Fault (Heap α × list × iterator) :=
  insert_range h l cpos_ ilist_

/-- `list::erase(iterator it_)`. -/
def erase (h : Heap α) (l : list) (it_ : iterator) : Except Fault (Heap α × list × iterator) :=
  if it_.m_ptr = l.m_head ∨ it_.m_ptr = l.m_tail then pure (h, l, it_)
  else do
    let prevNode ← getPrev h it_.m_ptr
    let nextNode ← getNext h it_.m_ptr
    let h ← setNext h prevNode nextNode
    let h ← setPrev h nextNode prevNode
    let h ← h.delete it_.m_ptr
    pure (h, { l with m_len := size_t_dec l.m_len }, ⟨nextNode⟩)

/-- The `while` loop of `list::merge`; the state is `(aux, aux2, m_len)`. -/
def merge_loop [LT α] [DecidableRel (fun (x y : α) => x < y)] (m_tail other_tail : Nat) :
    Nat → Heap α → Nat → Nat → Nat → Except Fault (Heap α × Nat × Nat × Nat)
  | 0, _, _, _, _ => .error .out_of_fuel
  | fuel + 1, h, aux, aux2, m_len =>
    if aux ≠ m_tail ∧ aux2 ≠ other_tail then do
      let d ← getData h aux
      let d2 ← getData h aux2
      if d < d2 then do
        let aux ← getNext h aux
        merge_loop m_tail other_tail fuel h aux aux2 m_len
      else do
        let aux3 ← getNext h aux2
        let ap ← getPrev h aux
        let h ← setPrev h aux2 ap
        let h ← setNext h aux2 aux
        let ap ← getPrev h aux
        let h ← setNext h ap aux2
        let h ← setPrev h aux aux2
        merge_loop m_tail other_tail fuel h aux aux3 (m_len + 1)
    else pure (h, aux, aux2, m_len)

/-- `list::merge(list &other)`.  List objects are passed by value here, so
the identity test `this == &other` is the argument `this_is_other`; the
result is the pair of the updated `*this` and `other`. -/
def merge [LT α] [DecidableRel (fun (x y : α) => x < y)] (fuel : Nat) (h : Heap α)
    (l other : list) (this_is_other : Bool) : Except Fault (Heap α × list × list) :=
  if this_is_other then pure (h, l, other)
  else do
    let aux ← getNext h l.m_head
    let aux2 ← getNext h other.m_head
    let (h, aux, aux2, m_len) ← merge_loop l.m_tail other.m_tail fuel h aux aux2 l.m_len
    let (h, m_len) ←
      if aux2 ≠ other.m_tail then do
        let ap ← getPrev h aux
        let h ← setNext h ap aux2
        let ap ← getPrev h aux
        let h ← setPrev h aux2 ap
        let otp ← getPrev h other.m_tail
        let h ← setNext h otp l.m_tail
        let otp ← getPrev h other.m_tail
        let h ← setPrev h l.m_tail otp
        pure (h, m_len + other.m_len)
      else pure (h, m_len)
    let h ← setNext h other.m_head other.m_tail
    let h ← setPrev h other.m_tail other.m_head
    pure (h, { l with m_len := m_len }, { other with m_len := 0 })

/-- The `while` loop of `list::splice`; the state is `(aux2, m_len)`. -/
def splice_loop (aux other_tail : Nat) : Nat → Heap α → Nat → Nat → Except Fault (Heap α × Nat)
  | 0, _, _, _ => .error .out_of_fuel
  | fuel + 1, h, aux2, m_len =>
    if aux2 ≠ other_tail then do
      let aux3 ← getNext h aux2
      let ap ← getPrev h aux
      let h ← setPrev h aux2 ap
      let h ← setNext h aux2 aux
      let ap ← getPrev h aux
      let h ← setNext h ap aux2
      let h ← setPrev h aux aux2
      splice_loop aux other_tail fuel h aux3 (m_len + 1)
    else pure (h, m_len)

/-- `list::splice(const_iterator pos, list &other)`; `this_is_other` is the
identity test `this == &other`, as in `merge`. -/
def splice (fuel : Nat) (h : Heap α) (l : list) (pos : const_iterator) (other : list)
    (this_is_other : Bool) : Except Fault (Heap α × list × list) :=
  if this_is_other then pure (h, l, other)
  else do
    let aux := pos.m_ptr
    let aux2 ← getNext h other.m_head
    let (h, m_len) ← splice_loop aux other.m_tail fuel h aux2 l.m_len
    let h ← setNext h other.m_head other.m_tail
    let h ← setPrev h other.m_tail other.m_head
    pure (h, { l with m_len := m_len }, { other with m_len := 0 })

/-- The `for` loop of `list::reverse`; the state is `(it, aux)`. -/
def reverse_loop (end_ : iterator) : Nat → Heap α → iterator → list → Except Fault (Heap α × list)
  | 0, _, _, _ => .error .out_of_fuel
  | fuel + 1, h, it, aux =>
    if it.ne end_ then do
      let v ← it.deref h
      let (h, aux) ← aux.push_front h v
      let it ← it.post_inc h
      reverse_loop end_ fuel h it aux
    else pure (h, aux)

/-- `list::reverse`; the local `aux` is destroyed on return. -/
def reverse [LT α] [DecidableRel (fun (x y : α) => x < y)] [Inhabited α] (fuel : Nat)
    (h : Heap α) (l : list) : Except Fault (Heap α × list) := do
  let (h, aux) ← list_default h
  let it ← l.begin_ h
  let (h, aux) ← reverse_loop l.end_ fuel h it aux
  let (h, l) ← l.clear fuel h
  let (h, l, aux) ← l.merge fuel h aux false
  let h ← aux.destroy fuel h
  pure (h, l)

/-- The inner `while` loop of `list::unique`; the state is `(*this, it2)`. -/
def unique_inner [DecidableEq α] (it : iterator) :
    Nat → Heap α → list → iterator → Except Fault (Heap α × list × iterator)
  | 0, _, _, _ => .error .out_of_fuel
  | fuel + 1, h, l, it2 =>
    if it2.ne l.end_ then do
      let a ← it.deref h
      let b ← it2.deref h
      if a = b then do
        let (h, l, it2) ← l.erase h it2
        unique_inner it fuel h l it2
      else pure (h, l, it2)
    else pure (h, l, it2)

/-- The outer `while` loop of `list::unique`; the state is `(*this, it)`. -/
def unique_outer [DecidableEq α] : Nat → Heap α → list → iterator → Except Fault (Heap α × list)
  | 0, _, _, _ => .error .out_of_fuel
  | fuel + 1, h, l, it =>
    if it.ne l.end_ then do
      let it2 ← it.post_inc h
      let (h, l, _) ← unique_inner it fuel h l it2
      let it ← it.post_inc h
      unique_outer fuel h l it
    else pure (h, l)

/-- `list::unique`. -/
def unique [DecidableEq α] (fuel : Nat) (h : Heap α) (l : list) : Except Fault (Heap α × list) := do
  let it ← l.begin_ h
  unique_outer fuel h l it

/-- The two copying `for` loops of `list::sort`: `count` times
`dst.push_back(*it); it++`. -/
def sort_fill : Nat → Heap α → iterator → list → Except Fault (Heap α × iterator × list)
  | 0, h, it, dst => pure (h, it, dst)
  | k + 1, h, it, dst => do
    let v ← it.deref h
    let (h, dst) ← dst.push_back h v
    let it ← it.post_inc h
    sort_fill k h it dst

/-- `list::sort`; `fuel` bounds the recursion depth (and the loops of the two
merges).  The locals `right` and `left` are destroyed on return. -/
def sort [LT α] [DecidableRel (fun (x y : α) => x < y)] [Inhabited α] :
    Nat → Heap α → list → Except Fault (Heap α × list)
  | 0, _, _ => .error .out_of_fuel
  | fuel + 1, h, l =>
    if l.m_len ≤ 1 then pure (h, l)
    else do
      let (h, left) ← list_count h (size_t_dec (l.m_len / 2))
      let (h, right) ← list_count h (l.m_len / 2 + 1)
      let it ← l.begin_ h
      let (h, it, left) ← sort_fill (l.m_len / 2) h it left
      let (h, _, right) ← sort_fill (l.m_len - l.m_len / 2) h it right
      let (h, left) ← sort fuel h left
      let (h, right) ← sort fuel h right
      let rb ← right.begin_ h
      let (h, left) ← if left.end_.eq rb then left.pop_back h else pure (h, left)
      let (h, right, left) ← right.merge fuel h left false
      let (h, left, right) ← left.merge fuel h right false
      let h ← right.destroy fuel h
      let h ← left.destroy fuel h
      pure (h, l)

/-- The statements of `list::sort` between the test `m_len <= 1` and the two
recursive calls: the declarations of `left` and `right` and the two copying
loops.  The result is `(left, right)`. -/
def sort_split [Inhabited α] (h : Heap α) (l : list) : Except Fault (Heap α × list × list) := do
  let (h, left) ← list_count h (size_t_dec (l.m_len / 2))
  let (h, right) ← list_count h (l.m_len / 2 + 1)
  let it ← l.begin_ h
  let (h, it, left) ← sort_fill (l.m_len / 2) h it left
  let (h, _, right) ← sort_fill (l.m_len - l.m_len / 2) h it right
  pure (h, left, right)

/-- The body of `list::sort` with its two recursive calls `left.sort()` and
`right.sort()` made through `rec`; `fuel` bounds the loops of the two merges
and of the destructors.  `sort (fuel + 1)` is `sort_body (sort fuel) fuel`. -/
def sort_body [LT α] [DecidableRel (fun (x y : α) => x < y)] [Inhabited α]
    (rec : Heap α → list → Except Fault (Heap α × list)) (fuel : Nat) (h : Heap α) (l : list) :
    Except Fault (Heap α × list) :=
  if l.m_len ≤ 1 then pure (h, l)
  else do
    let (h, left, right) ← sort_split h l
    let (h, left) ← rec h left
    let (h, right) ← rec h right
    let rb ← right.begin_ h
    let (h, left) ← if left.end_.eq rb then left.pop_back h else pure (h, left)
    let (h, right, left) ← right.merge fuel h left false
    let (h, left, right) ← left.merge fuel h right false
    let h ← right.destroy fuel h
    let h ← left.destroy fuel h
    pure (h, l)

/-- `list::cbegin()`. -/
def cbegin (h : Heap α) (l : list) : Except Fault const_iterator := do
  let n ← getNext h l.m_head
  pure ⟨n⟩

/-- `list::cend()`. -/
def cend (l : list) : const_iterator := ⟨l.m_tail⟩

/-- `list::front()`; the `const` overload has the same body.  The function
has no assignment, so the heap and the list object are only read. -/
def front (h : Heap α) (l : list) : Except Fault α :=
  if l.empty then .error .out_of_range
  else do
    let first ← getNext h l.m_head
    getData h first

/-- `list::back()`; the `const` overload has the same body.  The function has
no assignment, so the heap and the list object are only read. -/
def back (h : Heap α) (l : list) : Except Fault α :=
  if l.empty then .error .out_of_range
  else do
    let last ← getPrev h l.m_tail
    getData h last

/-- `list::pop_front`. -/
def pop_front (h : Heap α) (l : list) : Except Fault (Heap α × list) := do
  let hn ← getNext h l.m_head
  if hn ≠ l.m_tail then do
    let first ← getNext h l.m_head
    let new_first ← getNext h first
    let h ← setNext h l.m_head new_first
    let h ← setPrev h new_first l.m_head
    let h ← h.delete first
    pure (h, { l with m_len := size_t_dec l.m_len })
  else pure (h, l)

/-- The `while` loop of `list::erase(iterator start, iterator end)`; the state
is `(start, m_len)`. -/
def erase_range_loop (end_ : iterator) :
    Nat → Heap α → iterator → Nat → Except Fault (Heap α × Nat)
  | 0, _, _, _ => .error .out_of_fuel
  | fuel + 1, h, start, m_len =>
    if start.ne end_ then do
      let aux := start.m_ptr
      let start ← start.post_inc h
      let h ← h.delete aux
      erase_range_loop end_ fuel h start (size_t_dec m_len)
    else pure (h, m_len)

/-- `list::erase(iterator start, iterator end)`. -/
def erase_range (fuel : Nat) (h : Heap α) (l : list) (start end_ : iterator) :
    Except Fault (Heap α × list × iterator) := do
  let prevNode ← getPrev h start.m_ptr
  let nextNode := end_.m_ptr
  let (h, m_len) ← erase_range_loop end_ fuel h start l.m_len
  let h ← setNext h prevNode nextNode
  let h ← setPrev h nextNode prevNode
  pure (h, { l with m_len := m_len }, ⟨nextNode⟩)

/-- The `for` loop of `list::find(const T &value_)`. -/
def find_loop [DecidableEq α] (end_ : iterator) (value_ : α) :
    Nat → Heap α → iterator → Except Fault iterator
  | 0, _, _ => .error .out_of_fuel
  | fuel + 1, h, it =>
    if it.ne end_ then do
      let v ← it.deref h
      if v = value_ then pure it
      else do
        let it ← it.post_inc h
        find_loop end_ value_ fuel h it
    else pure end_

/-- `list::find(const T &value_)`, the non-`const` overload.  The `const`
overload has the same body text; it calls the non-`const` `begin()` and
`end()` and returns an `iterator` as a `const_iterator`, so it cannot be
instantiated.  The function has no assignment to the list. -/
def find [DecidableEq α] (fuel : Nat) (h : Heap α) (l : list) (value_ : α) :
    Except Fault iterator := do
  let it ← l.begin_ h
  find_loop l.end_ value_ fuel h it

/-- The `while` loop of `list::list(InputIt first, InputIt last)`:
`push_back(*first); first++` for every value of the source range. -/
def list_range_loop (h : Heap α) (l : list) : List α → Except Fault (Heap α × list)
  | [] => pure (h, l)
  | v :: vs => do
    let (h, l) ← l.push_back h v
    list_range_loop h l vs

/-- The `while` loop of the copy constructor; the state is `(runo, p)`. -/
def list_copy_loop (clone_tail m_tail : Nat) : Nat → Heap α → Nat → Nat → Except Fault (Heap α)
  | 0, _, _, _ => .error .out_of_fuel
  | fuel + 1, h, runo, p =>
    if runo ≠ clone_tail then do
      let d ← getData h runo
      let (h, nn) := h.alloc ⟨d, m_tail, p⟩
      let h ← setNext h p nn
      let h ← setPrev h m_tail nn
      let runo ← getNext h runo
      list_copy_loop clone_tail m_tail fuel h runo nn
    else pure h

/-- `list::list(const list &clone_)`.  The constructor has no member
initialiser, so its first statement `m_head = new Node(T(), m_tail, nullptr)`
reads `m_tail` before it is assigned; `uninit` is that indeterminate value. -/
def list_copy [Inhabited α] (fuel : Nat) (h : Heap α) (uninit : Nat) (clone_ : list) :
    Except Fault (Heap α × list) := do
  let (h, m_head) := h.alloc ⟨default, uninit, 0⟩
  let (h, m_tail) := h.alloc ⟨default, 0, m_head⟩
  let runo ← getNext h clone_.m_head
  let h ← list_copy_loop clone_.m_tail m_tail fuel h runo m_head
  pure (h, ⟨clone_.m_len, m_head, m_tail⟩)

/-- `list::list(InputIt first, InputIt last)`; the source range is the
sequence `src` of the values it yields.  As in the copy constructor, the
first allocation reads `m_tail` before it is assigned; `uninit` is that
indeterminate value. -/
def list_range [Inhabited α] (h : Heap α) (uninit : Nat) (src : List α) :
    Except Fault (Heap α × list) := do
  let (h, m_head) := h.alloc ⟨default, uninit, 0⟩
  let (h, m_tail) := h.alloc ⟨default, 0, m_head⟩
  list_range_loop h ⟨0, m_head, m_tail⟩ src

/-- The `for` loop of `operator==` on lists, run for the remaining count;
`!(*it1 == *it2) == 1` is `*it1 != *it2`. -/
def list_eq_loop [DecidableEq α] :
    Nat → Heap α → const_iterator → const_iterator → Except Fault Bool
  | 0, _, _, _ => pure true
  | k + 1, h, it1, it2 => do
    let d1 ← it1.deref h
    let d2 ← it2.deref h
    if d1 ≠ d2 then pure false
    else do
      let it1 ← it1.post_inc h
      let it2 ← it2.post_inc h
      list_eq_loop k h it1 it2

/-- `operator==(const list &l1_, const list &l2_)`. -/
def list_eq [DecidableEq α] (h : Heap α) (l1_ l2_ : list) : Except Fault Bool :=
  if l1_.size ≠ l2_.size then pure false
  else do
    let it1 ← l1_.cbegin h
    let it2 ← l2_.cbegin h
    list_eq_loop l1_.size h it1 it2

/-- `operator!=(const list &l1_, const list &l2_)`. -/
def list_ne [DecidableEq α] (h : Heap α) (l1_ l2_ : list) : Except Fault Bool := do
  let r ← list_eq h l1_ l2_
  pure (!r)

/-- The client loop `for (i = 0; i < n; i++) l.pop_back()`. -/
def pop_back_n : Nat → Heap α → list → Except Fault (Heap α × list)
  | 0, h, l => pure (h, l)
  | n + 1, h, l => do
    let (h, l) ← l.pop_back h
    pop_back_n n h l

/-- The client loop `for (it = l.begin(); it != l.end(); it++)` that records
the node each position references (the identity the iterator prints). -/
def traverse_nodes_loop (end_ : iterator) : Nat → Heap α → iterator → Except Fault (List Nat)
  | 0, _, _ => .error .out_of_fuel
  | fuel + 1, h, it =>
    if it.ne end_ then do
      let nxt ← it.post_inc h
      let rest ← traverse_nodes_loop end_ fuel h nxt
      pure (it.m_ptr :: rest)
    else pure []

/-- The nodes of `l` in traversal order. -/
def traverse_nodes (fuel : Nat) (h : Heap α) (l : list) : Except Fault (List Nat) := do
  let it ← l.begin_ h
  traverse_nodes_loop l.end_ fuel h it

/-- The client loop `for (v : vs) l.push_back(v)`. -/
def push_back_all (h : Heap α) (l : list) : List α → Except Fault (Heap α × list)
  | [] => pure (h, l)
  | v :: vs => do
    let (h, l) ← l.push_back h v
    push_back_all h l vs

/-- The client loop `for (it = l.begin(); it != l.end(); it++) out.push_back(*it)`. -/
def traverse_loop (end_ : iterator) : Nat → Heap α → iterator → Except Fault (List α)
  | 0, _, _ => .error .out_of_fuel
  | fuel + 1, h, it =>
    if it.ne end_ then do
      let v ← it.deref h
      let it ← it.post_inc h
      let rest ← traverse_loop end_ fuel h it
      pure (v :: rest)
    else pure []

/-- The forward traversal of `l` from `begin()` to `end()`: the values met. -/
def traverse (fuel : Nat) (h : Heap α) (l : list) : Except Fault (List α) := do
  let it ← l.begin_ h
  traverse_loop l.end_ fuel h it

end list

/-! ## The sentinel chain as a predicate -/

/-- The address of the first cell of `cs`, or `e` when there is none. -/
def hdAddr (cs : List (Nat × α)) (e : Nat) : Nat :=
  match cs with
  | [] => e
  | c :: _ => c.1

/-- The address of the last cell of `cs`, or `p` when there is none. -/
def lastAddr (cs : List (Nat × α)) (p : Nat) : Nat :=
  match cs with
  | [] => p
  | c :: rest => lastAddr rest c.1

/-- The cells `cs` (address and value) are linked in both directions as one
segment of the heap, entered from `p` and left towards `e`. -/
def Seg (h : Heap α) : Nat → List (Nat × α) → Nat → Prop
  | _, [], _ => True
  | p, c :: rest, e => h.read c.1 = some ⟨c.2, hdAddr rest e, p⟩ ∧ Seg h c.1 rest e

/-- The list object `l` owns exactly the real nodes `cs`, in this order,
between its two sentinels: `head.next` is the first real node (or the tail),
`tail.prev` the last (or the head), `next` and `prev` are mutually inverse
along the chain, and no node occurs twice. -/
def Rep (h : Heap α) (l : list) (cs : List (Nat × α)) : Prop :=
  (l.m_head :: (cs.map Prod.fst ++ [l.m_tail])).Nodup ∧
  (h.read l.m_head).map Node.next = some (hdAddr cs l.m_tail) ∧
  Seg h l.m_head cs l.m_tail ∧
  (h.read l.m_tail).map Node.prev = some (lastAddr cs l.m_head)

/-- The cached-length invariant: `m_len` is the number of real nodes. -/
def LenOK (l : list) (cs : List (Nat × α)) : Prop := l.m_len = cs.length

instance (l : list) (cs : List (Nat × α)) : Decidable (LenOK l cs) := by
  unfold LenOK
  exact inferInstance

/-- The cached-length invariant of the list `l` in the heap `h`: the real
nodes strictly between the two sentinels form a well-linked chain `cs`, and
`size()` is their number. -/
def LenInv (h : Heap α) (l : list) : Prop := ∃ cs : List (Nat × α), Rep h l cs ∧ LenOK l cs

/-- The call `f` on a list leaves alone what was there before it: whenever
it returns on a list that satisfies the cached-length invariant, the list
object is the one passed in, no address has been given back to the allocator
and every heap cell that existed before the call reads as before. -/
def SortFrame (f : Heap α → list → Except Fault (Heap α × list)) : Prop :=
  ∀ (h : Heap α) (l : list) (cs : List (Nat × α)), Rep h l cs → LenOK l cs →
    ∀ r, f h l = .ok r →
      r.2 = l ∧ h.brk ≤ r.1.brk ∧ ∀ q, q ≤ h.brk → r.1.read q = h.read q

/-- The result of a call from its exit state: the exception the call exits
by, or the state on a normal return. -/
def exit_result {σ : Type} (s : σ × Option Fault) : Except Fault σ :=
  match s.2 with
  | some e => .error e
  | none => .ok s.1

/-- The addresses of all nodes of `l`: head sentinel, real nodes, tail sentinel. -/
def footprint (l : list) (cs : List (Nat × α)) : List Nat :=
  l.m_head :: (cs.map Prod.fst ++ [l.m_tail])

/-- The computation `r` returns normally and its result satisfies `P`. -/
def Returns {ε β : Type} (r : Except ε β) (P : β → Prop) : Prop :=
  match r with
  | .ok x => P x
  | .error _ => False

/-- Decision procedure for `Seg`, by recursion on the cells. -/
def Seg.decide [DecidableEq α] (h : Heap α) :
    (p : Nat) → (cs : List (Nat × α)) → (e : Nat) → Decidable (Seg h p cs e)
  | _, [], _ => isTrue trivial
  | p, c :: rest, e =>
    match Seg.decide h c.1 rest e with
    | isTrue hs =>
      if hr : h.read c.1 = some ⟨c.2, hdAddr rest e, p⟩ then isTrue ⟨hr, hs⟩
      else isFalse fun hh => hr hh.1
    | isFalse hs => isFalse fun hh => hs hh.2

instance [DecidableEq α] (h : Heap α) (p : Nat) (cs : List (Nat × α)) (e : Nat) :
    Decidable (Seg h p cs e) := Seg.decide h p cs e

instance [DecidableEq α] (h : Heap α) (l : list) (cs : List (Nat × α)) :
    Decidable (Rep h l cs) := by
  unfold Rep
  exact inferInstance

/-- The heap whose live nodes are `nodes`, at the addresses `1, 2, …`. -/
def Heap.of_nodes (nodes : List (Node α)) : Heap α :=
  { node := fun p => nodes[p - 1]?, brk := nodes.length }

/-- An example heap: the list `[1, 3, 5]` (sentinels at 1 and 2) and the list
`[2, 4]` (sentinels at 6 and 7), as left by `push_back` on two fresh lists. -/
def demo_heap : Heap Nat :=
  Heap.of_nodes [⟨0, 3, 0⟩, ⟨0, 0, 5⟩, ⟨1, 4, 1⟩, ⟨3, 5, 3⟩, ⟨5, 2, 4⟩,
    ⟨0, 8, 0⟩, ⟨0, 0, 9⟩, ⟨2, 9, 6⟩, ⟨4, 7, 8⟩]

/-- The list object of `[1, 3, 5]` in `demo_heap`. -/
def demo_a : list := ⟨3, 1, 2⟩

/-- The list object of `[2, 4]` in `demo_heap`. -/
def demo_b : list := ⟨2, 6, 7⟩

/-- An example heap: an empty list, sentinels at 1 and 2. -/
def demo_heap_e : Heap Nat := Heap.of_nodes [⟨0, 2, 0⟩, ⟨0, 0, 1⟩]

/-- The list object of the empty list in `demo_heap_e`. -/
def demo_e : list := ⟨0, 1, 2⟩

/-- An example heap: the list `[1]` (sentinels at 1 and 2, node 3) and a
second list `[1]` (sentinels at 4 and 5, node 6). -/
def demo_heap_t : Heap Nat :=
  Heap.of_nodes [⟨0, 3, 0⟩, ⟨0, 0, 3⟩, ⟨1, 2, 1⟩, ⟨0, 6, 0⟩, ⟨0, 0, 6⟩, ⟨1, 5, 4⟩]

/-- The list object of the first list `[1]` in `demo_heap_t`. -/
def demo_ta : list := ⟨1, 1, 2⟩

/-- The list object of the second list `[1]` in `demo_heap_t`. -/
def demo_tb : list := ⟨1, 4, 5⟩

/-- The cells of the receiver when the `while` loop of `merge` exits: the
receiver's cells with the cells moved over from `other` in front of them. -/
def merge_done [LT α] [DecidableRel (fun (x y : α) => x < y)] :
    List (Nat × α) → List (Nat × α) → List (Nat × α)
  | [], _ => []
  | x :: ca, [] => x :: ca
  | x :: ca, y :: cb =>
    if x.2 < y.2 then x :: merge_done ca (y :: cb) else y :: merge_done (x :: ca) cb
termination_by ca cb => ca.length + cb.length

/-- The cells of `other` not yet moved when the `while` loop of `merge` exits. -/
def merge_rest [LT α] [DecidableRel (fun (x y : α) => x < y)] :
    List (Nat × α) → List (Nat × α) → List (Nat × α)
  | [], cb => cb
  | _ :: _, [] => []
  | x :: ca, y :: cb =>
    if x.2 < y.2 then merge_rest ca (y :: cb) else merge_rest (x :: ca) cb
termination_by ca cb => ca.length + cb.length

/-- Heap `h2` is heap `h` after the chain from `f` to `t` has been linked in
between the neighbours `ap` and `nx`. -/
def Grafted (h h2 : Heap α) (ap f t nx : Nat) : Prop :=
  ∀ q, h2.read q = (h.read q).map fun n =>
    ⟨n.data, if q = ap then f else if q = t then nx else n.next,
      if q = f then ap else if q = nx then t else n.prev⟩

/-- The sequence `vs` with every maximal run of consecutive equal elements
collapsed to its first element: the head, then the collapse of what is left
once the rest of the head's run has been dropped. -/
def collapse_runs [DecidableEq α] : List α → List α
  | [] => []
  | x :: xs => x :: collapse_runs (xs.dropWhile (fun y => decide (x = y)))
termination_by vs => vs.length
decreasing_by
  simp_wf
  exact Nat.lt_succ_of_le (List.dropWhile_sublist _).length_le

/-- The number of maximal runs of consecutive equal elements: one for the
first element and one more at every element that differs from the one before. -/
def run_count [DecidableEq α] : List α → Nat
  | [] => 0
  | [_] => 1
  | x :: y :: rest => (if x = y then 0 else 1) + run_count (y :: rest)

/-- The same collapse on cells (address and value): of each run the first
node is the one that stays. -/
def collapse_cells [DecidableEq α] : List (Nat × α) → List (Nat × α)
  | [] => []
  | c :: cs => c :: collapse_cells (cs.dropWhile (fun d => decide (c.2 = d.2)))
termination_by cs => cs.length
decreasing_by
  simp_wf
  exact Nat.lt_succ_of_le (List.dropWhile_sublist _).length_le

/-- An example heap: the list `[1, 1, 2, 3, 3]`, sentinels at 1 and 2. -/
def demo_heap_u : Heap Nat :=
  Heap.of_nodes [⟨0, 3, 0⟩, ⟨0, 0, 7⟩, ⟨1, 4, 1⟩, ⟨1, 5, 3⟩, ⟨2, 6, 4⟩, ⟨3, 7, 5⟩, ⟨3, 2, 6⟩]

/-- The list object of `[1, 1, 2, 3, 3]` in `demo_heap_u`. -/
def demo_u : list := ⟨5, 1, 2⟩

/-- Heap `h2` is heap `h` after node `nn` (holding `d`) has been linked in
between the neighbours `pp` and `pos`. -/
def Linked (h h2 : Heap α) (nn : Nat) (d : α) (pp pos : Nat) : Prop :=
  ∀ q, h2.read q =
    if q = nn then some ⟨d, pos, pp⟩
    else if q = pp then (h.read pp).map (fun n => { n with next := nn })
    else if q = pos then (h.read pos).map (fun n => { n with prev := nn })
    else h.read q

/-- Heap `h2` is heap `h` after node `x` has been taken out from between its
neighbours `pp` and `nx` and deleted. -/
def Unlinked (h h2 : Heap α) (x pp nx : Nat) : Prop :=
  ∀ q, h2.read q =
    if q = x then none
    else if q = pp then (h.read pp).map (fun n => { n with next := nx })
    else if q = nx then (h.read nx).map (fun n => { n with prev := pp })
    else h.read q

/-- Heap `h2` is heap `h` after the nodes `xs` have been released and the gap
between the neighbours `pp` and `nx` has been closed. -/
def Cut (h h2 : Heap α) (xs : List Nat) (pp nx : Nat) : Prop :=
  ∀ q, h2.read q =
    if q ∈ xs then none
    else if q = pp then (h.read pp).map (fun n => { n with next := nx })
    else if q = nx then (h.read nx).map (fun n => { n with prev := pp })
    else h.read q

end sc


namespace sc

variable {α : Type}

/-! ## Heap lemmas -/

theorem Heap.read_write (h : Heap α) (p q : Nat) (n : Node α) :
    (h.write p n).read q = if q = p then (h.read p).map (fun _ => n) else h.read q := by
  unfold Heap.read Heap.write
  by_cases hq : q = p
  · subst hq
    by_cases h0 : q = 0 ∨ h.brk < q <;> simp [h0]
  · simp [hq]

theorem Heap.read_alloc (h : Heap α) (n : Node α) (q : Nat) :
    (h.alloc n).1.read q = if q = h.brk + 1 then some n else h.read q := by
  unfold Heap.read Heap.alloc
  by_cases hq : q = h.brk + 1
  · subst hq; simp
  · by_cases h0 : q = 0
    · simp [h0]
    · by_cases h1 : h.brk < q
      · have : h.brk + 1 < q := by omega
        simp [hq, h0, h1, this]
      · have : ¬ h.brk + 1 < q := by omega
        simp [hq, h0, h1, this]

theorem Heap.read_free (h : Heap α) (p q : Nat) :
    (h.free p).read q = if q = p then none else h.read q := by
  unfold Heap.read Heap.free
  by_cases hq : q = p <;> simp [hq]

@[simp] theorem Heap.free_brk (h : Heap α) (p : Nat) : (h.free p).brk = h.brk := rfl

@[simp] theorem Heap.alloc_snd (h : Heap α) (n : Node α) : (h.alloc n).2 = h.brk + 1 := rfl
@[simp] theorem Heap.alloc_brk (h : Heap α) (n : Node α) : (h.alloc n).1.brk = h.brk + 1 := rfl
@[simp] theorem Heap.write_brk (h : Heap α) (p : Nat) (n : Node α) : (h.write p n).brk = h.brk := rfl

theorem Heap.read_some_le {h : Heap α} {p : Nat} {n : Node α} (hr : h.read p = some n) :
    p ≤ h.brk ∧ p ≠ 0 := by
  unfold Heap.read at hr
  by_cases h0 : p = 0 ∨ h.brk < p
  · simp [h0] at hr
  · omega

theorem Heap.read_fresh (h : Heap α) {p : Nat} (hp : h.brk < p) : h.read p = none := by
  unfold Heap.read; simp [hp]

/-! ## The `Returns` predicate -/

@[simp] theorem ok_bind {ε β γ : Type} (a : β) (f : β → Except ε γ) :
    (Except.ok a >>= f) = f a := rfl

@[simp] theorem error_bind {ε β γ : Type} (e : ε) (f : β → Except ε γ) :
    (Except.error e >>= f) = Except.error e := rfl

@[simp] theorem Returns_ok {ε β : Type} (x : β) (P : β → Prop) :
    Returns (Except.ok x : Except ε β) P ↔ P x := Iff.rfl

@[simp] theorem Returns_pure {ε β : Type} (x : β) (P : β → Prop) :
    Returns (pure x : Except ε β) P ↔ P x := Iff.rfl

@[simp] theorem Returns_error {ε β : Type} (e : ε) (P : β → Prop) :
    Returns (Except.error e : Except ε β) P ↔ False := Iff.rfl

theorem Returns_bind {ε β γ : Type} (r : Except ε β) (f : β → Except ε γ) (P : γ → Prop) :
    Returns (r >>= f) P ↔ Returns r (fun x => Returns (f x) P) := by
  cases r <;> simp

theorem Returns.imp {ε β : Type} {r : Except ε β} {P Q : β → Prop} (hr : Returns r P)
    (hpq : ∀ x, P x → Q x) : Returns r Q := by
  cases r with
  | error e => exact hr
  | ok x => exact hpq x hr

theorem Returns_iff {ε β : Type} (r : Except ε β) (P : β → Prop) :
    Returns r P ↔ ∃ x, r = .ok x ∧ P x := by
  cases r <;> simp

theorem Returns.bind {ε β γ : Type} {r : Except ε β} {f : β → Except ε γ} {P : β → Prop}
    {Q : γ → Prop} (hr : Returns r P) (hf : ∀ x, P x → Returns (f x) Q) :
    Returns (r >>= f) Q :=
  (Returns_bind r f Q).2 (hr.imp hf)

/-! ## Segments -/

@[simp] theorem hdAddr_nil (e : Nat) : hdAddr ([] : List (Nat × α)) e = e := rfl
@[simp] theorem hdAddr_cons (c : Nat × α) (cs : List (Nat × α)) (e : Nat) :
    hdAddr (c :: cs) e = c.1 := rfl
@[simp] theorem lastAddr_nil (p : Nat) : lastAddr ([] : List (Nat × α)) p = p := rfl
@[simp] theorem lastAddr_cons (c : Nat × α) (cs : List (Nat × α)) (p : Nat) :
    lastAddr (c :: cs) p = lastAddr cs c.1 := rfl

theorem hdAddr_append (xs ys : List (Nat × α)) (e : Nat) :
    hdAddr (xs ++ ys) e = hdAddr xs (hdAddr ys e) := by
  cases xs <;> simp

theorem lastAddr_append (xs ys : List (Nat × α)) (p : Nat) :
    lastAddr (xs ++ ys) p = lastAddr ys (lastAddr xs p) := by
  induction xs generalizing p with
  | nil => simp
  | cons c cs ih => simp [ih]

theorem hdAddr_mem (cs : List (Nat × α)) (e : Nat) (hne : cs ≠ []) :
    hdAddr cs e ∈ cs.map Prod.fst := by
  cases cs with
  | nil => exact absurd rfl hne
  | cons c cs => simp

theorem lastAddr_mem (cs : List (Nat × α)) (p : Nat) (hne : cs ≠ []) :
    lastAddr cs p ∈ cs.map Prod.fst := by
  induction cs generalizing p with
  | nil => exact absurd rfl hne
  | cons c cs ih =>
    by_cases hcs : cs = []
    · subst hcs; simp
    · simp only [lastAddr_cons, List.map_cons, List.mem_cons]
      exact Or.inr (ih _ hcs)

@[simp] theorem Seg_nil (h : Heap α) (p e : Nat) : Seg h p [] e ↔ True := Iff.rfl

@[simp] theorem Seg_cons (h : Heap α) (p e : Nat) (c : Nat × α) (cs : List (Nat × α)) :
    Seg h p (c :: cs) e ↔ h.read c.1 = some ⟨c.2, hdAddr cs e, p⟩ ∧ Seg h c.1 cs e := Iff.rfl

theorem Seg_append (h : Heap α) (p e : Nat) (xs ys : List (Nat × α)) :
    Seg h p (xs ++ ys) e ↔ Seg h p xs (hdAddr ys e) ∧ Seg h (lastAddr xs p) ys e := by
  induction xs generalizing p with
  | nil => simp
  | cons c cs ih => simp [ih, hdAddr_append, and_assoc]

theorem Seg_congr {h h2 : Heap α} {p e : Nat} {cs : List (Nat × α)}
    (hq : ∀ q ∈ cs.map Prod.fst, h2.read q = h.read q) (hs : Seg h p cs e) : Seg h2 p cs e := by
  induction cs generalizing p with
  | nil => trivial
  | cons c cs ih =>
    rw [Seg_cons] at hs ⊢
    refine ⟨?_, ih (fun q hm => hq q (by simp at hm ⊢; exact Or.inr hm)) hs.2⟩
    rw [hq c.1 (by simp)]
    exact hs.1

theorem Seg_read {h : Heap α} {p e : Nat} {cs : List (Nat × α)} (hs : Seg h p cs e)
    {q : Nat} (hq : q ∈ cs.map Prod.fst) : ∃ n, h.read q = some n := by
  induction cs generalizing p with
  | nil => simp at hq
  | cons c cs ih =>
    rw [Seg_cons] at hs
    simp only [List.map_cons, List.mem_cons] at hq
    rcases hq with rfl | hq
    · exact ⟨_, hs.1⟩
    · exact ih hs.2 hq

theorem nodup_two {X Y : List Nat} {a b : Nat} (h : (X ++ a :: b :: Y).Nodup) :
    a ≠ b ∧ (∀ q ∈ X, q ≠ a ∧ q ≠ b) ∧ (∀ q ∈ Y, q ≠ a ∧ q ≠ b) := by
  obtain ⟨_, h2, h3⟩ := List.nodup_append.1 h
  obtain ⟨h4, h5⟩ := List.nodup_cons.1 h2
  obtain ⟨h6, _⟩ := List.nodup_cons.1 h5
  refine ⟨fun hab => h4 (by simp [hab]), fun q hq => ⟨?_, ?_⟩, fun q hq => ⟨?_, ?_⟩⟩
  · rintro rfl; exact h3 hq (by simp)
  · rintro rfl; exact h3 hq (by simp)
  · rintro rfl; exact h4 (by simp [hq])
  · rintro rfl; exact h6 hq

theorem nodup_three {X Y : List Nat} {a x b : Nat} (h : (X ++ a :: x :: b :: Y).Nodup) :
    a ≠ x ∧ a ≠ b ∧ x ≠ b ∧ (∀ q ∈ X, q ≠ a ∧ q ≠ x ∧ q ≠ b) ∧
      (∀ q ∈ Y, q ≠ a ∧ q ≠ x ∧ q ≠ b) ∧ (X ++ a :: b :: Y).Nodup := by
  have h1 : (X ++ [a] ++ x :: b :: Y).Nodup := by simpa using h
  obtain ⟨hxb, hl, hr⟩ := nodup_two h1
  obtain ⟨hax, hl2, hr2⟩ := nodup_two (Y := b :: Y) h
  refine ⟨hax, Ne.symm (hr2 b (by simp)).1, hxb, fun q hq => ?_, fun q hq => ?_, ?_⟩
  · exact ⟨(hl2 q hq).1, (hl2 q hq).2, (hl q (by simp [hq])).2⟩
  · exact ⟨(hr2 q (by simp [hq])).1, (hr q hq).1, (hr q hq).2⟩
  · have h2 : (X ++ a :: x :: b :: Y).Perm (x :: (X ++ a :: b :: Y)) := by
      have : (X ++ a :: x :: b :: Y) = (X ++ [a]) ++ x :: (b :: Y) := by simp
      rw [this]
      refine (List.perm_middle).trans ?_
      simp
    exact (List.nodup_cons.1 (h2.nodup_iff.1 h)).2

theorem Seg_link {h h2 : Heap α} {p0 e nn : Nat} {d : α} {A B : List (Nat × α)}
    (hs : Seg h p0 (A ++ B) e) (hA : A ≠ []) (hB : B ≠ [])
    (hnd : ((A ++ B).map Prod.fst).Nodup) (hnn : nn ∉ (A ++ B).map Prod.fst)
    (hl : Linked h h2 nn d (lastAddr A p0) (hdAddr B e)) :
    Seg h2 p0 (A ++ (nn, d) :: B) e := by
  obtain ⟨A', a, rfl⟩ : ∃ A' a, A = A' ++ [a] := by
    rcases List.eq_nil_or_concat A with h1 | ⟨A', a, h1⟩
    · exact absurd h1 hA
    · exact ⟨A', a, by simpa using h1⟩
  obtain ⟨b, B', rfl⟩ : ∃ b B', B = b :: B' := List.exists_cons_of_ne_nil hB
  simp only [lastAddr_append, lastAddr_cons, lastAddr_nil, hdAddr_cons] at hl
  simp only [List.map_append, List.map_cons, List.map_nil, List.mem_append, List.mem_cons,
    List.mem_singleton, List.not_mem_nil, or_false, not_or] at hnn
  obtain ⟨⟨hnA, hna⟩, hnb, hnB⟩ := hnn
  have hnd2 : (A'.map Prod.fst ++ a.1 :: b.1 :: B'.map Prod.fst).Nodup := by simpa using hnd
  obtain ⟨hab, hA', hB'⟩ := nodup_two hnd2
  simp only [Seg_append, Seg_cons, Seg_nil, hdAddr_cons, lastAddr_append, lastAddr_cons,
    lastAddr_nil, and_true, hdAddr_nil] at hs ⊢
  obtain ⟨⟨hsA, ha⟩, hb, hsB⟩ := hs
  have frame : ∀ q, q ≠ nn → q ≠ a.1 → q ≠ b.1 → h2.read q = h.read q := by
    intro q h1 h2' h3
    rw [hl q]; simp [h1, h2', h3]
  refine ⟨⟨Seg_congr (fun q hq => ?_) hsA, ?_⟩, ?_, ?_, Seg_congr (fun q hq => ?_) hsB⟩
  · exact frame q (fun hh => hnA (hh ▸ hq)) (hA' q hq).1 (hA' q hq).2
  · rw [hl a.1]; simp [Ne.symm hna, ha]
  · rw [hl nn]; simp
  · rw [hl b.1]; simp [Ne.symm hnb, Ne.symm hab, hb]
  · exact frame q (fun hh => hnB (hh ▸ hq)) (hB' q hq).1 (hB' q hq).2

theorem Seg_unlink {h h2 : Heap α} {p0 e : Nat} {x : Nat × α} {A B : List (Nat × α)}
    (hs : Seg h p0 (A ++ x :: B) e) (hA : A ≠ []) (hB : B ≠ [])
    (hnd : ((A ++ x :: B).map Prod.fst).Nodup)
    (hl : Unlinked h h2 x.1 (lastAddr A p0) (hdAddr B e)) :
    Seg h2 p0 (A ++ B) e := by
  obtain ⟨A', a, rfl⟩ : ∃ A' a, A = A' ++ [a] := by
    rcases List.eq_nil_or_concat A with h1 | ⟨A', a, h1⟩
    · exact absurd h1 hA
    · exact ⟨A', a, by simpa using h1⟩
  obtain ⟨b, B', rfl⟩ : ∃ b B', B = b :: B' := List.exists_cons_of_ne_nil hB
  simp only [lastAddr_append, lastAddr_cons, lastAddr_nil, hdAddr_cons] at hl
  have hnd2 : (A'.map Prod.fst ++ a.1 :: x.1 :: b.1 :: B'.map Prod.fst).Nodup := by simpa using hnd
  obtain ⟨hax, hab, hxb, hA', hB', _⟩ := nodup_three hnd2
  simp only [Seg_append, Seg_cons, Seg_nil, hdAddr_cons, lastAddr_append, lastAddr_cons,
    lastAddr_nil, and_true, hdAddr_nil] at hs ⊢
  obtain ⟨⟨hsA, ha⟩, hx, hb, hsB⟩ := hs
  have frame : ∀ q, q ≠ x.1 → q ≠ a.1 → q ≠ b.1 → h2.read q = h.read q := by
    intro q h1 h2' h3
    rw [hl q]; simp [h1, h2', h3]
  refine ⟨⟨Seg_congr (fun q hq => ?_) hsA, ?_⟩, ?_, Seg_congr (fun q hq => ?_) hsB⟩
  · exact frame q (hA' q hq).2.1 (hA' q hq).1 (hA' q hq).2.2
  · rw [hl a.1]; simp [hax, ha]
  · rw [hl b.1]; simp [Ne.symm hxb, Ne.symm hab, hb]
  · exact frame q (hB' q hq).2.1 (hB' q hq).1 (hB' q hq).2.2

/-! ## The representation predicate -/

theorem Rep_iff_path (h : Heap α) (l : list) (cs : List (Nat × α)) :
    Rep h l cs ↔ (footprint l cs).Nodup ∧
      ∃ x y p0 e, Seg h p0 ((l.m_head, x) :: (cs ++ [(l.m_tail, y)])) e := by
  unfold Rep footprint
  simp only [Seg_cons, Seg_append, Seg_nil, and_true, hdAddr_append, hdAddr_cons, hdAddr_nil]
  constructor
  · rintro ⟨hnd, hh, hs, ht⟩
    refine ⟨hnd, ?_⟩
    cases hrh : h.read l.m_head with
    | none => simp [hrh] at hh
    | some nh =>
      cases hrt : h.read l.m_tail with
      | none => simp [hrt] at ht
      | some nt =>
        simp only [hrh, hrt, Option.map_some', Option.some.injEq] at hh ht
        refine ⟨nh.data, nt.data, nh.prev, nt.next, ?_, hs, ?_⟩
        · rw [← hh]
        · rw [← ht]
  · rintro ⟨hnd, x, y, p0, e, hh, hs, ht⟩
    exact ⟨hnd, by simp [hh], hs, by simp [ht]⟩

theorem Rep.nodup {h : Heap α} {l : list} {cs : List (Nat × α)} (hr : Rep h l cs) :
    (footprint l cs).Nodup := hr.1

theorem Rep_congr {h h2 : Heap α} {l : list} {cs : List (Nat × α)} (hr : Rep h l cs)
    (hq : ∀ q ∈ footprint l cs, h2.read q = h.read q) : Rep h2 l cs := by
  obtain ⟨hnd, hh, hs, ht⟩ := hr
  refine ⟨hnd, ?_, Seg_congr (fun q hm => hq q ?_) hs, ?_⟩
  · rw [hq _ (by simp [footprint])]; exact hh
  · simp only [footprint, List.mem_cons, List.mem_append, List.mem_singleton]
    exact Or.inr (Or.inl hm)
  · rw [hq _ (by simp [footprint])]; exact ht

theorem footprint_path (l : list) (cs : List (Nat × α)) (x y : α) :
    (((l.m_head, x) :: cs) ++ [(l.m_tail, y)]).map Prod.fst = footprint l cs := by
  simp [footprint]

theorem Rep_link {h h2 : Heap α} {l : list} {pre post : List (Nat × α)} {nn : Nat} {d : α}
    (hr : Rep h l (pre ++ post)) (hnn : nn ∉ footprint l (pre ++ post))
    (hl : Linked h h2 nn d (lastAddr pre l.m_head) (hdAddr post l.m_tail)) :
    Rep h2 l (pre ++ (nn, d) :: post) := by
  rw [Rep_iff_path] at hr ⊢
  obtain ⟨hnd, x, y, p0, e, hs⟩ := hr
  have hs2 : Seg h p0 (((l.m_head, x) :: pre) ++ (post ++ [(l.m_tail, y)])) e := by
    simpa using hs
  have hfp : (((l.m_head, x) :: pre) ++ (post ++ [(l.m_tail, y)])).map Prod.fst
      = footprint l (pre ++ post) := by simp [footprint]
  have key : Seg h2 p0 (((l.m_head, x) :: pre) ++ (nn, d) :: (post ++ [(l.m_tail, y)])) e :=
    Seg_link hs2 (by simp) (by simp) (by rw [hfp]; exact hnd) (by rw [hfp]; exact hnn)
      (by simpa [hdAddr_append] using hl)
  refine ⟨?_, x, y, p0, e, by simpa using key⟩
  have hperm : (footprint l (pre ++ (nn, d) :: post)).Perm (nn :: footprint l (pre ++ post)) := by
    simp only [footprint, List.map_append, List.map_cons, List.append_assoc, List.cons_append]
    refine (List.Perm.cons _ List.perm_middle).trans ?_
    exact List.Perm.swap _ _ _
  exact hperm.nodup_iff.2 (List.nodup_cons.2 ⟨hnn, hnd⟩)

theorem Rep_unlink {h h2 : Heap α} {l : list} {pre post : List (Nat × α)} {x : Nat × α}
    (hr : Rep h l (pre ++ x :: post))
    (hl : Unlinked h h2 x.1 (lastAddr pre l.m_head) (hdAddr post l.m_tail)) :
    Rep h2 l (pre ++ post) := by
  rw [Rep_iff_path] at hr ⊢
  obtain ⟨hnd, x0, y, p0, e, hs⟩ := hr
  have hs2 : Seg h p0 (((l.m_head, x0) :: pre) ++ x :: (post ++ [(l.m_tail, y)])) e := by
    simpa using hs
  have hfp : (((l.m_head, x0) :: pre) ++ x :: (post ++ [(l.m_tail, y)])).map Prod.fst
      = footprint l (pre ++ x :: post) := by simp [footprint]
  have key : Seg h2 p0 (((l.m_head, x0) :: pre) ++ (post ++ [(l.m_tail, y)])) e :=
    Seg_unlink hs2 (by simp) (by simp) (by rw [hfp]; exact hnd)
      (by simpa [hdAddr_append] using hl)
  refine ⟨?_, x0, y, p0, e, by simpa using key⟩
  have hperm : (footprint l (pre ++ x :: post)).Perm (x.1 :: footprint l (pre ++ post)) := by
    simp only [footprint, List.map_append, List.map_cons, List.append_assoc, List.cons_append]
    refine (List.Perm.cons _ List.perm_middle).trans ?_
    exact List.Perm.swap _ _ _
  exact (List.nodup_cons.1 (hperm.nodup_iff.1 hnd)).2

/-- The node in front of a position and the node at the position. -/
theorem Rep_read_pos {h : Heap α} {l : list} {pre post : List (Nat × α)}
    (hr : Rep h l (pre ++ post)) :
    (∃ n, h.read (lastAddr pre l.m_head) = some n ∧ n.next = hdAddr post l.m_tail) ∧
    (∃ n, h.read (hdAddr post l.m_tail) = some n ∧ n.prev = lastAddr pre l.m_head) ∧
    lastAddr pre l.m_head ≠ hdAddr post l.m_tail := by
  rw [Rep_iff_path] at hr
  obtain ⟨hnd, x, y, p0, e, hs⟩ := hr
  have hs2 : Seg h p0 (((l.m_head, x) :: pre) ++ (post ++ [(l.m_tail, y)])) e := by
    simpa using hs
  obtain ⟨A', a, hA⟩ : ∃ A' a, (l.m_head, x) :: pre = A' ++ [a] := by
    rcases List.eq_nil_or_concat ((l.m_head, x) :: pre) with h1 | ⟨A', a, h1⟩
    · simp at h1
    · exact ⟨A', a, by simpa using h1⟩
  obtain ⟨b, B', hB⟩ : ∃ b B', post ++ [(l.m_tail, y)] = b :: B' :=
    List.exists_cons_of_ne_nil (by simp)
  have e1 : lastAddr pre l.m_head = a.1 := by
    have := congrArg (fun c => lastAddr c p0) hA
    simpa [lastAddr_append] using this
  have e2 : hdAddr post l.m_tail = b.1 := by
    have := congrArg (fun c => hdAddr c e) hB
    simpa [hdAddr_append] using this
  have hfp : (A' ++ [a] ++ b :: B').map Prod.fst = footprint l (pre ++ post) := by
    rw [← hA, ← hB]; simp [footprint]
  have hnd2 : (A'.map Prod.fst ++ a.1 :: b.1 :: B'.map Prod.fst).Nodup := by
    have := hfp ▸ hnd
    simpa using this
  rw [hA, hB] at hs2
  simp only [Seg_append, Seg_cons, Seg_nil, hdAddr_cons, lastAddr_append, lastAddr_cons,
    lastAddr_nil, and_true, hdAddr_nil] at hs2
  obtain ⟨⟨_, ha⟩, hb, _⟩ := hs2
  rw [e1, e2]
  exact ⟨⟨_, ha, rfl⟩, ⟨_, hb, rfl⟩, (nodup_two hnd2).1⟩

theorem Rep_read_mid {h : Heap α} {l : list} {pre post : List (Nat × α)} {c : Nat × α}
    (hr : Rep h l (pre ++ c :: post)) :
    h.read c.1 = some ⟨c.2, hdAddr post l.m_tail, lastAddr pre l.m_head⟩ := by
  obtain ⟨_, _, hs, _⟩ := hr
  rw [Seg_append, Seg_cons] at hs
  exact hs.2.1

theorem Rep_alloc {h : Heap α} {l : list} {cs : List (Nat × α)} (hr : Rep h l cs) :
    ∀ q ∈ footprint l cs, q ≤ h.brk ∧ q ≠ 0 ∧ ∃ n, h.read q = some n := by
  rw [Rep_iff_path] at hr
  obtain ⟨_, x, y, p0, e, hs⟩ := hr
  intro q hq
  have hq2 : q ∈ (((l.m_head, x) :: (cs ++ [(l.m_tail, y)]))).map Prod.fst := by
    simpa [footprint] using hq
  obtain ⟨n, hn⟩ := Seg_read hs hq2
  exact ⟨(Heap.read_some_le hn).1, (Heap.read_some_le hn).2, n, hn⟩

/-! ## Straight-line blocks -/

theorem Linked_frame {h h2 : Heap α} {nn pp pos : Nat} {d : α} (hl : Linked h h2 nn d pp pos)
    {q : Nat} (h1 : q ≠ nn) (h2' : q ≠ pp) (h3 : q ≠ pos) : h2.read q = h.read q := by
  rw [hl q]; simp [h1, h2', h3]

theorem Unlinked_frame {h h2 : Heap α} {x pp nx : Nat} (hl : Unlinked h h2 x pp nx)
    {q : Nat} (h1 : q ≠ x) (h2' : q ≠ pp) (h3 : q ≠ nx) : h2.read q = h.read q := by
  rw [hl q]; simp [h1, h2', h3]

@[simp] theorem Rep_set_len (h : Heap α) (l : list) (n : Nat) (cs : List (Nat × α)) :
    Rep h { l with m_len := n } cs ↔ Rep h l cs := Iff.rfl

@[simp] theorem footprint_set_len (l : list) (n : Nat) (cs : List (Nat × α)) :
    footprint { l with m_len := n } cs = footprint l cs := rfl

theorem list_default_spec [Inhabited α] (h : Heap α) :
    Returns (list.list_default h) fun r =>
      r.2 = ⟨0, h.brk + 1, h.brk + 2⟩ ∧ r.1.brk = h.brk + 2 ∧ Rep r.1 r.2 [] ∧
      ∀ q, q ≤ h.brk → r.1.read q = h.read q := by
  simp [list.list_default, setNext, setPrev, Heap.read_write, Heap.read_alloc, Rep, footprint]
  intro q hq
  have n1 : q ≠ h.brk + 1 + 1 := by omega
  have n2 : q ≠ h.brk + 1 := by omega
  simp [n1, n2]

theorem push_back_spec {h : Heap α} {l : list} {nt np : Node α} (v : α)
    (ht : h.read l.m_tail = some nt) (hp : h.read nt.prev = some np)
    (hne : nt.prev ≠ l.m_tail) :
    Returns (l.push_back h v) fun r =>
      r.2 = { l with m_len := l.m_len + 1 } ∧ r.1.brk = h.brk + 1 ∧
      Linked h r.1 (h.brk + 1) v nt.prev l.m_tail := by
  have a1 := (Heap.read_some_le ht).1
  have a2 := (Heap.read_some_le hp).1
  have n1 : nt.prev ≠ h.brk + 1 := by omega
  have n2 : l.m_tail ≠ h.brk + 1 := by omega
  simp [list.push_back, getPrev, setNext, setPrev, Heap.read_write, Heap.read_alloc, ht, hp,
    hne, hne.symm, n1, n2, n1.symm, n2.symm, Linked]
  intro q
  split_ifs <;> simp_all

theorem push_front_spec {h : Heap α} {l : list} {nh nn : Node α} (v : α)
    (hh : h.read l.m_head = some nh) (hn : h.read nh.next = some nn)
    (hne : l.m_head ≠ nh.next) :
    Returns (l.push_front h v) fun r =>
      r.2 = { l with m_len := l.m_len + 1 } ∧ r.1.brk = h.brk + 1 ∧
      Linked h r.1 (h.brk + 1) v l.m_head nh.next := by
  have a1 := (Heap.read_some_le hh).1
  have a2 := (Heap.read_some_le hn).1
  have n1 : nh.next ≠ h.brk + 1 := by omega
  have n2 : l.m_head ≠ h.brk + 1 := by omega
  simp [list.push_front, getNext, setNext, setPrev, Heap.read_write, Heap.read_alloc, hh, hn,
    hne, hne.symm, n1, n2, n1.symm, n2.symm, Linked]
  intro q
  split_ifs <;> simp_all

theorem insert_mid_spec {h : Heap α} {l : list} {pos : Nat} {n np : Node α} (v : α)
    (h1 : pos ≠ l.m_head) (h2 : pos ≠ l.m_tail)
    (hpos : h.read pos = some n) (hp : h.read n.prev = some np) (hne : n.prev ≠ pos) :
    Returns (l.insert h ⟨pos⟩ v) fun r =>
      r.2.1 = { l with m_len := l.m_len + 1 } ∧ r.2.2 = ⟨pos⟩ ∧ r.1.brk = h.brk + 1 ∧
      Linked h r.1 (h.brk + 1) v n.prev pos := by
  have a1 := (Heap.read_some_le hpos).1
  have a2 := (Heap.read_some_le hp).1
  have n1 : n.prev ≠ h.brk + 1 := by omega
  have n2 : pos ≠ h.brk + 1 := by omega
  simp [list.insert, getPrev, getNext, getData, setNext, setPrev, Heap.read_write,
    Heap.read_alloc, hpos, hp, h1, h2, hne, hne.symm, n1, n2, n1.symm, n2.symm, Linked]
  intro q
  split_ifs <;> simp_all

theorem erase_mid_spec {h : Heap α} {l : list} {x : Nat} {n np nn : Node α}
    (h1 : x ≠ l.m_head) (h2 : x ≠ l.m_tail)
    (hx : h.read x = some n) (hp : h.read n.prev = some np) (hn : h.read n.next = some nn)
    (hne1 : n.prev ≠ x) (hne2 : n.next ≠ x) (hne3 : n.prev ≠ n.next) :
    Returns (l.erase h ⟨x⟩) fun r =>
      r.2.1 = { l with m_len := size_t_dec l.m_len } ∧ r.2.2 = ⟨n.next⟩ ∧ r.1.brk = h.brk ∧
      Unlinked h r.1 x n.prev n.next := by
  simp [list.erase, getPrev, getNext, setNext, setPrev, Heap.delete, Heap.read_write,
    Heap.read_free, hx, hp, hn, h1, h2, hne1, hne2, hne3, hne1.symm, hne2.symm, hne3.symm,
    Unlinked]
  intro q
  split_ifs <;> simp_all

theorem pop_back_spec {h : Heap α} {l : list} {nt n np : Node α}
    (hlen : l.m_len ≠ 0) (ht : h.read l.m_tail = some nt) (h1 : nt.prev ≠ l.m_head)
    (hx : h.read nt.prev = some n) (hp : h.read n.prev = some np)
    (hne1 : n.prev ≠ nt.prev) (hne2 : l.m_tail ≠ nt.prev) (hne3 : n.prev ≠ l.m_tail) :
    Returns (l.pop_back h) fun r =>
      r.2 = { l with m_len := size_t_dec l.m_len } ∧ r.1.brk = h.brk ∧
      Unlinked h r.1 nt.prev n.prev l.m_tail := by
  simp [list.pop_back, getPrev, getNext, setNext, setPrev, Heap.delete, Heap.read_write,
    Heap.read_free, hx, hp, ht, h1, hlen, hne1, hne2, hne3, hne1.symm, hne2.symm, hne3.symm,
    Unlinked]

/-! ## Member functions on a well-formed list -/

theorem lastAddr_mem_footprint (l : list) (pre post : List (Nat × α)) :
    lastAddr pre l.m_head ∈ footprint l (pre ++ post) := by
  by_cases hp : pre = []
  · subst hp; simp [footprint]
  · have := lastAddr_mem pre l.m_head hp
    simp only [footprint, List.map_append, List.mem_cons, List.mem_append]
    exact Or.inr (Or.inl (Or.inl this))

theorem hdAddr_mem_footprint (l : list) (pre post : List (Nat × α)) :
    hdAddr post l.m_tail ∈ footprint l (pre ++ post) := by
  by_cases hp : post = []
  · subst hp; simp [footprint]
  · have := hdAddr_mem post l.m_tail hp
    simp only [footprint, List.map_append, List.mem_cons, List.mem_append]
    exact Or.inr (Or.inl (Or.inr this))

theorem Rep.fresh {h : Heap α} {l : list} {cs : List (Nat × α)} (hr : Rep h l cs)
    {q : Nat} (hq : h.brk < q) : q ∉ footprint l cs := by
  intro hm
  have := (Rep_alloc hr q hm).1
  omega

theorem Rep_link_frame {h h2 : Heap α} {l : list} {pre post : List (Nat × α)} {nn : Nat} {d : α}
    (hr : Rep h l (pre ++ post)) (hnn : nn ∉ footprint l (pre ++ post))
    (hl : Linked h h2 nn d (lastAddr pre l.m_head) (hdAddr post l.m_tail)) :
    Rep h2 l (pre ++ (nn, d) :: post) ∧
      ∀ q, q ∉ footprint l (pre ++ post) → q ≠ nn → h2.read q = h.read q := by
  refine ⟨Rep_link hr hnn hl, fun q hq hqn => Linked_frame hl hqn ?_ ?_⟩
  · rintro rfl; exact hq (lastAddr_mem_footprint l pre post)
  · rintro rfl; exact hq (hdAddr_mem_footprint l pre post)

theorem Rep_unlink_frame {h h2 : Heap α} {l : list} {pre post : List (Nat × α)} {x : Nat × α}
    (hr : Rep h l (pre ++ x :: post))
    (hl : Unlinked h h2 x.1 (lastAddr pre l.m_head) (hdAddr post l.m_tail)) :
    Rep h2 l (pre ++ post) ∧
      ∀ q, q ∉ footprint l (pre ++ x :: post) → h2.read q = h.read q := by
  refine ⟨Rep_unlink hr hl, fun q hq => Unlinked_frame hl ?_ ?_ ?_⟩
  · rintro rfl; exact hq (by simp [footprint])
  · rintro rfl
    have := lastAddr_mem_footprint l pre (x :: post)
    exact hq this
  · rintro rfl
    have := hdAddr_mem_footprint l (pre ++ [x]) post
    exact hq (by simpa using this)

theorem Rep.pos_ne_head {h : Heap α} {l : list} {pre post : List (Nat × α)}
    (hr : Rep h l (pre ++ post)) : hdAddr post l.m_tail ≠ l.m_head := by
  have hnd := hr.nodup
  simp only [footprint, List.nodup_cons, List.mem_append, List.mem_singleton, not_or] at hnd
  by_cases hp : post = []
  · subst hp; exact Ne.symm hnd.1.2
  · have := hdAddr_mem post l.m_tail hp
    intro he
    rw [he] at this
    exact hnd.1.1 (by simp only [List.map_append, List.mem_append]; exact Or.inr this)

theorem Rep.pos_eq_tail_iff {h : Heap α} {l : list} {pre post : List (Nat × α)}
    (hr : Rep h l (pre ++ post)) : hdAddr post l.m_tail = l.m_tail ↔ post = [] := by
  constructor
  · intro he
    by_contra hp
    have := hdAddr_mem post l.m_tail hp
    rw [he] at this
    have hnd := hr.nodup
    simp only [footprint, List.nodup_cons, List.nodup_append, List.map_append] at hnd
    exact hnd.2.2.2 (List.mem_append.2 (Or.inr this)) (by simp)
  · rintro rfl; rfl

theorem push_back_rep {h : Heap α} {l : list} {cs : List (Nat × α)} (v : α) (hr : Rep h l cs) :
    Returns (l.push_back h v) fun r =>
      r.2 = { l with m_len := l.m_len + 1 } ∧ r.1.brk = h.brk + 1 ∧
      Rep r.1 r.2 (cs ++ [(h.brk + 1, v)]) ∧
      ∀ q, q ∉ footprint l cs → q ≠ h.brk + 1 → r.1.read q = h.read q := by
  have hr2 : Rep h l (cs ++ []) := by simpa using hr
  obtain ⟨⟨np, hp, _⟩, ⟨nt, ht, hprev⟩, hne⟩ := Rep_read_pos hr2
  simp only [hdAddr_nil] at ht hne
  rw [← hprev] at hp hne
  refine (push_back_spec v ht hp hne).imp ?_
  rintro ⟨h2, l2⟩ ⟨rfl, hb, hl⟩
  rw [hprev] at hl
  have := Rep_link_frame hr2 (hr2.fresh (q := h.brk + 1) (by omega)) (by simpa using hl)
  simp only [List.append_nil] at this
  exact ⟨rfl, hb, this.1, this.2⟩

theorem push_front_rep {h : Heap α} {l : list} {cs : List (Nat × α)} (v : α) (hr : Rep h l cs) :
    Returns (l.push_front h v) fun r =>
      r.2 = { l with m_len := l.m_len + 1 } ∧ r.1.brk = h.brk + 1 ∧
      Rep r.1 r.2 ((h.brk + 1, v) :: cs) ∧
      ∀ q, q ∉ footprint l cs → q ≠ h.brk + 1 → r.1.read q = h.read q := by
  have hr2 : Rep h l ([] ++ cs) := by simpa using hr
  obtain ⟨⟨nh, hh, hnext⟩, ⟨nn, hn, _⟩, hne⟩ := Rep_read_pos hr2
  simp only [lastAddr_nil] at hh hne
  rw [← hnext] at hn hne
  refine (push_front_spec v hh hn hne).imp ?_
  rintro ⟨h2, l2⟩ ⟨rfl, hb, hl⟩
  rw [hnext] at hl
  have := Rep_link_frame hr2 (hr2.fresh (q := h.brk + 1) (by omega)) (by simpa using hl)
  simp only [List.nil_append] at this
  exact ⟨rfl, hb, this.1, this.2⟩

theorem insert_rep {h : Heap α} {l : list} {pre post : List (Nat × α)} (v : α)
    (hr : Rep h l (pre ++ post)) :
    Returns (l.insert h ⟨hdAddr post l.m_tail⟩ v) fun r =>
      r.2.1 = { l with m_len := l.m_len + 1 } ∧ r.1.brk = h.brk + 1 ∧
      Rep r.1 r.2.1 (pre ++ (h.brk + 1, v) :: post) ∧
      (∀ q, q ∉ footprint l (pre ++ post) → q ≠ h.brk + 1 → r.1.read q = h.read q) ∧
      r.2.2 = ⟨hdAddr post (h.brk + 1)⟩ := by
  by_cases hp : post = []
  · subst hp
    simp only [List.append_nil] at hr
    have hht : l.m_tail ≠ l.m_head := by
      have := hr.nodup; simp [footprint] at this; exact Ne.symm this.1.2
    have hpb := push_back_rep v hr
    simp only [list.insert, hdAddr_nil, hht, if_false, if_true]
    rw [Returns_iff] at hpb
    obtain ⟨⟨h2, l2⟩, he, rfl, hb, hr2, hfr⟩ := hpb
    have hr3 : Rep h2 l ((pre ++ [(h.brk + 1, v)]) ++ []) := by simpa using hr2
    obtain ⟨_, ⟨nt, ht, hprev⟩, _⟩ := Rep_read_pos hr3
    simp only [hdAddr_nil, lastAddr_append, lastAddr_cons, lastAddr_nil] at ht hprev
    simp [he, getPrev, ht, hprev]
    exact ⟨hb, hr2, hfr⟩
  · have h1 := hr.pos_ne_head
    have h2 : hdAddr post l.m_tail ≠ l.m_tail := fun he => hp (hr.pos_eq_tail_iff.1 he)
    obtain ⟨⟨np, hpp, _⟩, ⟨n, hn, hprev⟩, hne⟩ := Rep_read_pos hr
    rw [← hprev] at hpp hne
    refine (insert_mid_spec v h1 h2 hn hpp hne).imp ?_
    rintro ⟨h2, l2, it⟩ ⟨rfl, rfl, hb, hl⟩
    rw [hprev] at hl
    have := Rep_link_frame hr (hr.fresh (q := h.brk + 1) (by omega)) hl
    obtain ⟨c, post', rfl⟩ := List.exists_cons_of_ne_nil hp
    exact ⟨rfl, hb, this.1, this.2, rfl⟩

theorem lastAddr_mem_cons (cs : List (Nat × α)) (p : Nat) :
    lastAddr cs p ∈ p :: cs.map Prod.fst := by
  by_cases hp : cs = []
  · subst hp; simp
  · exact List.mem_cons_of_mem _ (lastAddr_mem cs p hp)

theorem hdAddr_mem_concat (cs : List (Nat × α)) (e : Nat) :
    hdAddr cs e ∈ cs.map Prod.fst ++ [e] := by
  by_cases hp : cs = []
  · subst hp; simp
  · exact List.mem_append.2 (Or.inl (hdAddr_mem cs e hp))

theorem Rep.mid_ne {h : Heap α} {l : list} {pre post : List (Nat × α)} {x : Nat × α}
    (hr : Rep h l (pre ++ x :: post)) :
    x.1 ≠ l.m_head ∧ x.1 ≠ l.m_tail ∧ lastAddr pre l.m_head ≠ x.1 ∧
      hdAddr post l.m_tail ≠ x.1 ∧ lastAddr pre l.m_head ≠ hdAddr post l.m_tail := by
  have hnd := hr.nodup
  have e1 : footprint l (pre ++ x :: post)
      = (l.m_head :: pre.map Prod.fst) ++ x.1 :: (post.map Prod.fst ++ [l.m_tail]) := by
    simp [footprint]
  rw [e1] at hnd
  obtain ⟨hA, hB, hD⟩ := List.nodup_append.1 hnd
  obtain ⟨hx, hB'⟩ := List.nodup_cons.1 hB
  have m1 := lastAddr_mem_cons pre l.m_head
  have m2 := hdAddr_mem_concat post l.m_tail
  refine ⟨?_, ?_, ?_, ?_, ?_⟩
  · intro he; exact hD (by rw [← he]; simp) (List.mem_cons_self _ _)
  · intro he; exact hx (by rw [he]; simp)
  · intro he; exact hD m1 (by rw [he]; simp)
  · intro he; exact hx (by rw [← he]; exact m2)
  · intro he; exact hD m1 (by rw [he]; exact List.mem_cons_of_mem _ m2)

theorem erase_rep {h : Heap α} {l : list} {pre post : List (Nat × α)} {x : Nat × α}
    (hr : Rep h l (pre ++ x :: post)) :
    Returns (l.erase h ⟨x.1⟩) fun r =>
      r.2.1 = { l with m_len := size_t_dec l.m_len } ∧ r.1.brk = h.brk ∧
      Rep r.1 r.2.1 (pre ++ post) ∧
      (∀ q, q ∉ footprint l (pre ++ x :: post) → r.1.read q = h.read q) ∧
      r.2.2 = ⟨hdAddr post l.m_tail⟩ := by
  obtain ⟨n1, n2, n3, n4, n5⟩ := hr.mid_ne
  have hx := Rep_read_mid hr
  obtain ⟨⟨np, hp, _⟩, _, _⟩ := Rep_read_pos hr
  have hr2 : Rep h l ((pre ++ [x]) ++ post) := by simpa using hr
  obtain ⟨_, ⟨nn, hn, _⟩, _⟩ := Rep_read_pos hr2
  refine (erase_mid_spec (l := l) n1 n2 hx hp hn n3 n4 n5).imp ?_
  rintro ⟨h2, l2, it⟩ ⟨rfl, rfl, hb, hl⟩
  have := Rep_unlink_frame hr hl
  exact ⟨rfl, hb, this.1, this.2, rfl⟩

theorem pop_back_rep {h : Heap α} {l : list} {pre : List (Nat × α)} {x : Nat × α}
    (hr : Rep h l (pre ++ [x])) (hlen : l.m_len ≠ 0) :
    Returns (l.pop_back h) fun r =>
      r.2 = { l with m_len := size_t_dec l.m_len } ∧ r.1.brk = h.brk ∧
      Rep r.1 r.2 pre ∧
      (∀ q, q ∉ footprint l (pre ++ [x]) → r.1.read q = h.read q) := by
  obtain ⟨n1, n2, n3, n4, n5⟩ := hr.mid_ne
  simp only [hdAddr_nil] at n4 n5
  have hx := Rep_read_mid hr
  obtain ⟨⟨np, hp, _⟩, _, _⟩ := Rep_read_pos hr
  have hr2 : Rep h l ((pre ++ [x]) ++ []) := by simpa using hr
  obtain ⟨_, ⟨nt, ht, hprev⟩, _⟩ := Rep_read_pos hr2
  simp only [hdAddr_nil, lastAddr_append, lastAddr_cons, lastAddr_nil] at ht hprev
  have hx2 : h.read nt.prev = some ⟨x.2, l.m_tail, lastAddr pre l.m_head⟩ := by
    rw [hprev]; exact hx
  have key := pop_back_spec hlen ht (by rw [hprev]; exact n1) hx2 hp
    (by rw [hprev]; exact n3) (by rw [hprev]; exact n4) n5
  refine key.imp ?_
  rintro ⟨h2, l2⟩ ⟨rfl, hb, hl⟩
  rw [hprev] at hl
  have hl2 : Unlinked h h2 x.1 (lastAddr pre l.m_head) (hdAddr ([] : List (Nat × α)) l.m_tail) := by
    simpa using hl
  have := Rep_unlink_frame hr hl2
  simp only [List.append_nil] at this
  exact ⟨rfl, hb, this.1, this.2⟩

/-! ## Traversal -/

theorem traverse_loop_seg {h : Heap α} {e : Nat} :
    ∀ (cs : List (Nat × α)) (p fuel : Nat), Seg h p cs e → e ∉ cs.map Prod.fst →
      cs.length < fuel →
      list.traverse_loop ⟨e⟩ fuel h ⟨hdAddr cs e⟩ = .ok (cs.map Prod.snd) := by
  intro cs
  induction cs with
  | nil =>
    intro p fuel _ _ hf
    obtain ⟨k, rfl⟩ : ∃ k, fuel = k + 1 := ⟨fuel - 1, by simp at hf; omega⟩
    simp [list.traverse_loop, iterator.ne]
    rfl
  | cons c cs ih =>
    intro p fuel hs he hf
    obtain ⟨k, rfl⟩ : ∃ k, fuel = k + 1 := ⟨fuel - 1, by simp at hf; omega⟩
    rw [Seg_cons] at hs
    simp only [List.map_cons, List.mem_cons, not_or] at he
    have hk : cs.length < k := by simp at hf; omega
    have := ih c.1 k hs.2 he.2 hk
    simp [list.traverse_loop, iterator.ne, iterator.deref, iterator.post_inc, getData, getNext,
      hs.1, Ne.symm he.1, this]

theorem traverse_rep {h : Heap α} {l : list} {cs : List (Nat × α)} (hr : Rep h l cs)
    {k : Nat} (hf : cs.length < k) :
    l.traverse k h = .ok (cs.map Prod.snd) := by
  obtain ⟨hnd, hh, hs, _⟩ := hr
  cases hrh : h.read l.m_head with
  | none => simp [hrh] at hh
  | some nh =>
    simp only [hrh, Option.map_some', Option.some.injEq] at hh
    have hte : l.m_tail ∉ cs.map Prod.fst := by
      simp only [footprint, List.nodup_cons, List.nodup_append] at hnd
      intro hm
      exact hnd.2.2.2 hm (by simp)
    have := traverse_loop_seg cs l.m_head k hs hte hf
    simp [list.traverse, list.begin_, getNext, hrh, hh, list.end_, this]

/-! ## C1: repeated `push_back` -/

theorem push_back_all_rep (vs : List α) :
    ∀ (h : Heap α) (l : list) (cs : List (Nat × α)), Rep h l cs →
      Returns (list.push_back_all h l vs) fun r =>
        ∃ cs2, Rep r.1 r.2 (cs ++ cs2) ∧ cs2.map Prod.snd = vs ∧
          r.2.m_len = l.m_len + vs.length := by
  induction vs with
  | nil =>
    intro h l cs hr
    simp only [list.push_back_all, Returns_pure]
    exact ⟨[], by simpa using hr, rfl, rfl⟩
  | cons v vs ih =>
    intro h l cs hr
    simp only [list.push_back_all]
    refine (push_back_rep v hr).bind ?_
    rintro ⟨h2, l2⟩ ⟨rfl, _, hr2, _⟩
    refine (ih h2 _ _ hr2).imp ?_
    rintro ⟨h3, l3⟩ ⟨cs2, hr3, hm, hlen⟩
    refine ⟨(h.brk + 1, v) :: cs2, by simpa using hr3, by simp [hm], ?_⟩
    simp only [List.length_cons] at hlen ⊢
    omega

/-- C1: starting from a default-constructed list, `push_back(v)` for each `v`
of `vs` in turn returns normally; the forward traversal from `begin()` to
`end()` then yields exactly `vs`, and `size()` is the length of `vs`. -/
theorem C1_push_back_traversal [Inhabited α] (h0 : Heap α) (vs : List α) :
    ∃ h l, (list.list_default h0 >>= fun r => list.push_back_all r.1 r.2 vs) = .ok (h, l) ∧
      l.traverse (vs.length + 1) h = .ok vs ∧ l.size = vs.length := by
  have key : Returns (list.list_default h0 >>= fun r => list.push_back_all r.1 r.2 vs)
      fun r => r.2.traverse (vs.length + 1) r.1 = .ok vs ∧ r.2.size = vs.length := by
    refine (list_default_spec h0).bind ?_
    rintro ⟨h1, l1⟩ ⟨rfl, _, hr, _⟩
    refine (push_back_all_rep vs h1 _ [] hr).imp ?_
    rintro ⟨h2, l2⟩ ⟨cs2, hr2, hm, hlen⟩
    simp only [List.nil_append] at hr2
    subst hm
    refine ⟨traverse_rep hr2 (by simp), ?_⟩
    simpa [list.size] using hlen
  rw [Returns_iff] at key
  obtain ⟨⟨h, l⟩, he, hp⟩ := key
  exact ⟨h, l, he, hp⟩

/-! ## Ranged insert -/

theorem insert_range_step {h : Heap α} {prevNode nextNode : Nat} {np nn : Node α} (x : α)
    (hp : h.read prevNode = some np) (hn : h.read nextNode = some nn)
    (hne : prevNode ≠ nextNode) :
    ∃ h2, Linked h h2 (h.brk + 1) x prevNode nextNode ∧ h2.brk = h.brk + 1 ∧
      ∀ (rest : List α) (m : Nat),
        list.insert_range_loop nextNode (x :: rest) h prevNode m
          = list.insert_range_loop nextNode rest h2 (h.brk + 1) (m + 1) := by
  have a1 := (Heap.read_some_le hp).1
  have a2 := (Heap.read_some_le hn).1
  have n1 : prevNode ≠ h.brk + 1 := by omega
  have n2 : nextNode ≠ h.brk + 1 := by omega
  refine ⟨((((h.alloc ⟨x, 0, 0⟩).1.write (h.brk + 1) ⟨x, 0, prevNode⟩).write (h.brk + 1)
    ⟨x, nextNode, prevNode⟩).write prevNode { np with next := h.brk + 1 }).write nextNode
    { nn with prev := h.brk + 1 }, ?_, rfl, ?_⟩
  · intro q
    simp only [Heap.read_write, Heap.read_alloc]
    split_ifs <;> simp_all
  · intro rest m
    simp [list.insert_range_loop, setNext, setPrev, Heap.read_write, Heap.read_alloc, hp, hn,
      hne, hne.symm, n1, n2, n1.symm, n2.symm]

theorem insert_range_loop_rep {l : list} {post : List (Nat × α)} (ys : List α) :
    ∀ (h : Heap α) (pre : List (Nat × α)) (m : Nat), Rep h l (pre ++ post) →
      Returns (list.insert_range_loop (hdAddr post l.m_tail) ys h (lastAddr pre l.m_head) m)
        fun r => r.2 = m + ys.length ∧ ∃ cs2, cs2.map Prod.snd = ys ∧
          Rep r.1 l (pre ++ cs2 ++ post) ∧ h.brk ≤ r.1.brk ∧
          ∀ q, q ∉ footprint l (pre ++ post) → q ≤ h.brk → r.1.read q = h.read q := by
  induction ys with
  | nil =>
    intro h pre m hr
    simp only [list.insert_range_loop, Returns_pure]
    refine ⟨rfl, [], rfl, by simpa using hr, le_refl _, ?_⟩
    intro _ _ _; trivial
  | cons x rest ih =>
    intro h pre m hr
    obtain ⟨⟨np, hp, _⟩, ⟨nn, hn, _⟩, hne⟩ := Rep_read_pos hr
    obtain ⟨h2, hl, hb, heq⟩ := insert_range_step x hp hn hne
    rw [heq]
    have hfr := Rep_link_frame hr (hr.fresh (q := h.brk + 1) (by omega)) hl
    have hr2 : Rep h2 l ((pre ++ [(h.brk + 1, x)]) ++ post) := by simpa using hfr.1
    have key := ih h2 (pre ++ [(h.brk + 1, x)]) (m + 1) hr2
    simp only [lastAddr_append, lastAddr_cons, lastAddr_nil] at key
    refine key.imp ?_
    rintro ⟨h3, m3⟩ ⟨hm, cs2, hcs, hr3, hb3, hfr3⟩
    refine ⟨by simp only [List.length_cons] at hm ⊢; omega, (h.brk + 1, x) :: cs2,
      by simp [hcs], by simpa using hr3, by omega, fun q hq hqb => ?_⟩
    have hq2 : q ∉ footprint l (pre ++ [(h.brk + 1, x)] ++ post) := by
      have hqn : q ≠ h.brk + 1 := by omega
      simp only [footprint, List.map_append, List.map_cons, List.map_nil, List.mem_cons,
        List.mem_append, List.mem_singleton, List.not_mem_nil, or_false, not_or] at hq ⊢
      exact ⟨hq.1, ⟨⟨hq.2.1.1, hqn⟩, hq.2.1.2⟩, hq.2.2⟩
    rw [hfr3 q hq2 (by omega)]
    exact hfr.2 q hq (by omega)

theorem insert_range_rep {h : Heap α} {l : list} {pre post : List (Nat × α)} (ys : List α)
    (hr : Rep h l (pre ++ post)) :
    Returns (l.insert_range h ⟨hdAddr post l.m_tail⟩ ys) fun r =>
      r.2.1 = { l with m_len := l.m_len + ys.length } ∧ r.2.2 = ⟨hdAddr post l.m_tail⟩ ∧
      ∃ cs2, cs2.map Prod.snd = ys ∧ Rep r.1 r.2.1 (pre ++ cs2 ++ post) ∧ h.brk ≤ r.1.brk ∧
        ∀ q, q ∉ footprint l (pre ++ post) → q ≤ h.brk → r.1.read q = h.read q := by
  obtain ⟨_, ⟨nn, hn, hprev⟩, _⟩ := Rep_read_pos hr
  simp only [list.insert_range, getPrev, hn, hprev, ok_bind]
  refine (insert_range_loop_rep ys h pre l.m_len hr).bind ?_
  rintro ⟨h2, m2⟩ ⟨hm, cs2, hcs, hr2, hb, hfr⟩
  simp only at hm
  subst hm
  exact ⟨rfl, rfl, cs2, hcs, hr2, hb, hfr⟩

/-! ## C7 – C10: positional insert -/

theorem Rep_head_ne_tail {h : Heap α} {l : list} {cs : List (Nat × α)} (hr : Rep h l cs) :
    l.m_head ≠ l.m_tail := by
  have hnd := hr.nodup
  simp only [footprint, List.nodup_cons, List.mem_append, List.mem_singleton, not_or] at hnd
  exact hnd.1.2

/-- C7: for a list with traversal `pre ++ post` and `pos` the first node of
`post` (or `end()` when `post` is empty), `insert(pos, v)` returns normally,
the traversal becomes `pre ++ [v] ++ post` and `size()` grows by one; at
`begin()` the resulting traversal and size are those of `push_front(v)`, and
at `end()` the resulting heap and list object are those of `push_back(v)`. -/
theorem C7_insert_value (h : Heap α) (l : list) (pre post : List (Nat × α)) (v : α)
    (hr : Rep h l (pre ++ post)) :
    (∃ h2 l2 it, l.insert h ⟨hdAddr post l.m_tail⟩ v = .ok (h2, l2, it) ∧
      l2.traverse (pre.length + post.length + 2) h2
        = .ok (pre.map Prod.snd ++ v :: post.map Prod.snd) ∧
      l2.size = l.size + 1) ∧
    (∃ b h2 l2 it h3 l3, l.begin_ h = .ok b ∧ l.insert h b v = .ok (h2, l2, it) ∧
      l.push_front h v = .ok (h3, l3) ∧
      l2.traverse (pre.length + post.length + 2) h2
        = l3.traverse (pre.length + post.length + 2) h3 ∧
      l2.size = l3.size) ∧
    (∃ h2 l2 it, l.insert h l.end_ v = .ok (h2, l2, it) ∧ l.push_back h v = .ok (h2, l2)) := by
  refine ⟨?_, ?_, ?_⟩
  · have key := insert_rep v hr
    rw [Returns_iff] at key
    obtain ⟨⟨h2, l2, it⟩, he, rfl, _, hr2, _, _⟩ := key
    refine ⟨h2, _, it, he, ?_, rfl⟩
    have := traverse_rep hr2 (k := pre.length + post.length + 2) (by simp; omega)
    simpa using this
  · have hr0 : Rep h l ([] ++ (pre ++ post)) := by simpa using hr
    have key := insert_rep v hr0
    rw [Returns_iff] at key
    obtain ⟨⟨h2, l2, it⟩, he, rfl, _, hr2, _, _⟩ := key
    have key2 := push_front_rep v hr
    rw [Returns_iff] at key2
    obtain ⟨⟨h3, l3⟩, he3, rfl, _, hr3, _⟩ := key2
    obtain ⟨⟨nh, hh, hnext⟩, _, _⟩ := Rep_read_pos hr0
    simp only [lastAddr_nil] at hh
    refine ⟨⟨hdAddr (pre ++ post) l.m_tail⟩, h2, _, it, h3, _, ?_, he, he3, ?_, rfl⟩
    · simp [list.begin_, getNext, hh, hnext]
    · rw [traverse_rep hr2 (by simp), traverse_rep hr3 (by simp)]
      simp
  · have hr0 : Rep h l ((pre ++ post) ++ []) := by simpa using hr
    have key := insert_rep v hr0
    rw [Returns_iff] at key
    obtain ⟨⟨h2, l2, it⟩, he, rfl, _, hr2, _, _⟩ := key
    have key2 := push_back_rep v hr
    rw [Returns_iff] at key2
    obtain ⟨⟨h3, l3⟩, he3, rfl, _, hr3, _⟩ := key2
    simp only [hdAddr_nil] at he
    have hht : l.m_tail ≠ l.m_head := Ne.symm (Rep_head_ne_tail hr)
    refine ⟨h3, _, it, ?_, he3⟩
    have he' := he
    simp only [list.insert, list.end_, hht, if_false, if_true, he3, ok_bind] at he' ⊢
    cases hg : getPrev h3 l.m_tail with
    | error e => simp [hg] at he'
    | ok tp =>
      simp only [hg, ok_bind] at he' ⊢
      simp only [pure, Except.pure, Except.ok.injEq, Prod.mk.injEq] at he'
      obtain ⟨rfl, -, rfl⟩ := he'
      rfl

/-- C7, on the list `[1, 3, 5]`: inserting `9` before the node holding `3`. -/
theorem C7_insert_value_witness :
    ∃ h2 l2 it, demo_a.insert demo_heap ⟨4⟩ 9 = .ok (h2, l2, it) ∧
      l2.traverse 5 h2 = .ok [1, 9, 3, 5] ∧ l2.size = 4 :=
  (C7_insert_value demo_heap demo_a [(3, 1)] [(4, 3), (5, 5)] 9 (by decide)).1

/-- C8 (fails on the code): on the list `[1, 2]`, `insert(begin(), 0)` returns
an iterator that is equal to the position passed in and dereferences to `1`,
the value of the old first node, not to the inserted `0`. -/
theorem C8_insert_returns_pos :
    (do let (h, l) ← list.list_default (Heap.of_nodes ([] : List (Node Nat)))
        let (h, l) ← list.push_back_all h l [1, 2]
        let b ← l.begin_ h
        let (h, _, r) ← l.insert h b 0
        let d ← r.deref h
        pure (d, r.eq b)) = (.ok (1, true) : Except Fault (Nat × Bool)) := by
  rfl

/-- C9 (fails on the code): on the list `[1, 2]`, `r = insert(begin(), 0)`
followed by `erase(r)` leaves the traversal `[0, 2]` with size 2: the erased
node is the old first node, not the inserted one. -/
theorem C9_insert_erase_not_inverse :
    (do let (h, l) ← list.list_default (Heap.of_nodes ([] : List (Node Nat)))
        let (h, l) ← list.push_back_all h l [1, 2]
        let b ← l.begin_ h
        let (h, l, r) ← l.insert h b 0
        let (h, l, _) ← l.erase h r
        let t ← l.traverse 3 h
        pure (t, l.size)) = (.ok ([0, 2], 2) : Except Fault (List Nat × Nat)) := by
  rfl

/-- C10: for a list with traversal `pre ++ post`, `pos` the first node of
`post` (or `end()`), and a source sequence `ys`, the ranged insert and the
initializer-sequence insert return normally, the traversal becomes
`pre ++ ys ++ post` and `size()` grows by the length of `ys`. -/
theorem C10_insert_range (h : Heap α) (l : list) (pre post : List (Nat × α)) (ys : List α)
    (hr : Rep h l (pre ++ post)) :
    (∃ h2 l2 it, l.insert_range h ⟨hdAddr post l.m_tail⟩ ys = .ok (h2, l2, it) ∧
      l2.traverse (pre.length + ys.length + post.length + 1) h2
        = .ok (pre.map Prod.snd ++ ys ++ post.map Prod.snd) ∧
      l2.size = l.size + ys.length) ∧
    (∃ h2 l2 it, l.insert_ilist h ⟨hdAddr post l.m_tail⟩ ys = .ok (h2, l2, it) ∧
      l2.traverse (pre.length + ys.length + post.length + 1) h2
        = .ok (pre.map Prod.snd ++ ys ++ post.map Prod.snd) ∧
      l2.size = l.size + ys.length) := by
  have key := insert_range_rep ys hr
  rw [Returns_iff] at key
  obtain ⟨⟨h2, l2, it⟩, he, rfl, _, cs2, hcs, hr2, _, _⟩ := key
  have ht := traverse_rep hr2 (k := pre.length + ys.length + post.length + 1)
    (by rw [← hcs]; simp; omega)
  have ht2 : list.traverse (pre.length + ys.length + post.length + 1) h2
      { l with m_len := l.m_len + ys.length } = .ok (pre.map Prod.snd ++ ys ++ post.map Prod.snd) := by
    rw [ht, ← hcs]; simp
  exact ⟨⟨h2, _, it, he, ht2, rfl⟩, ⟨h2, _, it, he, ht2, rfl⟩⟩

/-- C10, on the list `[1, 3, 5]`: inserting `[7, 8]` before the node holding `3`. -/
theorem C10_insert_range_witness :
    ∃ h2 l2 it, demo_a.insert_range demo_heap ⟨4⟩ [7, 8] = .ok (h2, l2, it) ∧
      l2.traverse 6 h2 = .ok [1, 7, 8, 3, 5] ∧ l2.size = 5 :=
  (C10_insert_range demo_heap demo_a [(3, 1)] [(4, 3), (5, 5)] [7, 8] (by decide)).1

/-! ## splice -/

theorem mem_footprint_insert {l : list} {pre post : List (Nat × α)} {c : Nat × α} {q : Nat} :
    q ∈ footprint l (pre ++ c :: post) ↔ q = c.1 ∨ q ∈ footprint l (pre ++ post) := by
  simp only [footprint, List.map_append, List.map_cons, List.mem_cons, List.mem_append,
    List.mem_singleton]
  tauto

theorem splice_step {h : Heap α} {aux aux2 ot : Nat} {n2 na np : Node α}
    (hc : h.read aux2 = some n2) (ha : h.read aux = some na) (hp : h.read na.prev = some np)
    (d1 : aux2 ≠ aux) (d2 : aux2 ≠ na.prev) (d3 : na.prev ≠ aux) (hne : aux2 ≠ ot) :
    ∃ h2, Linked h h2 aux2 n2.data na.prev aux ∧ h2.brk = h.brk ∧
      ∀ (fuel m : Nat), list.splice_loop aux ot (fuel + 1) h aux2 m
        = list.splice_loop aux ot fuel h2 n2.next (m + 1) := by
  refine ⟨(((h.write aux2 { n2 with prev := na.prev }).write aux2
    ⟨n2.data, aux, na.prev⟩).write na.prev { np with next := aux2 }).write aux
    { na with prev := aux2 }, ?_, rfl, ?_⟩
  · intro q
    simp only [Heap.read_write]
    split_ifs <;> simp_all
  · intro fuel m
    simp [list.splice_loop, getNext, getPrev, setNext, setPrev, Heap.read_write, hc, ha, hp,
      d1, d2, d3, d1.symm, d2.symm, d3.symm, hne]

theorem splice_loop_rep {a : list} {post : List (Nat × α)} {bt : Nat} {y : α} {eb : Nat} :
    ∀ (restb : List (Nat × α)) (h : Heap α) (pre : List (Nat × α)) (pb fuel m : Nat),
      Rep h a (pre ++ post) → Seg h pb (restb ++ [(bt, y)]) eb →
      (restb.map Prod.fst ++ [bt]).Nodup →
      (∀ q ∈ footprint a (pre ++ post), q ∉ restb.map Prod.fst ++ [bt]) →
      restb.length < fuel →
      Returns (list.splice_loop (hdAddr post a.m_tail) bt fuel h (hdAddr restb bt) m)
        fun r => r.2 = m + restb.length ∧ Rep r.1 a (pre ++ restb ++ post) ∧
          r.1.brk = h.brk ∧
          ∀ q, q ∉ footprint a (pre ++ post) → q ∉ restb.map Prod.fst → r.1.read q = h.read q := by
  intro restb
  induction restb with
  | nil =>
    intro h pre pb fuel m hA _ _ _ hf
    obtain ⟨k, rfl⟩ : ∃ k, fuel = k + 1 := ⟨fuel - 1, by simp at hf; omega⟩
    simp only [list.splice_loop, hdAddr_nil, ne_eq, not_true_eq_false, if_false]
    rw [Returns_pure]
    exact ⟨rfl, by simpa using hA, rfl, fun _ _ _ => rfl⟩
  | cons c rest ih =>
    intro h pre pb fuel m hA hB hnd hdisj hf
    obtain ⟨k, rfl⟩ : ∃ k, fuel = k + 1 := ⟨fuel - 1, by simp at hf; omega⟩
    simp only [List.cons_append, Seg_cons, hdAddr_append, hdAddr_cons, hdAddr_nil] at hB
    obtain ⟨hc, hB'⟩ := hB
    obtain ⟨⟨np, hp, _⟩, ⟨na, ha, hprev⟩, hne⟩ := Rep_read_pos hA
    simp only [List.map_cons, List.cons_append, List.nodup_cons] at hnd
    have hcA : c.1 ∉ footprint a (pre ++ post) := fun hm => hdisj _ hm (by simp)
    have d1 : c.1 ≠ hdAddr post a.m_tail := by
      intro he; exact hcA (he ▸ hdAddr_mem_footprint a pre post)
    have d2 : c.1 ≠ lastAddr pre a.m_head := by
      intro he; exact hcA (he ▸ lastAddr_mem_footprint a pre post)
    have d4 : c.1 ≠ bt := by
      intro he; exact hnd.1 (by rw [he]; simp)
    rw [← hprev] at hp d2 hne
    obtain ⟨h2, hl, hb, heq⟩ := splice_step hc ha hp d1 d2 hne d4
    simp only [hdAddr_cons]
    rw [heq]
    rw [hprev] at hl
    have hfr := Rep_link_frame hA hcA hl
    have hA2 : Rep h2 a ((pre ++ [c]) ++ post) := by simpa using hfr.1
    have hfrB : ∀ q ∈ (rest ++ [(bt, y)]).map Prod.fst, h2.read q = h.read q := by
      intro q hq
      have hq' : q ∈ rest.map Prod.fst ++ [bt] := by simpa using hq
      have hqA : q ∉ footprint a (pre ++ post) := fun hm =>
        hdisj q hm (by simp only [List.map_cons, List.cons_append]; exact List.mem_cons_of_mem _ hq')
      exact hfr.2 q hqA (by rintro rfl; exact hnd.1 hq')
    have hB2 := Seg_congr hfrB hB'
    have hdisj2 : ∀ q ∈ footprint a ((pre ++ [c]) ++ post), q ∉ rest.map Prod.fst ++ [bt] := by
      intro q hq
      have : q = c.1 ∨ q ∈ footprint a (pre ++ post) := by
        apply mem_footprint_insert.1; simpa using hq
      rcases this with rfl | hm
      · exact hnd.1
      · intro hq2
        exact hdisj q hm (by simp only [List.map_cons, List.cons_append];
                             exact List.mem_cons_of_mem _ hq2)
    have key := ih h2 (pre ++ [c]) c.1 k (m + 1) hA2 hB2 hnd.2 hdisj2 (by simp at hf; omega)
    simp only [lastAddr_append, lastAddr_cons, lastAddr_nil] at key
    refine key.imp ?_
    rintro ⟨h3, m3⟩ ⟨hm, hr3, hb3, hfr3⟩
    refine ⟨by simp only [List.length_cons] at hm ⊢; omega, by simpa using hr3,
      by rw [hb3, hb], fun q hq1 hq2 => ?_⟩
    simp only [List.map_cons, List.mem_cons, not_or] at hq2
    rw [hfr3 q (by
      intro hm2
      have : q = c.1 ∨ q ∈ footprint a (pre ++ post) := by
        apply mem_footprint_insert.1; simpa using hm2
      rcases this with h1 | h1
      · exact hq2.1 h1
      · exact hq1 h1) hq2.2]
    exact hfr.2 q hq1 hq2.1

theorem reset_other_spec {h : Heap α} {b : list} {nh nt : Node α}
    (hh : h.read b.m_head = some nh) (ht : h.read b.m_tail = some nt)
    (hne : b.m_head ≠ b.m_tail) :
    ∃ h2, (setNext h b.m_head b.m_tail >>= fun h1 => setPrev h1 b.m_tail b.m_head) = .ok h2 ∧
      Rep h2 b [] ∧ h2.brk = h.brk ∧
      ∀ q, q ≠ b.m_head → q ≠ b.m_tail → h2.read q = h.read q := by
  refine ⟨(h.write b.m_head { nh with next := b.m_tail }).write b.m_tail
    { nt with prev := b.m_head }, ?_, ?_, rfl, ?_⟩
  · simp [setNext, setPrev, Heap.read_write, hh, ht, hne, hne.symm]
  · simp [Rep, footprint, Heap.read_write, hh, ht, hne, hne.symm]
  · intro q h1 h2
    simp [Heap.read_write, h1, h2]

theorem Rep_tail_seg {h : Heap α} {b : list} {cb : List (Nat × α)} (hB : Rep h b cb) :
    ∃ x y p0 e, h.read b.m_head = some ⟨x, hdAddr cb b.m_tail, p0⟩ ∧
      h.read b.m_tail = some ⟨y, e, lastAddr cb b.m_head⟩ ∧
      Seg h b.m_head (cb ++ [(b.m_tail, y)]) e ∧
      (cb.map Prod.fst ++ [b.m_tail]).Nodup ∧ b.m_head ∉ cb.map Prod.fst ++ [b.m_tail] := by
  have hnd := hB.nodup
  rw [Rep_iff_path] at hB
  obtain ⟨_, x, y, p0, e, hs⟩ := hB
  rw [Seg_cons] at hs
  simp only [hdAddr_append, hdAddr_cons, hdAddr_nil] at hs
  have hs2 := hs.2
  rw [Seg_append] at hs2
  simp only [Seg_cons, Seg_nil, and_true, hdAddr_nil] at hs2
  simp only [footprint, List.nodup_cons] at hnd
  exact ⟨x, y, p0, e, hs.1, hs2.2, hs.2, hnd.2, hnd.1⟩

theorem splice_rep {h : Heap α} {a b : list} {pre post cb : List (Nat × α)} {fuel : Nat}
    (hA : Rep h a (pre ++ post)) (hB : Rep h b cb)
    (hdisj : ∀ q ∈ footprint a (pre ++ post), q ∉ footprint b cb)
    (hf : cb.length < fuel) :
    Returns (a.splice fuel h ⟨hdAddr post a.m_tail⟩ b false) fun r =>
      r.2.1 = { a with m_len := a.m_len + cb.length } ∧ r.2.2 = { b with m_len := 0 } ∧
      Rep r.1 a (pre ++ cb ++ post) ∧ Rep r.1 b [] ∧ r.1.brk = h.brk ∧
      ∀ q, q ∉ footprint a (pre ++ post) → q ∉ footprint b cb → r.1.read q = h.read q := by
  obtain ⟨x, y, p0, e, hh, ht, hs, hnd, hhd⟩ := Rep_tail_seg hB
  have hdisj2 : ∀ q ∈ footprint a (pre ++ post), q ∉ cb.map Prod.fst ++ [b.m_tail] := by
    intro q hq hm
    exact hdisj q hq (by simp only [footprint]; exact List.mem_cons_of_mem _ hm)
  have hbhA : b.m_head ∉ footprint a (pre ++ post) := fun hm =>
    hdisj _ hm (by simp [footprint])
  have hbtA : b.m_tail ∉ footprint a (pre ++ post) := fun hm =>
    hdisj _ hm (by simp [footprint])
  have hbt : b.m_tail ∉ cb.map Prod.fst := by
    intro hm
    exact (List.nodup_append.1 hnd).2.2 hm (by simp)
  have hbh : b.m_head ∉ cb.map Prod.fst := fun hm => hhd (List.mem_append.2 (Or.inl hm))
  have hne : b.m_head ≠ b.m_tail := fun he => hhd (by rw [he]; simp)
  simp only [list.splice, Bool.false_eq_true, if_false, getNext, hh, ok_bind]
  refine (splice_loop_rep cb h pre b.m_head fuel a.m_len hA hs hnd hdisj2 hf).bind ?_
  rintro ⟨h3, m3⟩ ⟨hm, hr3, hb3, hfr3⟩
  simp only at hm hr3 hb3 hfr3
  have hh3 : h3.read b.m_head = _ := (hfr3 _ hbhA hbh).trans hh
  have ht3 : h3.read b.m_tail = _ := (hfr3 _ hbtA hbt).trans ht
  obtain ⟨h4, he4, hr4, hb4, hfr4⟩ := reset_other_spec hh3 ht3 hne
  have he4' : (setNext h3 b.m_head b.m_tail >>= fun h1 =>
      setPrev h1 b.m_tail b.m_head >>= fun h2 =>
        (pure (h2, { a with m_len := m3 }, { b with m_len := 0 }) :
          Except Fault (Heap α × list × list)))
      = .ok (h4, { a with m_len := m3 }, { b with m_len := 0 }) := by
    cases hsn : setNext h3 b.m_head b.m_tail with
    | error e => simp [hsn] at he4
    | ok h1 =>
      simp only [hsn, ok_bind] at he4 ⊢
      simp only [he4, ok_bind]
      rfl
  rw [he4', Returns_ok]
  refine ⟨by rw [hm], rfl, ?_, hr4, by rw [hb4, hb3], ?_⟩
  · refine Rep_congr hr3 (fun q hq => hfr4 q ?_ ?_)
    · rintro rfl
      simp only [footprint, List.map_append, List.mem_cons, List.mem_append,
        List.mem_singleton] at hq hbhA
      simp only [not_or] at hbhA
      tauto
    · rintro rfl
      simp only [footprint, List.map_append, List.mem_cons, List.mem_append,
        List.mem_singleton] at hq hbtA
      simp only [not_or] at hbtA
      tauto
  · intro q hq1 hq2
    have hq3 : q ≠ b.m_head ∧ q ∉ cb.map Prod.fst ∧ q ≠ b.m_tail := by
      simp only [footprint, List.mem_cons, List.mem_append, List.mem_singleton, not_or,
        List.not_mem_nil, or_false] at hq2
      exact ⟨hq2.1, hq2.2.1, hq2.2.2⟩
    rw [hfr4 q hq3.1 hq3.2.2]
    exact hfr3 q hq1 hq3.2.1

/-- C6: for two distinct lists `a` (traversal `pre ++ post`) and `b`, and
`pos` the first node of `post` or `end()`, `a.splice(pos, b)` returns
normally; afterwards the traversal of `a` is `pre ++ (old b) ++ post`,
`a.size()` is the sum of the two old sizes, and `b` is empty with size 0. -/
theorem C6_splice (h : Heap α) (a b : list) (pre post cb : List (Nat × α)) (fuel : Nat)
    (hA : Rep h a (pre ++ post)) (hB : Rep h b cb) (hlen : LenOK b cb)
    (hdisj : ∀ q ∈ footprint a (pre ++ post), q ∉ footprint b cb)
    (hf : cb.length < fuel) :
    ∃ h2 a2 b2, a.splice fuel h ⟨hdAddr post a.m_tail⟩ b false = .ok (h2, a2, b2) ∧
      a2.traverse (pre.length + cb.length + post.length + 1) h2
        = .ok (pre.map Prod.snd ++ cb.map Prod.snd ++ post.map Prod.snd) ∧
      a2.size = a.size + b.size ∧
      b2.traverse 1 h2 = .ok [] ∧ b2.empty = true ∧ b2.size = 0 := by
  have key := splice_rep hA hB hdisj hf
  rw [Returns_iff] at key
  obtain ⟨⟨h2, a2, b2⟩, he, rfl, rfl, hr2, hr3, _, _⟩ := key
  refine ⟨h2, _, _, he, ?_, ?_, ?_, rfl, rfl⟩
  · have := traverse_rep hr2 (k := pre.length + cb.length + post.length + 1) (by simp; omega)
    simpa using this
  · simp only [list.size]
    rw [hlen]
  · exact traverse_rep hr3 (by simp)

/-- C6, on `a = [1, 3, 5]` and `b = [2, 4]`: splicing `b` in before the node
holding `3`. -/
theorem C6_splice_witness :
    ∃ h2 a2 b2, demo_a.splice 3 demo_heap ⟨4⟩ demo_b false = .ok (h2, a2, b2) ∧
      a2.traverse 6 h2 = .ok [1, 2, 4, 3, 5] ∧ a2.size = 5 ∧
      b2.traverse 1 h2 = .ok [] ∧ b2.empty = true ∧ b2.size = 0 :=
  C6_splice demo_heap demo_a demo_b [(3, 1)] [(4, 3), (5, 5)] [(8, 2), (9, 4)] 3
    (by decide) (by decide) (by decide) (by decide) (by decide)

/-! ## merge: the value level -/

section merge_generic
variable [LT α] [DecidableRel (fun (x y : α) => x < y)]

theorem merge_rest_length_le : ∀ (ca cb : List (Nat × α)),
    (merge_rest ca cb).length ≤ cb.length := by
  intro ca
  induction ca with
  | nil => intro cb; simp [merge_rest]
  | cons x ca ih =>
    intro cb
    induction cb with
    | nil => simp [merge_rest]
    | cons y cb ih2 =>
      by_cases hlt : x.2 < y.2
      · simp only [merge_rest, hlt, if_true]; exact ih (y :: cb)
      · simp only [merge_rest, hlt, if_false, List.length_cons]; omega

end merge_generic

section merge_values
variable [LinearOrder α]

theorem merge_done_rest_perm : ∀ (ca cb : List (Nat × α)),
    (merge_done ca cb ++ merge_rest ca cb).Perm (ca ++ cb) := by
  intro ca
  induction ca with
  | nil => intro cb; simp [merge_done, merge_rest]
  | cons x ca ih =>
    intro cb
    induction cb with
    | nil => simp [merge_done, merge_rest]
    | cons y cb ih2 =>
      by_cases hlt : x.2 < y.2
      · simp only [merge_done, merge_rest, hlt, if_true, List.cons_append]
        exact (ih (y :: cb)).cons x
      · simp only [merge_done, merge_rest, hlt, if_false, List.cons_append]
        refine (ih2.cons y).trans ?_
        exact List.perm_middle.symm

theorem merge_done_rest_sorted : ∀ (ca cb : List (Nat × α)),
    (ca.map Prod.snd).Sorted (· ≤ ·) → (cb.map Prod.snd).Sorted (· ≤ ·) →
    ((merge_done ca cb ++ merge_rest ca cb).map Prod.snd).Sorted (· ≤ ·) := by
  intro ca
  induction ca with
  | nil => intro cb _ hb; simpa [merge_done, merge_rest] using hb
  | cons x ca ih =>
    intro cb
    induction cb with
    | nil => intro ha _; simpa [merge_done, merge_rest] using ha
    | cons y cb ih2 =>
      intro ha hb
      have ha' : (ca.map Prod.snd).Sorted (· ≤ ·) := by
        simp only [List.map_cons, List.sorted_cons] at ha; exact ha.2
      have hb' : (cb.map Prod.snd).Sorted (· ≤ ·) := by
        simp only [List.map_cons, List.sorted_cons] at hb; exact hb.2
      simp only [List.map_cons, List.sorted_cons] at ha hb
      by_cases hlt : x.2 < y.2
      · simp only [merge_done, merge_rest, hlt, if_true, List.cons_append, List.map_cons,
          List.sorted_cons]
        refine ⟨?_, ih (y :: cb) ha' (by simpa using hb)⟩
        intro z hz
        have hp := (merge_done_rest_perm ca (y :: cb)).map Prod.snd
        have hz2 := hp.mem_iff.1 hz
        simp only [List.map_append, List.map_cons, List.mem_append, List.mem_cons] at hz2
        rcases hz2 with h1 | rfl | h3
        · exact ha.1 z h1
        · exact le_of_lt hlt
        · exact le_trans (le_of_lt hlt) (hb.1 z h3)
      · simp only [merge_done, merge_rest, hlt, if_false, List.cons_append, List.map_cons,
          List.sorted_cons]
        refine ⟨?_, ih2 (by simpa using ha) hb'⟩
        intro z hz
        have hp := (merge_done_rest_perm (x :: ca) cb).map Prod.snd
        have hz2 := hp.mem_iff.1 hz
        simp only [List.map_append, List.map_cons, List.mem_append, List.mem_cons] at hz2
        have hyx : y.2 ≤ x.2 := not_lt.1 hlt
        rcases hz2 with (rfl | h1) | h3
        · exact hyx
        · exact le_trans hyx (ha.1 z h1)
        · exact hb.1 z h3

end merge_values

/-! ## merge: the heap level -/

section merge_heap
variable [LT α] [DecidableRel (fun (x y : α) => x < y)]

theorem merge_step_exit {h : Heap α} {t u aux aux2 : Nat} (he : aux = t ∨ aux2 = u)
    (fuel m : Nat) :
    list.merge_loop t u (fuel + 1) h aux aux2 m = .ok (h, aux, aux2, m) := by
  have : ¬ (aux ≠ t ∧ aux2 ≠ u) := by
    rcases he with h1 | h1 <;> simp [h1]
  simp only [list.merge_loop, this, if_false]
  rfl

theorem merge_step_adv {h : Heap α} {t u aux aux2 : Nat} {na n2 : Node α}
    (ha : h.read aux = some na) (hc : h.read aux2 = some n2)
    (h1 : aux ≠ t) (h2 : aux2 ≠ u) (hlt : na.data < n2.data) (fuel m : Nat) :
    list.merge_loop t u (fuel + 1) h aux aux2 m
      = list.merge_loop t u fuel h na.next aux2 m := by
  simp [list.merge_loop, getData, getNext, ha, hc, h1, h2, hlt]

theorem merge_step_move {h : Heap α} {t u aux aux2 : Nat} {n2 na np : Node α}
    (hc : h.read aux2 = some n2) (ha : h.read aux = some na) (hp : h.read na.prev = some np)
    (d1 : aux2 ≠ aux) (d2 : aux2 ≠ na.prev) (d3 : na.prev ≠ aux)
    (h1 : aux ≠ t) (h2 : aux2 ≠ u) (hlt : ¬ na.data < n2.data) :
    ∃ h2, Linked h h2 aux2 n2.data na.prev aux ∧ h2.brk = h.brk ∧
      ∀ (fuel m : Nat), list.merge_loop t u (fuel + 1) h aux aux2 m
        = list.merge_loop t u fuel h2 aux n2.next (m + 1) := by
  refine ⟨(((h.write aux2 { n2 with prev := na.prev }).write aux2
    ⟨n2.data, aux, na.prev⟩).write na.prev { np with next := aux2 }).write aux
    { na with prev := aux2 }, ?_, rfl, ?_⟩
  · intro q
    simp only [Heap.read_write]
    split_ifs <;> simp_all
  · intro fuel m
    simp [list.merge_loop, getData, getNext, getPrev, setNext, setPrev, Heap.read_write, hc, ha,
      hp, d1, d2, d3, d1.symm, d2.symm, d3.symm, h1, h2, hlt]

theorem merge_loop_rep {a : list} {bt : Nat} {y : α} {eb : Nat} :
    ∀ (ca cb : List (Nat × α)) (h : Heap α) (done : List (Nat × α)) (pb fuel m : Nat),
      Rep h a (done ++ ca) → Seg h pb (cb ++ [(bt, y)]) eb →
      (cb.map Prod.fst ++ [bt]).Nodup →
      (∀ q ∈ footprint a (done ++ ca), q ∉ cb.map Prod.fst ++ [bt]) →
      ca.length + cb.length < fuel →
      Returns (list.merge_loop a.m_tail bt fuel h (hdAddr ca a.m_tail) (hdAddr cb bt) m)
        fun r => r.2.2.2 = m + (cb.length - (merge_rest ca cb).length) ∧
          r.2.2.1 = hdAddr (merge_rest ca cb) bt ∧
          (merge_rest ca cb ≠ [] → r.2.1 = a.m_tail) ∧
          Rep r.1 a (done ++ merge_done ca cb) ∧
          (∃ pb2, Seg r.1 pb2 (merge_rest ca cb ++ [(bt, y)]) eb) ∧
          r.1.brk = h.brk ∧
          ∀ q, q ∉ footprint a (done ++ ca) → q ∉ cb.map Prod.fst → r.1.read q = h.read q := by
  intro ca
  induction ca with
  | nil =>
    intro cb h done pb fuel m hA hB _ _ hf
    obtain ⟨k, rfl⟩ : ∃ k, fuel = k + 1 := ⟨fuel - 1, by omega⟩
    rw [hdAddr_nil, merge_step_exit (Or.inl rfl), Returns_ok]
    simp only [merge_rest, merge_done, hdAddr_nil]
    exact ⟨by simp, by simp, by simp, hA, ⟨pb, hB⟩, by simp, by simp⟩
  | cons x ca ih =>
    intro cb
    induction cb with
    | nil =>
      intro h done pb fuel m hA hB _ _ hf
      obtain ⟨k, rfl⟩ : ∃ k, fuel = k + 1 := ⟨fuel - 1, by omega⟩
      rw [hdAddr_nil, merge_step_exit (Or.inr rfl), Returns_ok]
      simp only [merge_rest, merge_done, hdAddr_nil]
      exact ⟨by simp, by simp, by simp, hA, ⟨pb, hB⟩, by simp, by simp⟩
    | cons c cb ih2 =>
      intro h done pb fuel m hA hB hnd hdisj hf
      obtain ⟨k, rfl⟩ : ∃ k, fuel = k + 1 := ⟨fuel - 1, by omega⟩
      simp only [List.length_cons] at hf
      simp only [List.cons_append, Seg_cons, hdAddr_append, hdAddr_cons, hdAddr_nil] at hB
      obtain ⟨hc, hB'⟩ := hB
      have ha := Rep_read_mid hA
      obtain ⟨n1, n2, n3, _, _⟩ := hA.mid_ne
      simp only [List.map_cons, List.cons_append, List.nodup_cons] at hnd
      have d4 : c.1 ≠ bt := by
        intro he; exact hnd.1 (by rw [he]; simp)
      simp only [hdAddr_cons]
      by_cases hlt : x.2 < c.2
      · rw [merge_step_adv ha hc n2 d4 hlt]
        have hA2 : Rep h a ((done ++ [x]) ++ ca) := by simpa using hA
        have hB2 : Seg h pb ((c :: cb) ++ [(bt, y)]) eb := by
          simp only [List.cons_append, Seg_cons, hdAddr_append, hdAddr_cons, hdAddr_nil]
          exact ⟨hc, hB'⟩
        have key := ih (c :: cb) h (done ++ [x]) pb k m hA2 hB2
          (by simpa using hnd) (by simpa using hdisj) (by simp only [List.length_cons]; omega)
        simp only [hdAddr_cons] at key
        refine key.imp ?_
        rintro ⟨h3, aux3, aux23, m3⟩ ⟨g1, g2, g3, g4, g5, g6, g7⟩
        simp only [merge_rest, merge_done, hlt, if_true]
        exact ⟨g1, g2, g3, by simpa using g4, g5, g6, by simpa using g7⟩
      · obtain ⟨⟨np, hp, _⟩, _, _⟩ := Rep_read_pos hA
        have hcA : c.1 ∉ footprint a (done ++ x :: ca) := fun hm => hdisj _ hm (by simp)
        have d1 : c.1 ≠ x.1 := by
          intro he; exact hcA (by rw [he]; simp [footprint])
        have d2 : c.1 ≠ lastAddr done a.m_head := by
          intro he; exact hcA (he ▸ lastAddr_mem_footprint a done (x :: ca))
        obtain ⟨h2, hl, hb, heq⟩ := merge_step_move (t := a.m_tail) (u := bt) (h := h)
          hc ha hp d1 d2 n3 n2 d4 hlt
        rw [heq]
        simp only at hl
        have hfr := Rep_link_frame hA hcA (by simpa using hl)
        have hA2 : Rep h2 a ((done ++ [c]) ++ x :: ca) := by simpa using hfr.1
        have hfrB : ∀ q ∈ (cb ++ [(bt, y)]).map Prod.fst, h2.read q = h.read q := by
          intro q hq
          have hq' : q ∈ cb.map Prod.fst ++ [bt] := by simpa using hq
          have hqA : q ∉ footprint a (done ++ x :: ca) := fun hm =>
            hdisj q hm (by simp only [List.map_cons, List.cons_append];
                           exact List.mem_cons_of_mem _ hq')
          exact hfr.2 q hqA (by rintro rfl; exact hnd.1 hq')
        have hB2 := Seg_congr hfrB hB'
        have hdisj2 : ∀ q ∈ footprint a ((done ++ [c]) ++ x :: ca),
            q ∉ cb.map Prod.fst ++ [bt] := by
          intro q hq
          have : q = c.1 ∨ q ∈ footprint a (done ++ x :: ca) := by
            apply mem_footprint_insert.1; simpa using hq
          rcases this with rfl | hm
          · exact hnd.1
          · intro hq2
            exact hdisj q hm (by simp only [List.map_cons, List.cons_append];
                                 exact List.mem_cons_of_mem _ hq2)
        have key := ih2 h2 (done ++ [c]) c.1 k (m + 1) hA2 hB2 hnd.2 hdisj2
          (by simp only [List.length_cons]; omega)
        simp only [hdAddr_cons] at key
        refine key.imp ?_
        rintro ⟨h3, aux3, aux23, m3⟩ ⟨g1, g2, g3, g4, g5, g6, g7⟩
        simp only [merge_rest, merge_done, hlt, if_false]
        have hle := merge_rest_length_le (x :: ca) cb
        refine ⟨by simp only [List.length_cons] at g1 ⊢; omega, g2, g3, by simpa using g4, g5,
          by rw [g6, hb], fun q hq1 hq2 => ?_⟩
        simp only [List.map_cons, List.mem_cons, not_or] at hq2
        rw [g7 q (by
          intro hm2
          have : q = c.1 ∨ q ∈ footprint a (done ++ x :: ca) := by
            apply mem_footprint_insert.1; simpa using hm2
          rcases this with h1 | h1
          · exact hq2.1 h1
          · exact hq1 h1) hq2.2]
        exact hfr.2 q hq1 hq2.1

end merge_heap

/-! ## Grafting a chain -/

theorem hdAddr_of_ne_nil {cs : List (Nat × α)} (hne : cs ≠ []) (e e2 : Nat) :
    hdAddr cs e = hdAddr cs e2 := by
  cases cs with
  | nil => exact absurd rfl hne
  | cons c cs => rfl

theorem lastAddr_of_ne_nil {cs : List (Nat × α)} (hne : cs ≠ []) (p p2 : Nat) :
    lastAddr cs p = lastAddr cs p2 := by
  cases cs with
  | nil => exact absurd rfl hne
  | cons c cs => rfl

theorem Seg_adjust {h h2 : Heap α} {e e2 : Nat} :
    ∀ (cs : List (Nat × α)) (p p2 : Nat), Seg h p cs e → (cs.map Prod.fst).Nodup →
      (∀ q ∈ cs.map Prod.fst, ∀ n, h.read q = some n →
        h2.read q = some ⟨n.data, if q = lastAddr cs p then e2 else n.next,
          if q = hdAddr cs e then p2 else n.prev⟩) →
      Seg h2 p2 cs e2 := by
  intro cs
  induction cs with
  | nil => intro _ _ _ _ _; trivial
  | cons c rest ih =>
    intro p p2 hs hnd hq
    rw [Seg_cons] at hs ⊢
    simp only [List.map_cons, List.nodup_cons] at hnd
    have hc := hq c.1 (by simp) _ hs.1
    simp only [hdAddr_cons, lastAddr_cons, if_true] at hc
    refine ⟨?_, ih c.1 c.1 hs.2 hnd.2 ?_⟩
    · rw [hc]
      by_cases hr : rest = []
      · subst hr; simp
      · have hm := lastAddr_mem rest c.1 hr
        have hne : c.1 ≠ lastAddr rest c.1 := fun he => hnd.1 (he ▸ hm)
        simp only [hne, if_false, hdAddr_of_ne_nil hr e e2]
    · intro q hm n hn
      have hqc : q ≠ c.1 := fun he => hnd.1 (he ▸ hm)
      have := hq q (List.mem_cons_of_mem _ hm) n hn
      simp only [hdAddr_cons, lastAddr_cons, hqc, if_false] at this
      rw [this]
      by_cases hq2 : q = hdAddr rest e
      · simp only [hq2, if_true]
        cases rest with
        | nil => simp at hm
        | cons d rest2 =>
          simp only [hdAddr_cons] at hq2
          subst hq2
          have hd := hs.2
          rw [Seg_cons] at hd
          rw [hd.1] at hn
          cases hn
          rfl
      · simp only [hq2, if_false]

theorem Seg_hd_prev {h : Heap α} {p e : Nat} {cs : List (Nat × α)} (hs : Seg h p cs e)
    (hne : cs ≠ []) {n : Node α} (hn : h.read (hdAddr cs e) = some n) : n.prev = p := by
  cases cs with
  | nil => exact absurd rfl hne
  | cons c rest =>
    rw [Seg_cons] at hs
    simp only [hdAddr_cons] at hn
    rw [hs.1] at hn
    cases hn
    rfl

theorem Seg_last_next {h : Heap α} {e : Nat} :
    ∀ (cs : List (Nat × α)) (p : Nat), Seg h p cs e → cs ≠ [] → (cs.map Prod.fst).Nodup →
      ∀ n, h.read (lastAddr cs p) = some n → n.next = e := by
  intro cs
  induction cs with
  | nil => intro _ _ hne; exact absurd rfl hne
  | cons c rest ih =>
    intro p hs _ hnd n hn
    rw [Seg_cons] at hs
    simp only [List.map_cons, List.nodup_cons] at hnd
    by_cases hr : rest = []
    · subst hr
      simp only [lastAddr_cons, lastAddr_nil] at hn
      rw [hs.1] at hn
      cases hn
      rfl
    · exact ih c.1 hs.2 hr hnd.2 n hn

theorem Seg_graft {h h2 : Heap α} {p0 e pb eb : Nat} {A R B : List (Nat × α)}
    (hsA : Seg h p0 (A ++ B) e) (hA : A ≠ []) (hB : B ≠ [])
    (hsR : Seg h pb R eb) (hR : R ≠ [])
    (hnd : ((A ++ R ++ B).map Prod.fst).Nodup)
    (hg : Grafted h h2 (lastAddr A p0) (hdAddr R eb) (lastAddr R pb) (hdAddr B e)) :
    Seg h2 p0 (A ++ R ++ B) e := by
  rw [Seg_append] at hsA
  obtain ⟨hsA1, hsA2⟩ := hsA
  simp only [List.map_append] at hnd
  obtain ⟨hndAR, hndB, hdB⟩ := List.nodup_append.1 hnd
  obtain ⟨hndA, hndR, hdAR⟩ := List.nodup_append.1 hndAR
  have mA := lastAddr_mem A p0 hA
  have mf := hdAddr_mem R eb hR
  have mt := lastAddr_mem R pb hR
  have mB := hdAddr_mem B e hB
  have dAR : ∀ q, q ∈ A.map Prod.fst → q ∉ R.map Prod.fst := fun q h1 h2 => hdAR h1 h2
  have dAB : ∀ q, q ∈ A.map Prod.fst → q ∉ B.map Prod.fst := fun q h1 h2 =>
    hdB (List.mem_append.2 (Or.inl h1)) h2
  have dRB : ∀ q, q ∈ R.map Prod.fst → q ∉ B.map Prod.fst := fun q h1 h2 =>
    hdB (List.mem_append.2 (Or.inr h1)) h2
  rw [List.append_assoc, Seg_append, Seg_append]
  refine ⟨?_, ?_, ?_⟩
  · rw [hdAddr_append, hdAddr_of_ne_nil hR _ eb]
    refine Seg_adjust A p0 p0 hsA1 hndA ?_
    intro q hq n hn
    have h1 : q ≠ lastAddr R pb := fun he => dAR q hq (he ▸ mt)
    have h2' : q ≠ hdAddr R eb := fun he => dAR q hq (he ▸ mf)
    have h3 : q ≠ hdAddr B e := fun he => dAB q hq (he ▸ mB)
    rw [hg q, hn]
    simp only [Option.map_some', h1, h2', h3, if_false]
    by_cases hq2 : q = hdAddr A (hdAddr B e)
    · have := Seg_hd_prev hsA1 hA (hq2 ▸ hn)
      simp [hq2, this]
    · simp [hq2]
  · refine Seg_adjust R pb (lastAddr A p0) hsR hndR ?_
    intro q hq n hn
    have h1 : q ≠ lastAddr A p0 := fun he => dAR _ mA (he ▸ hq)
    have h3 : q ≠ hdAddr B e := fun he => dRB q hq (he ▸ mB)
    rw [hg q, hn]
    simp only [Option.map_some', h1, h3, if_false]
  · rw [lastAddr_of_ne_nil hR _ pb]
    refine Seg_adjust B (lastAddr A p0) (lastAddr R pb) hsA2 hndB ?_
    intro q hq n hn
    have h1 : q ≠ lastAddr A p0 := fun he => dAB _ mA (he ▸ hq)
    have h2' : q ≠ hdAddr R eb := fun he => dRB _ mf (he ▸ hq)
    have h3 : q ≠ lastAddr R pb := fun he => dRB _ mt (he ▸ hq)
    rw [hg q, hn]
    simp only [Option.map_some', h1, h2', h3, if_false]
    by_cases hq2 : q = lastAddr B (lastAddr A p0)
    · have := Seg_last_next B _ hsA2 hB hndB n (hq2 ▸ hn)
      simp [hq2, this]
    · simp [hq2]

theorem Grafted_frame {h h2 : Heap α} {ap f t nx : Nat} (hg : Grafted h h2 ap f t nx)
    {q : Nat} (h1 : q ≠ ap) (h2' : q ≠ f) (h3 : q ≠ t) (h4 : q ≠ nx) :
    h2.read q = h.read q := by
  rw [hg q]
  cases h.read q with
  | none => rfl
  | some n => simp [h1, h2', h3, h4]

theorem Rep_graft {h h2 : Heap α} {a : list} {pre post R : List (Nat × α)} {pb eb : Nat}
    (hr : Rep h a (pre ++ post)) (hsR : Seg h pb R eb) (hR : R ≠ [])
    (hndR : (R.map Prod.fst).Nodup)
    (hdisj : ∀ q ∈ footprint a (pre ++ post), q ∉ R.map Prod.fst)
    (hg : Grafted h h2 (lastAddr pre a.m_head) (hdAddr R eb) (lastAddr R pb)
      (hdAddr post a.m_tail)) :
    Rep h2 a (pre ++ R ++ post) ∧
      ∀ q, q ∉ footprint a (pre ++ post) → q ∉ R.map Prod.fst → h2.read q = h.read q := by
  refine ⟨?_, fun q hq1 hq2 => Grafted_frame hg ?_ ?_ ?_ ?_⟩
  · have hndA := hr.nodup
    rw [Rep_iff_path] at hr ⊢
    obtain ⟨hnd, x, y, p0, e, hs⟩ := hr
    have hs2 : Seg h p0 (((a.m_head, x) :: pre) ++ (post ++ [(a.m_tail, y)])) e := by
      simpa using hs
    have hperm : (footprint a (pre ++ R ++ post)).Perm
        (R.map Prod.fst ++ footprint a (pre ++ post)) := by
      simp only [footprint, List.map_append, List.append_assoc]
      refine List.Perm.trans ?_ (List.perm_middle).symm
      refine List.Perm.cons _ ?_
      exact List.perm_append_comm_assoc _ _ _
    have hndAll : (footprint a (pre ++ R ++ post)).Nodup := by
      refine hperm.nodup_iff.2 (List.nodup_append.2 ⟨hndR, hndA, ?_⟩)
      intro q h1 h2'
      exact hdisj q h2' h1
    have key : Seg h2 p0 (((a.m_head, x) :: pre) ++ R ++ (post ++ [(a.m_tail, y)])) e :=
      Seg_graft hs2 (by simp) (by simp) hsR hR
        (by
          have : (((a.m_head, x) :: pre) ++ R ++ (post ++ [(a.m_tail, y)])).map Prod.fst
              = footprint a (pre ++ R ++ post) := by simp [footprint]
          rw [this]; exact hndAll)
        (by simpa [hdAddr_append] using hg)
    exact ⟨hndAll, x, y, p0, e, by simpa using key⟩
  · rintro rfl; exact hq1 (lastAddr_mem_footprint a pre post)
  · rintro rfl; exact hq2 (hdAddr_mem R eb hR)
  · rintro rfl; exact hq2 (lastAddr_mem R pb hR)
  · rintro rfl; exact hq1 (hdAddr_mem_footprint a pre post)

theorem merge_tail_block {h : Heap α} {aux2 u t : Nat} {nt np n2 nbt no : Node α}
    (ht : h.read t = some nt) (hp : h.read nt.prev = some np) (hc : h.read aux2 = some n2)
    (hbt : h.read u = some nbt) (ho : h.read nbt.prev = some no)
    (d1 : nt.prev ≠ t) (d2 : aux2 ≠ t) (d3 : aux2 ≠ nt.prev) (d4 : nbt.prev ≠ nt.prev)
    (d5 : nbt.prev ≠ t) (_d6 : u ≠ t) (d7 : u ≠ nt.prev) (d8 : u ≠ aux2) (d9 : u ≠ nbt.prev) :
    ∃ h2, Grafted h h2 nt.prev aux2 nbt.prev t ∧ h2.brk = h.brk ∧
      ∀ (β : Type) (k : Heap α → Except Fault β),
        (getPrev h t >>= fun ap => setNext h ap aux2 >>= fun h1 =>
          getPrev h1 t >>= fun ap => setPrev h1 aux2 ap >>= fun h2 =>
          getPrev h2 u >>= fun otp => setNext h2 otp t >>= fun h3 =>
          getPrev h3 u >>= fun otp => setPrev h3 t otp >>= fun h4 => k h4) = k h2 := by
  by_cases hx : aux2 = nbt.prev
  · subst hx
    rw [hc] at ho
    cases ho
    refine ⟨(((h.write nt.prev { np with next := nbt.prev }).write nbt.prev
      { n2 with prev := nt.prev }).write nbt.prev ⟨n2.data, t, nt.prev⟩).write t
      { nt with prev := nbt.prev }, ?_, rfl, ?_⟩
    · intro q
      simp only [Heap.read_write]
      split_ifs <;> simp_all
    · intro β k
      simp [getPrev, setNext, setPrev, Heap.read_write, ht, hp, hc, hbt, d1, d2, d3, d7, d8,
        d1.symm, d2.symm, d3.symm, d7.symm, d8.symm]
  · refine ⟨(((h.write nt.prev { np with next := aux2 }).write aux2
      { n2 with prev := nt.prev }).write nbt.prev { no with next := t }).write t
      { nt with prev := nbt.prev }, ?_, rfl, ?_⟩
    · intro q
      simp only [Heap.read_write]
      split_ifs <;> simp_all
    · intro β k
      simp [getPrev, setNext, setPrev, Heap.read_write, ht, hp, hc, hbt, ho, d1, d2, d3, d4, d5,
        d7, d8, d9, d1.symm, d2.symm, d3.symm, d4.symm, d5.symm, d7.symm, d8.symm,
        d9.symm, hx, Ne.symm hx]

section merge_heap
variable [LT α] [DecidableRel (fun (x y : α) => x < y)]

theorem merge_split : ∀ (ca cb : List (Nat × α)),
    ∃ moved, cb = moved ++ merge_rest ca cb ∧ (merge_done ca cb).Perm (ca ++ moved) := by
  intro ca
  induction ca with
  | nil => intro cb; exact ⟨[], by simp [merge_rest], by simp [merge_done]⟩
  | cons x ca ih =>
    intro cb
    induction cb with
    | nil => exact ⟨[], by simp [merge_rest], by simp [merge_done]⟩
    | cons y cb ih2 =>
      by_cases hlt : x.2 < y.2
      · obtain ⟨mv, h1, h2⟩ := ih (y :: cb)
        refine ⟨mv, ?_, ?_⟩
        · simp only [merge_rest, hlt, if_true]; exact h1
        · simp only [merge_done, hlt, if_true, List.cons_append]; exact h2.cons x
      · obtain ⟨mv, h1, h2⟩ := ih2
        refine ⟨y :: mv, ?_, ?_⟩
        · simp only [merge_rest, hlt, if_false, List.cons_append]; rw [← h1]
        · simp only [merge_done, hlt, if_false]
          exact (h2.cons y).trans List.perm_middle.symm

theorem merge_rep {h : Heap α} {a b : list} {ca cb : List (Nat × α)} {fuel : Nat}
    (hA : Rep h a ca) (hB : Rep h b cb)
    (hdisj : ∀ q ∈ footprint a ca, q ∉ footprint b cb)
    (hf : ca.length + cb.length < fuel) :
    Returns (a.merge fuel h b false) fun r =>
      r.2.1 = { a with m_len := a.m_len + (cb.length - (merge_rest ca cb).length) +
        (if (merge_rest ca cb).isEmpty then 0 else b.m_len) } ∧
      r.2.2 = { b with m_len := 0 } ∧
      Rep r.1 a (merge_done ca cb ++ merge_rest ca cb) ∧ Rep r.1 b [] ∧ r.1.brk = h.brk ∧
      ∀ q, q ∉ footprint a ca → q ∉ footprint b cb → r.1.read q = h.read q := by
  obtain ⟨x, y, p0, e, hh, ht, hs, hnd, hhd⟩ := Rep_tail_seg hB
  obtain ⟨xa, ya, pa, ea, hha, hta, _, _, _⟩ := Rep_tail_seg hA
  have hdisj2 : ∀ q ∈ footprint a ([] ++ ca), q ∉ cb.map Prod.fst ++ [b.m_tail] := by
    intro q hq hm
    exact hdisj q (by simpa using hq) (by simp only [footprint]; exact List.mem_cons_of_mem _ hm)
  have hbhA : b.m_head ∉ footprint a ca := fun hm => hdisj _ hm (by simp [footprint])
  have hbtA : b.m_tail ∉ footprint a ca := fun hm => hdisj _ hm (by simp [footprint])
  have hbt : b.m_tail ∉ cb.map Prod.fst := by
    intro hm
    exact (List.nodup_append.1 hnd).2.2 hm (by simp)
  have hbh : b.m_head ∉ cb.map Prod.fst := fun hm => hhd (List.mem_append.2 (Or.inl hm))
  have hne : b.m_head ≠ b.m_tail := fun he => hhd (by rw [he]; simp)
  simp only [list.merge, Bool.false_eq_true, if_false, getNext, hh, hha, ok_bind]
  refine (merge_loop_rep ca cb h [] b.m_head fuel a.m_len (by simpa using hA) hs hnd hdisj2
    hf).bind ?_
  rintro ⟨h3, aux, aux2, m3⟩ ⟨g1, g2, g3, g4, ⟨pb2, g5⟩, g6, g7⟩
  simp only [List.nil_append] at g1 g2 g3 g4 g5 g6 g7
  obtain ⟨mv, hcb, hperm⟩ := merge_split ca cb
  -- set-level facts about the cells after the loop
  have hsub_rest : ∀ q, q ∈ (merge_rest ca cb).map Prod.fst → q ∈ cb.map Prod.fst := by
    intro q hq
    rw [hcb]; simp only [List.map_append, List.mem_append]; exact Or.inr hq
  have hsub_done : ∀ q, q ∈ (merge_done ca cb).map Prod.fst →
      q ∈ ca.map Prod.fst ∨ q ∈ mv.map Prod.fst := by
    intro q hq
    have := (hperm.map Prod.fst).mem_iff.1 hq
    simpa using this
  have hndcb : (cb.map Prod.fst).Nodup := (List.nodup_append.1 hnd).1
  have hnd_mv_rest : (mv.map Prod.fst ++ (merge_rest ca cb).map Prod.fst).Nodup := by
    have := hndcb
    rw [hcb] at this
    simpa using this
  have hmv_cb : ∀ q, q ∈ mv.map Prod.fst → q ∈ cb.map Prod.fst := by
    intro q hq
    rw [hcb]; simp only [List.map_append, List.mem_append]; exact Or.inl hq
  have hca_fp : ∀ q, q ∈ ca.map Prod.fst → q ∈ footprint a ca := by
    intro q hq
    simp only [footprint, List.mem_cons, List.mem_append]; exact Or.inr (Or.inl hq)
  have hcb_fp : ∀ q, q ∈ cb.map Prod.fst → q ∈ footprint b cb := by
    intro q hq
    simp only [footprint, List.mem_cons, List.mem_append]; exact Or.inr (Or.inl hq)
  have hfp_done : ∀ q, q ∈ footprint a (merge_done ca cb) →
      q ∈ footprint a ca ∨ q ∈ mv.map Prod.fst := by
    intro q hq
    simp only [footprint, List.mem_cons, List.mem_append, List.mem_singleton] at hq ⊢
    rcases hq with h1 | h1 | h1
    · exact Or.inl (Or.inl h1)
    · rcases hsub_done q h1 with h2 | h2
      · exact Or.inl (Or.inr (Or.inl h2))
      · exact Or.inr h2
    · exact Or.inl (Or.inr (Or.inr h1))
  have hdisj_done_rest : ∀ q ∈ footprint a (merge_done ca cb),
      q ∉ (merge_rest ca cb).map Prod.fst := by
    intro q hq hq2
    rcases hfp_done q hq with h1 | h1
    · exact hdisj q h1 (hcb_fp q (hsub_rest q hq2))
    · exact (List.nodup_append.1 hnd_mv_rest).2.2 h1 hq2
  have hbh_done : b.m_head ∉ footprint a (merge_done ca cb) := by
    intro hm
    rcases hfp_done _ hm with h1 | h1
    · exact hbhA h1
    · exact hbh (hmv_cb _ h1)
  have hbt_done : b.m_tail ∉ footprint a (merge_done ca cb) := by
    intro hm
    rcases hfp_done _ hm with h1 | h1
    · exact hbtA h1
    · exact hbt (hmv_cb _ h1)
  have hbh_rest : b.m_head ∉ (merge_rest ca cb).map Prod.fst := fun hm => hbh (hsub_rest _ hm)
  have hbt_rest : b.m_tail ∉ (merge_rest ca cb).map Prod.fst := fun hm => hbt (hsub_rest _ hm)
  have hlen : cb.length - (merge_rest ca cb).length = mv.length := by
    have := congrArg List.length hcb
    simp only [List.length_append] at this
    omega
  have hh3 : h3.read b.m_head = _ := (g7 _ hbhA hbh).trans hh
  by_cases hrest : merge_rest ca cb = []
  · -- the loop moved every node of `other`
    simp only [hrest, hdAddr_nil] at g2 g5
    subst g2
    simp only [ne_eq, not_true_eq_false, if_false, ok_bind, pure, Except.pure]
    have ht3 : h3.read b.m_tail = _ := (g7 _ hbtA hbt).trans ht
    obtain ⟨h4, he4, hr4, hb4, hfr4⟩ := reset_other_spec hh3 ht3 hne
    cases hsn : setNext h3 b.m_head b.m_tail with
    | error e => simp [hsn] at he4
    | ok h1 =>
      simp only [hsn, ok_bind] at he4 ⊢
      simp only [he4, ok_bind]
      rw [Returns_ok]
      refine ⟨?_, rfl, ?_, hr4, by rw [hb4, g6], ?_⟩
      · simp [hrest, g1]
      · rw [hrest, List.append_nil]
        refine Rep_congr g4 (fun q hq => hfr4 q ?_ ?_)
        · rintro rfl; exact hbh_done hq
        · rintro rfl; exact hbt_done hq
      · intro q hq1 hq2
        have hq3 : q ≠ b.m_head ∧ q ∉ cb.map Prod.fst ∧ q ≠ b.m_tail := by
          simp only [footprint, List.mem_cons, List.mem_append, List.mem_singleton, not_or,
            List.not_mem_nil, or_false] at hq2
          exact ⟨hq2.1, hq2.2.1, hq2.2.2⟩
        rw [hfr4 q hq3.1 hq3.2.2]
        exact g7 q hq1 hq3.2.1
  · -- `other` still holds nodes: the receiver is exhausted and the rest is appended
    have haux := g3 hrest
    subst haux
    have hne2 : aux2 ≠ b.m_tail := by
      rw [g2]
      intro he
      exact hbt_rest (he ▸ hdAddr_mem _ _ hrest)
    rw [Seg_append] at g5
    simp only [Seg_cons, Seg_nil, and_true, hdAddr_cons, hdAddr_nil] at g5
    obtain ⟨g5a, g5b⟩ := g5
    have hr0 : Rep h3 a (merge_done ca cb ++ []) := by simpa using g4
    obtain ⟨⟨np, hp, _⟩, ⟨nt, hnt, hprev⟩, hne3⟩ := Rep_read_pos hr0
    simp only [hdAddr_nil] at hnt hne3
    have mf := hdAddr_mem (merge_rest ca cb) b.m_tail hrest
    have ml := lastAddr_mem (merge_rest ca cb) pb2 hrest
    obtain ⟨n2, hn2⟩ := Seg_read g5a mf
    obtain ⟨no, hno⟩ := Seg_read g5a ml
    have mtA : a.m_tail ∈ footprint a (merge_done ca cb) := by simp [footprint]
    have mpA : lastAddr (merge_done ca cb) a.m_head ∈ footprint a (merge_done ca cb) := by
      have := lastAddr_mem_footprint a (merge_done ca cb) []
      simpa using this
    have hp2 : h3.read nt.prev = some np := by rw [hprev]; exact hp
    have hc2 : h3.read aux2 = some n2 := by rw [g2]; exact hn2
    have hno2 : h3.read (Node.prev ⟨y, e, lastAddr (merge_rest ca cb) pb2⟩) = some no := hno
    have hblock := merge_tail_block hnt hp2 hc2 g5b hno2
      (by rw [hprev]; exact hne3)
      (by rw [g2]; intro he; exact hdisj_done_rest _ mtA (he ▸ mf))
      (by rw [g2, hprev]; intro he; exact hdisj_done_rest _ mpA (he ▸ mf))
      (by rw [hprev]; intro he; exact hdisj_done_rest _ mpA (he ▸ ml))
      (by intro he; exact hdisj_done_rest _ mtA (he ▸ ml))
      (by intro he; exact hbt_done (he ▸ mtA))
      (by rw [hprev]; intro he; exact hbt_done (he ▸ mpA))
      (by exact Ne.symm hne2)
      (by intro he; exact hbt_rest (he ▸ ml))
    rw [if_pos hne2]
    obtain ⟨h4, hg, hb4, heq⟩ := hblock
    rw [heq]
    rw [hprev, g2] at hg
    have hgr := Rep_graft hr0 g5a hrest (List.nodup_append.1 hnd_mv_rest).2.1
      (by simpa using hdisj_done_rest)
      (by simpa using hg)
    simp only [List.append_nil] at hgr
    obtain ⟨hr4, hfr4⟩ := hgr
    have hh4 : h4.read b.m_head = _ := (hfr4 _ hbh_done hbh_rest).trans hh3
    have ht4 : ∃ n, h4.read b.m_tail = some n := by
      rw [hfr4 _ hbt_done hbt_rest]; exact ⟨_, g5b⟩
    obtain ⟨nbt4, ht4⟩ := ht4
    obtain ⟨h5, he5, hr5, hb5, hfr5⟩ := reset_other_spec hh4 ht4 hne
    cases hsn : setNext h4 b.m_head b.m_tail with
    | error e => simp [hsn] at he5
    | ok h1 =>
      simp only [hsn, ok_bind] at he5
      simp only [pure_bind, hsn, he5, ok_bind]
      rw [Returns_pure]
      refine ⟨?_, rfl, ?_, hr5, by rw [hb5, hb4, g6], ?_⟩
      · have : (merge_rest ca cb).isEmpty = false := by
          cases hm : merge_rest ca cb with
          | nil => exact absurd hm hrest
          | cons _ _ => rfl
        simp [this, g1]
      · refine Rep_congr hr4 (fun q hq => hfr5 q ?_ ?_)
        · rintro rfl
          simp only [footprint, List.map_append, List.mem_cons, List.mem_append,
            List.mem_singleton] at hq hbh_done
          simp only [not_or] at hbh_done
          tauto
        · rintro rfl
          simp only [footprint, List.map_append, List.mem_cons, List.mem_append,
            List.mem_singleton] at hq hbt_done
          simp only [not_or] at hbt_done
          tauto
      · intro q hq1 hq2
        have hq3 : q ≠ b.m_head ∧ q ∉ cb.map Prod.fst ∧ q ≠ b.m_tail := by
          simp only [footprint, List.mem_cons, List.mem_append, List.mem_singleton, not_or,
            List.not_mem_nil, or_false] at hq2
          exact ⟨hq2.1, hq2.2.1, hq2.2.2⟩
        rw [hfr5 q hq3.1 hq3.2.2]
        have hq4 : q ∉ footprint a (merge_done ca cb) := by
          intro hm
          rcases hfp_done q hm with h1 | h1
          · exact hq1 h1
          · exact hq3.2.1 (hmv_cb q h1)
        rw [hfr4 q hq4 (fun hm => hq3.2.1 (hsub_rest q hm))]
        exact g7 q hq1 hq3.2.1

end merge_heap

/-- C2: for two distinct lists `a` and `b` whose traversals are non-decreasing,
`a.merge(b)` returns normally; afterwards the traversal of `a` is
non-decreasing and a permutation of the two old traversals together, and `b`
is empty (`empty()` holds and its traversal has no elements). -/
theorem C2_merge_sorted [LinearOrder α] (h : Heap α) (a b : list) (ca cb : List (Nat × α))
    (fuel : Nat) (hA : Rep h a ca) (hB : Rep h b cb)
    (hdisj : ∀ q ∈ footprint a ca, q ∉ footprint b cb)
    (sa : (ca.map Prod.snd).Sorted (· ≤ ·)) (sb : (cb.map Prod.snd).Sorted (· ≤ ·))
    (hf : ca.length + cb.length < fuel) :
    ∃ h2 a2 b2 vs, a.merge fuel h b false = .ok (h2, a2, b2) ∧
      a2.traverse (ca.length + cb.length + 1) h2 = .ok vs ∧
      vs.Sorted (· ≤ ·) ∧ vs.Perm (ca.map Prod.snd ++ cb.map Prod.snd) ∧
      b2.empty = true ∧ b2.traverse 1 h2 = .ok [] := by
  have key := merge_rep hA hB hdisj hf
  rw [Returns_iff] at key
  obtain ⟨⟨h2, a2, b2⟩, he, rfl, rfl, hr2, hr3, _, _⟩ := key
  have hperm := merge_done_rest_perm ca cb
  refine ⟨h2, _, _, (merge_done ca cb ++ merge_rest ca cb).map Prod.snd, he, ?_,
    merge_done_rest_sorted ca cb sa sb, ?_, rfl, traverse_rep hr3 (by simp)⟩
  · refine traverse_rep hr2 ?_
    rw [hperm.length_eq]
    simp
  · have := hperm.map Prod.snd
    simpa using this

/-- C2, on `a = [1, 3, 5]` and `b = [2, 4]`: the merge returns, `a` then
traverses as `[1, 2, 3, 4, 5]` and `b` is empty. -/
theorem C2_merge_sorted_witness :
    (∃ h2 a2 b2 vs, demo_a.merge 6 demo_heap demo_b false = .ok (h2, a2, b2) ∧
      a2.traverse 6 h2 = .ok vs ∧ vs.Sorted (· ≤ ·) ∧ vs.Perm ([1, 3, 5] ++ [2, 4]) ∧
      b2.empty = true ∧ b2.traverse 1 h2 = .ok []) ∧
    (demo_a.merge 6 demo_heap demo_b false >>= fun r => r.2.1.traverse 6 r.1)
      = .ok [1, 2, 3, 4, 5] :=
  ⟨C2_merge_sorted demo_heap demo_a demo_b [(3, 1), (4, 3), (5, 5)] [(8, 2), (9, 4)] 6
    (by decide) (by decide) (by decide) (by decide) (by decide) (by decide), rfl⟩

/-! ## clear and the destructor -/

theorem size_t_dec_succ (n : Nat) : size_t_dec (n + 1) = n := by
  simp [size_t_dec]

theorem clear_loop_rep :
    ∀ (n : Nat) (cs : List (Nat × α)) (h : Heap α) (l : list) (fuel : Nat), cs.length = n →
      Rep h l cs → LenOK l cs → n < fuel →
      Returns (list.clear_loop fuel h l) fun r =>
        r.2 = { l with m_len := 0 } ∧ Rep r.1 r.2 [] ∧ r.1.brk = h.brk ∧
        ∀ q, q ∉ footprint l cs → r.1.read q = h.read q := by
  intro n
  induction n with
  | zero =>
    intro cs h l fuel hn hr hlen hf
    obtain ⟨k, rfl⟩ : ∃ k, fuel = k + 1 := ⟨fuel - 1, by omega⟩
    have hcs : cs = [] := List.length_eq_zero.1 hn
    subst hcs
    have hm : l.m_len = 0 := hlen
    simp only [list.clear_loop, list.empty, hm, beq_self_eq_true, Bool.not_true,
      Bool.false_eq_true, if_false]
    rw [Returns_pure]
    refine ⟨?_, hr, rfl, fun _ _ => rfl⟩
    cases l; simp only at hm; subst hm; rfl
  | succ n ih =>
    intro cs h l fuel hn hr hlen hf
    obtain ⟨k, rfl⟩ : ∃ k, fuel = k + 1 := ⟨fuel - 1, by omega⟩
    obtain ⟨pre, x, rfl⟩ : ∃ pre x, cs = pre ++ [x] := by
      rcases List.eq_nil_or_concat cs with h1 | ⟨pre, x, h1⟩
      · subst h1; simp at hn
      · exact ⟨pre, x, by simpa using h1⟩
    have hm : l.m_len = n + 1 := by rw [hlen, hn]
    have hne : l.m_len ≠ 0 := by omega
    have hemp : (!l.empty) = true := by simp [list.empty, hne]
    simp only [list.clear_loop, hemp, if_true]
    refine (pop_back_rep hr hne).bind ?_
    rintro ⟨h2, l2⟩ ⟨rfl, hb, hr2, hfr⟩
    have hpl : pre.length = n := by simp at hn; exact hn
    have key := ih pre h2 { l with m_len := size_t_dec l.m_len } k hpl hr2
      (by simp only [LenOK, hm, size_t_dec_succ, hpl]) (by omega)
    refine key.imp ?_
    rintro ⟨h3, l3⟩ ⟨rfl, hr3, hb3, hfr3⟩
    refine ⟨rfl, hr3, by rw [hb3, hb], fun q hq => ?_⟩
    have hq2 : q ∉ footprint l pre := by
      intro hm2
      apply hq
      simp only [footprint, List.map_append, List.mem_cons, List.mem_append, List.map_cons,
        List.map_nil, List.mem_singleton, List.not_mem_nil, or_false] at hm2 ⊢
      tauto
    rw [hfr3 q hq2]
    exact hfr q hq

theorem clear_rep [Inhabited α] {h : Heap α} {l : list} {cs : List (Nat × α)} {fuel : Nat}
    (hr : Rep h l cs) (hlen : LenOK l cs) (hf : cs.length < fuel) :
    Returns (l.clear fuel h) fun r =>
      r.2 = ⟨0, h.brk + 1, h.brk + 2⟩ ∧ Rep r.1 r.2 [] ∧ r.1.brk = h.brk + 2 ∧
      ∀ q, q ∉ footprint l cs → q ≤ h.brk → r.1.read q = h.read q := by
  simp only [list.clear]
  refine (clear_loop_rep cs.length cs h l fuel rfl hr hlen hf).bind ?_
  rintro ⟨h2, l2⟩ ⟨rfl, hr2, hb, hfr⟩
  have hr2' : Rep h2 l ([] ++ []) := hr2
  obtain ⟨⟨nh, hh, _⟩, ⟨nt, ht, _⟩, hne⟩ := Rep_read_pos hr2'
  simp only [lastAddr_nil, hdAddr_nil] at hh ht hne
  have hb' : h2.brk = h.brk := hb
  have a1 := (Heap.read_some_le hh).1
  have a2 := (Heap.read_some_le ht).1
  simp [Heap.delete, setNext, setPrev, Heap.read_free, Heap.read_write, Heap.read_alloc, hh, ht,
    hne, hne.symm, hb', Rep]
  intro q hq hqb
  have n1 : q ≠ h.brk + 1 + 1 := by omega
  have n2 : q ≠ h.brk + 1 := by omega
  have n3 : q ≠ l.m_head := by rintro rfl; exact hq (by simp [footprint])
  have n4 : q ≠ l.m_tail := by rintro rfl; exact hq (by simp [footprint])
  simp only [n1, n2, n3, n4, if_false]
  exact hfr q hq

theorem destroy_empty [Inhabited α] {h : Heap α} {l : list} {k : Nat}
    (hr : Rep h l ([] : List (Nat × α))) (hlen : l.m_len = 0) (hf : 0 < k) :
    Returns (l.destroy k h) fun r =>
      h.brk ≤ r.brk ∧ ∀ q, q ∉ footprint l ([] : List (Nat × α)) → q ≤ h.brk →
        r.read q = h.read q := by
  simp only [list.destroy]
  refine (clear_rep hr hlen (by simpa using hf)).bind ?_
  rintro ⟨h2, l2⟩ ⟨rfl, hr2, hb, hfr⟩
  have hr2' : Rep h2 ⟨0, h.brk + 1, h.brk + 2⟩ (([] : List (Nat × α)) ++ []) := hr2
  obtain ⟨⟨nh, hh, _⟩, ⟨nt, ht, _⟩, hne⟩ := Rep_read_pos hr2'
  simp only [lastAddr_nil, hdAddr_nil] at hh ht hne
  have hb' : h2.brk = h.brk + 2 := hb
  simp [Heap.delete, Heap.read_free, hh, ht, hb']
  intro q hq hqb
  have n1 : q ≠ h.brk + 2 := by omega
  have n2 : q ≠ h.brk + 1 := by omega
  simp only [n1, n2, if_false]
  exact hfr q hq hqb

/-! ## reverse -/

theorem reverse_loop_rep {l : list} :
    ∀ (rest : List (Nat × α)) (h : Heap α) (done auxcs : List (Nat × α)) (aux : list)
      (fuel : Nat),
      Rep h l (done ++ rest) → Rep h aux auxcs →
      (∀ q ∈ footprint l (done ++ rest), q ∉ footprint aux auxcs) →
      rest.length < fuel →
      Returns (list.reverse_loop l.end_ fuel h ⟨hdAddr rest l.m_tail⟩ aux) fun r =>
        r.2 = { aux with m_len := aux.m_len + rest.length } ∧
        h.brk ≤ r.1.brk ∧ Rep r.1 l (done ++ rest) ∧
        ∃ auxcs2, Rep r.1 r.2 auxcs2 ∧
          auxcs2.map Prod.snd = (rest.map Prod.snd).reverse ++ auxcs.map Prod.snd ∧
          (∀ q ∈ footprint l (done ++ rest), q ∉ footprint aux auxcs2) ∧
          ∀ q, q ≤ h.brk → q ∉ footprint aux auxcs → r.1.read q = h.read q := by
  intro rest
  induction rest with
  | nil =>
    intro h done auxcs aux fuel hL hA hdisj hf
    obtain ⟨k, rfl⟩ : ∃ k, fuel = k + 1 := ⟨fuel - 1, by simp at hf; omega⟩
    simp only [list.reverse_loop, iterator.ne, list.end_, hdAddr_nil, beq_self_eq_true,
      Bool.not_true, Bool.false_eq_true, if_false]
    rw [Returns_pure]
    exact ⟨rfl, le_refl _, hL, auxcs, hA, by simp, hdisj, fun _ _ _ => rfl⟩
  | cons c rest ih =>
    intro h done auxcs aux fuel hL hA hdisj hf
    obtain ⟨k, rfl⟩ : ∃ k, fuel = k + 1 := ⟨fuel - 1, by simp at hf; omega⟩
    have hc := Rep_read_mid hL
    obtain ⟨_, n2, _, _, _⟩ := hL.mid_ne
    have hne : (iterator.ne ⟨c.1⟩ l.end_) = true := by
      simp [iterator.ne, list.end_, n2]
    simp only [list.reverse_loop, hdAddr_cons, hne, if_true, iterator.deref, getData, hc,
      ok_bind]
    refine (push_front_rep c.2 hA).bind ?_
    rintro ⟨h2, aux2⟩ ⟨rfl, hb, hA2, hfr⟩
    have hfrL : ∀ q ∈ footprint l (done ++ c :: rest), h2.read q = h.read q := by
      intro q hq
      refine hfr q (hdisj q hq) ?_
      have := (Rep_alloc hL q hq).1
      omega
    have hL2 := Rep_congr hL hfrL
    have hc2 : h2.read c.1 = _ := (hfrL c.1 (by simp [footprint])).trans hc
    simp only [iterator.post_inc, getNext, hc2, ok_bind]
    have hL3 : Rep h2 l ((done ++ [c]) ++ rest) := by simpa using hL2
    have hdisj2 : ∀ q ∈ footprint l ((done ++ [c]) ++ rest),
        q ∉ footprint aux ((h.brk + 1, c.2) :: auxcs) := by
      intro q hq hm
      have hq' : q ∈ footprint l (done ++ c :: rest) := by simpa using hq
      simp only [footprint, List.map_cons, List.cons_append, List.mem_cons] at hm
      have hle := (Rep_alloc hL q hq').1
      rcases hm with h1 | h1 | h1
      · exact hdisj q hq' (by simp [footprint, h1])
      · omega
      · exact hdisj q hq' (by simp only [footprint, List.mem_cons]; exact Or.inr h1)
    have key := ih h2 (done ++ [c]) ((h.brk + 1, c.2) :: auxcs)
      { aux with m_len := aux.m_len + 1 } k hL3 hA2 hdisj2 (by simp at hf; omega)
    refine key.imp ?_
    rintro ⟨h3, aux3⟩ ⟨rfl, hb3, hL4, auxcs3, hA3, hvals, hdisj3, hfr3⟩
    refine ⟨?_, ?_, by simpa using hL4, auxcs3, hA3, ?_, ?_, ?_⟩
    · simp only [List.length_cons]
      congr 1
      omega
    · have : h2.brk = h.brk + 1 := hb
      omega
    · rw [hvals]; simp
    · intro q hq
      exact hdisj3 q (by simpa using hq)
    · intro q hq1 hq2
      have hb' : h2.brk = h.brk + 1 := hb
      rw [hfr3 q (by omega) (by
        intro hm
        simp only [footprint, List.map_cons, List.cons_append, List.mem_cons] at hm
        rcases hm with h1 | h1 | h1
        · exact hq2 (by simp [footprint, h1])
        · omega
        · exact hq2 (by simp only [footprint, List.mem_cons]; exact Or.inr h1))]
      exact hfr q hq2 (by omega)

theorem reverse_rep [LT α] [DecidableRel (fun (x y : α) => x < y)] [Inhabited α]
    {h : Heap α} {l : list} {cs : List (Nat × α)} {fuel : Nat}
    (hr : Rep h l cs) (hlen : LenOK l cs) (hf : cs.length < fuel) :
    Returns (l.reverse fuel h) fun r =>
      r.2.m_len = l.m_len ∧ ∃ cs2, Rep r.1 r.2 cs2 ∧
        cs2.map Prod.snd = (cs.map Prod.snd).reverse := by
  simp only [list.reverse]
  refine (list_default_spec h).bind ?_
  rintro ⟨h1, aux⟩ ⟨rfl, hb1, hA1, hfr1⟩
  simp only at hb1 hA1 hfr1
  have hL1 : Rep h1 l cs := Rep_congr hr (fun q hq => hfr1 q (Rep_alloc hr q hq).1)
  obtain ⟨x, y, p0, e, hh, _, _, _, _⟩ := Rep_tail_seg hL1
  simp only [list.begin_, getNext, hh, ok_bind]
  have hdisj1 : ∀ q ∈ footprint l ([] ++ cs),
      q ∉ footprint (⟨0, h.brk + 1, h.brk + 2⟩ : list) ([] : List (Nat × α)) := by
    intro q hq hm
    have := (Rep_alloc hr q (by simpa using hq)).1
    simp [footprint] at hm
    omega
  refine (reverse_loop_rep cs h1 [] [] _ fuel (by simpa using hL1) hA1 hdisj1 hf).bind ?_
  rintro ⟨h2, aux2⟩ ⟨rfl, hb2, hL2, auxcs, hA2, hvals, hdisj2, _⟩
  simp only [List.nil_append, List.map_nil, List.append_nil] at hL2 hvals hdisj2
  simp only at hb2 hA2
  refine (clear_rep hL2 hlen hf).bind ?_
  rintro ⟨h3, l3⟩ ⟨rfl, hL3, hb3, hfr3⟩
  simp only at hL3 hb3 hfr3
  have hA3 : Rep h3 _ auxcs := Rep_congr hA2 (fun q hq => by
    refine hfr3 q (fun hm => hdisj2 q hm hq) (Rep_alloc hA2 q hq).1)
  have hal : auxcs.length = cs.length := by
    have := congrArg List.length hvals
    simpa using this
  have hdisj3 : ∀ q ∈ footprint (⟨0, h2.brk + 1, h2.brk + 2⟩ : list) ([] : List (Nat × α)),
      q ∉ footprint (⟨0 + cs.length, h.brk + 1, h.brk + 2⟩ : list) auxcs := by
    intro q hq hm
    have := (Rep_alloc hA2 q hm).1
    simp [footprint] at hq
    omega
  refine (merge_rep hL3 hA3 hdisj3 (by simp only [List.length_nil]; omega)).bind ?_
  rintro ⟨h4, l4, aux4⟩ ⟨rfl, rfl, hL4, hA4, hb4, _⟩
  simp only [merge_done, merge_rest, List.nil_append] at hL4
  simp only at hA4 hb4
  have hA5 : Rep h4 (⟨0, h.brk + 1, h.brk + 2⟩ : list) ([] : List (Nat × α)) := hA4
  have hfin := destroy_empty (k := fuel) hA5 rfl (by omega)
  show Returns (list.destroy fuel h4 ⟨0, h.brk + 1, h.brk + 2⟩ >>= _) _
  refine hfin.bind ?_
  rintro h5 ⟨_, hfr5⟩
  rw [Returns_pure]
  dsimp only
  refine ⟨?_, auxcs, ?_, hvals⟩
  · simp only [merge_rest, List.length_nil]
    rw [hlen]
    cases auxcs with
    | nil => simp at hal; simp [hal]
    | cons c r => simp
  · refine Rep_congr hL4 (fun q hq => hfr5 q ?_ (by
      exact (Rep_alloc hL4 q hq).1))
    intro hm
    have hndA := hA3.nodup
    simp only [footprint, List.nodup_cons, List.mem_append, List.mem_singleton, not_or,
      List.nodup_append] at hndA
    simp only [footprint, List.map_nil, List.nil_append, List.mem_cons, List.mem_append,
      List.mem_singleton, List.not_mem_nil, or_false] at hq hm
    have hle : ∀ q ∈ auxcs.map Prod.fst, q ≤ h2.brk := fun q hq =>
      (Rep_alloc hA2 q (by simp only [footprint, List.mem_cons, List.mem_append];
                            exact Or.inr (Or.inl hq))).1
    rcases hm with h1 | h1 <;> rcases hq with h2' | h2' | h2'
    · omega
    · rw [h1] at h2'; exact hndA.1.1 h2'
    · omega
    · omega
    · rw [h1] at h2'; exact hndA.2.2.2 h2' (by simp)
    · omega

/-- C5: for every well-formed list (sorted or not), `reverse()` returns
normally; afterwards the traversal is the reverse of the old traversal and
`size()` is unchanged. -/
theorem C5_reverse [LT α] [DecidableRel (fun (x y : α) => x < y)] [Inhabited α]
    (h : Heap α) (l : list) (cs : List (Nat × α)) (fuel : Nat)
    (hr : Rep h l cs) (hlen : LenOK l cs) (hf : cs.length < fuel) :
    ∃ h2 l2, l.reverse fuel h = .ok (h2, l2) ∧
      l2.traverse (cs.length + 1) h2 = .ok (cs.map Prod.snd).reverse ∧
      l2.size = l.size := by
  have key := reverse_rep hr hlen hf
  rw [Returns_iff] at key
  obtain ⟨⟨h2, l2⟩, he, hm, cs2, hr2, hvals⟩ := key
  refine ⟨h2, l2, he, ?_, hm⟩
  rw [← hvals]
  refine traverse_rep hr2 ?_
  have := congrArg List.length hvals
  simp only [List.length_map, List.length_reverse] at this
  omega

/-- C5, on the list `[1, 3, 5]`. -/
theorem C5_reverse_witness :
    ∃ h2 l2, demo_a.reverse 4 demo_heap = .ok (h2, l2) ∧
      l2.traverse 4 h2 = .ok [5, 3, 1] ∧ l2.size = 3 :=
  C5_reverse demo_heap demo_a [(3, 1), (4, 3), (5, 5)] 4 (by decide) (by decide) (by decide)

/-! ## unique -/

theorem length_dropWhile_le_self (p : Nat × α → Bool) (cs : List (Nat × α)) :
    (cs.dropWhile p).length ≤ cs.length := (List.dropWhile_sublist p).length_le

section unique_heap
variable [DecidableEq α]

theorem dropWhile_map_snd (x : α) : ∀ (cs : List (Nat × α)),
    (cs.dropWhile (fun d => decide (x = d.2))).map Prod.snd
      = (cs.map Prod.snd).dropWhile (fun y => decide (x = y)) := by
  intro cs
  induction cs with
  | nil => rfl
  | cons d cs ih =>
    by_cases hcd : x = d.2
    · simp only [List.dropWhile_cons, List.map_cons, hcd, decide_True, if_true]
      rw [← hcd]; exact ih
    · simp only [List.dropWhile_cons, List.map_cons, hcd, decide_False, Bool.false_eq_true,
        if_false]

theorem collapse_cells_map : ∀ (n : Nat) (cs : List (Nat × α)), cs.length ≤ n →
    (collapse_cells cs).map Prod.snd = collapse_runs (cs.map Prod.snd) := by
  intro n
  induction n with
  | zero =>
    intro cs hn
    have : cs = [] := List.length_eq_zero.1 (Nat.le_zero.1 hn)
    subst this
    simp [collapse_cells, collapse_runs]
  | succ n ih =>
    intro cs hn
    cases cs with
    | nil => simp [collapse_cells, collapse_runs]
    | cons c cs =>
      simp only [collapse_cells, collapse_runs, List.map_cons, List.cons.injEq, true_and]
      have hle : (cs.dropWhile (fun d => decide (c.2 = d.2))).length ≤ n := by
        have := length_dropWhile_le_self (fun d => decide (c.2 = d.2)) cs
        simp only [List.length_cons] at hn
        omega
      rw [ih _ hle, dropWhile_map_snd]

theorem unique_inner_rep {l : list} {c : Nat × α} :
    ∀ (rest : List (Nat × α)) (h : Heap α) (m : Nat) (pre : List (Nat × α)) (fuel : Nat),
      Rep h l (pre ++ c :: rest) → m = (pre ++ c :: rest).length → rest.length < fuel →
      Returns (list.unique_inner ⟨c.1⟩ fuel h { l with m_len := m } ⟨hdAddr rest l.m_tail⟩)
        fun r =>
          r.2.1 = { l with m_len :=
            (pre ++ c :: rest.dropWhile (fun d => decide (c.2 = d.2))).length } ∧
          Rep r.1 l (pre ++ c :: rest.dropWhile (fun d => decide (c.2 = d.2))) ∧
          r.2.2 = ⟨hdAddr (rest.dropWhile (fun d => decide (c.2 = d.2))) l.m_tail⟩ := by
  intro rest
  induction rest with
  | nil =>
    intro h m pre fuel hr hm hf
    obtain ⟨k, rfl⟩ : ∃ k, fuel = k + 1 := ⟨fuel - 1, by simp at hf; omega⟩
    simp only [list.unique_inner, iterator.ne, list.end_, hdAddr_nil, beq_self_eq_true,
      Bool.not_true, Bool.false_eq_true, if_false, List.dropWhile_nil]
    rw [Returns_pure]
    exact ⟨by rw [hm], hr, rfl⟩
  | cons d rest ih =>
    intro h m pre fuel hr hm hf
    obtain ⟨k, rfl⟩ : ∃ k, fuel = k + 1 := ⟨fuel - 1, by simp at hf; omega⟩
    have hc := Rep_read_mid hr
    have hr2 : Rep h l ((pre ++ [c]) ++ d :: rest) := by simpa using hr
    have hd := Rep_read_mid hr2
    obtain ⟨_, n2, _, _, _⟩ := hr2.mid_ne
    have hne : (iterator.ne ⟨d.1⟩ (list.end_ { l with m_len := m })) = true := by
      simp [iterator.ne, list.end_, n2]
    simp only [list.unique_inner, hdAddr_cons, hne, if_true, iterator.deref, getData, hc, hd,
      ok_bind]
    by_cases hcd : c.2 = d.2
    · simp only [hcd, if_true, List.dropWhile_cons, decide_True]
      have hr3 : Rep h { l with m_len := m } ((pre ++ [c]) ++ d :: rest) := hr2
      refine (erase_rep hr3).bind ?_
      rintro ⟨h2, l2, it2⟩ ⟨e1, _, hr4, _, e2⟩
      simp only at e1 e2 hr4
      subst e1 e2
      have hm2 : size_t_dec m = (pre ++ c :: rest).length := by
        rw [hm]
        simp only [List.length_append, List.length_cons]
        exact size_t_dec_succ _
      have key := ih h2 (size_t_dec m) pre k (by simpa using hr4) hm2
        (by simp at hf; omega)
      simp only [hcd] at key
      exact key
    · simp only [hcd, if_false, List.dropWhile_cons, decide_False, Bool.false_eq_true]
      rw [Returns_pure]
      exact ⟨by rw [hm], hr, rfl⟩

theorem unique_outer_rep {l : list} :
    ∀ (n : Nat) (rest : List (Nat × α)) (h : Heap α) (m : Nat) (done : List (Nat × α))
      (fuel : Nat),
      rest.length ≤ n → Rep h l (done ++ rest) → m = (done ++ rest).length →
      rest.length < fuel →
      Returns (list.unique_outer fuel h { l with m_len := m } ⟨hdAddr rest l.m_tail⟩)
        fun r => r.2 = { l with m_len := (done ++ collapse_cells rest).length } ∧
          Rep r.1 l (done ++ collapse_cells rest) := by
  intro n
  induction n with
  | zero =>
    intro rest h m done fuel hn hr hm hf
    have : rest = [] := List.length_eq_zero.1 (Nat.le_zero.1 hn)
    subst this
    obtain ⟨k, rfl⟩ : ∃ k, fuel = k + 1 := ⟨fuel - 1, by simp at hf; omega⟩
    simp only [list.unique_outer, iterator.ne, list.end_, hdAddr_nil, beq_self_eq_true,
      Bool.not_true, Bool.false_eq_true, if_false, collapse_cells]
    rw [Returns_pure]
    exact ⟨by rw [hm], hr⟩
  | succ n ih =>
    intro rest h m done fuel hn hr hm hf
    obtain ⟨k, rfl⟩ : ∃ k, fuel = k + 1 := ⟨fuel - 1, by omega⟩
    cases rest with
    | nil =>
      simp only [list.unique_outer, iterator.ne, list.end_, hdAddr_nil, beq_self_eq_true,
        Bool.not_true, Bool.false_eq_true, if_false, collapse_cells]
      rw [Returns_pure]
      exact ⟨by rw [hm], hr⟩
    | cons c rest =>
      simp only [List.length_cons] at hn hf
      have hc := Rep_read_mid hr
      obtain ⟨_, n2, _, _, _⟩ := hr.mid_ne
      have hne : (iterator.ne ⟨c.1⟩ (list.end_ { l with m_len := m })) = true := by
        simp [iterator.ne, list.end_, n2]
      simp only [list.unique_outer, hdAddr_cons, hne, if_true, iterator.post_inc, getNext, hc,
        ok_bind]
      refine (unique_inner_rep rest h m done k hr hm (by omega)).bind ?_
      rintro ⟨h2, l2, it2⟩ ⟨e1, hr2, _⟩
      simp only at e1 hr2
      subst e1
      have hc2 := Rep_read_mid hr2
      simp only [hc2, ok_bind]
      have hle := length_dropWhile_le_self (fun d => decide (c.2 = d.2)) rest
      have key := ih (rest.dropWhile (fun d => decide (c.2 = d.2))) h2
        (done ++ c :: rest.dropWhile (fun d => decide (c.2 = d.2))).length (done ++ [c]) k
        (by omega) (by simpa using hr2) (by simp) (by omega)
      refine key.imp ?_
      rintro ⟨h3, l3⟩ ⟨e3, hr3⟩
      simp only [collapse_cells]
      exact ⟨by simpa using e3, by simpa using hr3⟩

theorem unique_rep {h : Heap α} {l : list} {cs : List (Nat × α)} {fuel : Nat}
    (hr : Rep h l cs) (hlen : LenOK l cs) (hf : cs.length < fuel) :
    Returns (l.unique fuel h) fun r =>
      r.2 = { l with m_len := (collapse_cells cs).length } ∧ Rep r.1 r.2 (collapse_cells cs) := by
  obtain ⟨x, y, p0, e, hh, _, _, _, _⟩ := Rep_tail_seg hr
  simp only [list.unique, list.begin_, getNext, hh, ok_bind]
  have hl : l = { l with m_len := cs.length } := by
    cases l; simp only [LenOK] at hlen; subst hlen; rfl
  rw [hl]
  have key := unique_outer_rep (l := l) cs.length cs h cs.length [] fuel (le_refl _)
    (by simpa using hr) (by simp) hf
  simp only [List.nil_append] at key
  refine key.imp ?_
  rintro ⟨h2, l2⟩ ⟨e1, hr2⟩
  simp only at e1 hr2
  subst e1
  exact ⟨rfl, hr2⟩

end unique_heap

section unique_values
variable [DecidableEq α]

theorem collapse_runs_cons (x : α) (xs : List α) :
    collapse_runs (x :: xs) = x :: collapse_runs (xs.dropWhile (fun y => decide (x = y))) := by
  simp only [collapse_runs]

theorem run_count_cons (x : α) : ∀ (xs : List α),
    run_count (x :: xs) = 1 + run_count (xs.dropWhile (fun y => decide (x = y))) := by
  intro xs
  induction xs generalizing x with
  | nil => simp [run_count]
  | cons y ys ih =>
    by_cases hxy : x = y
    · subst hxy
      simp only [run_count, if_true, List.dropWhile_cons, decide_True, Nat.zero_add]
      exact ih x
    · simp only [run_count, hxy, if_false, List.dropWhile_cons, decide_False,
        Bool.false_eq_true]

theorem collapse_runs_length : ∀ (n : Nat) (vs : List α), vs.length ≤ n →
    (collapse_runs vs).length = run_count vs := by
  intro n
  induction n with
  | zero =>
    intro vs hn
    have : vs = [] := List.length_eq_zero.1 (Nat.le_zero.1 hn)
    subst this
    simp [collapse_runs, run_count]
  | succ n ih =>
    intro vs hn
    cases vs with
    | nil => simp [collapse_runs, run_count]
    | cons x xs =>
      have hle : (xs.dropWhile (fun y => decide (x = y))).length ≤ n := by
        have := (List.dropWhile_sublist (l := xs) (fun y => decide (x = y))).length_le
        simp only [List.length_cons] at hn
        omega
      rw [collapse_runs_cons, run_count_cons, List.length_cons, ih _ hle]
      omega

theorem mem_cons_dropWhile (x z : α) (xs : List α) :
    (z = x ∨ z ∈ xs.dropWhile (fun y => decide (x = y))) ↔ (z = x ∨ z ∈ xs) := by
  constructor
  · rintro (h1 | h1)
    · exact Or.inl h1
    · exact Or.inr ((List.dropWhile_sublist _).subset h1)
  · rintro (h1 | h1)
    · exact Or.inl h1
    · rw [← List.takeWhile_append_dropWhile (fun y => decide (x = y)) xs] at h1
      rcases List.mem_append.1 h1 with h2 | h2
      · have := (List.mem_takeWhile_imp h2)
        simp only [decide_eq_true_eq] at this
        exact Or.inl this.symm
      · exact Or.inr h2

theorem mem_collapse_runs : ∀ (n : Nat) (vs : List α), vs.length ≤ n →
    ∀ z, z ∈ collapse_runs vs ↔ z ∈ vs := by
  intro n
  induction n with
  | zero =>
    intro vs hn z
    have : vs = [] := List.length_eq_zero.1 (Nat.le_zero.1 hn)
    subst this
    simp [collapse_runs]
  | succ n ih =>
    intro vs hn z
    cases vs with
    | nil => simp [collapse_runs]
    | cons x xs =>
      have hle : (xs.dropWhile (fun y => decide (x = y))).length ≤ n := by
        have := (List.dropWhile_sublist (l := xs) (fun y => decide (x = y))).length_le
        simp only [List.length_cons] at hn
        omega
      rw [collapse_runs_cons, List.mem_cons, List.mem_cons, ih _ hle z]
      exact mem_cons_dropWhile x z xs

end unique_values

theorem collapse_runs_sorted [DecidableEq α] [PartialOrder α] :
    ∀ (n : Nat) (vs : List α), vs.length ≤ n →
    vs.Sorted (· ≤ ·) → (collapse_runs vs).Sorted (· < ·) := by
  intro n
  induction n with
  | zero =>
    intro vs hn _
    have : vs = [] := List.length_eq_zero.1 (Nat.le_zero.1 hn)
    subst this
    simp [collapse_runs]
  | succ n ih =>
    intro vs hn hs
    cases vs with
    | nil => simp [collapse_runs]
    | cons x xs =>
      have hsub := List.dropWhile_sublist (l := xs) (fun y => decide (x = y))
      have hle : (xs.dropWhile (fun y => decide (x = y))).length ≤ n := by
        have := hsub.length_le
        simp only [List.length_cons] at hn
        omega
      rw [List.sorted_cons] at hs
      have hs2 : (xs.dropWhile (fun y => decide (x = y))).Sorted (· ≤ ·) := hs.2.sublist hsub
      rw [collapse_runs_cons, List.sorted_cons]
      refine ⟨?_, ih _ hle hs2⟩
      intro z hz
      have hz2 := (mem_collapse_runs n _ hle z).1 hz
      have hxz : x ≤ z := hs.1 z (hsub.subset hz2)
      refine lt_of_le_of_ne hxz ?_
      intro hxe
      subst hxe
      -- `x` would occur in what is left after dropping the run of `x`
      cases hd : xs.dropWhile (fun y => decide (x = y)) with
      | nil => rw [hd] at hz2; simp at hz2
      | cons w ws =>
        have hw : ¬ (decide (x = w) = true) := by
          have := List.head_dropWhile_not (fun y => decide (x = y)) xs
          rw [hd] at this
          simpa using this
        simp only [decide_eq_true_eq] at hw
        rw [hd, List.sorted_cons] at hs2
        rw [hd, List.mem_cons] at hz2
        have hxw : x ≤ w := hs.1 w (hsub.subset (by rw [hd]; simp))
        rcases hz2 with h1 | h1
        · exact hw h1
        · exact hw (le_antisymm hxw (hs2.1 x h1))

theorem collapse_cells_length_le [DecidableEq α] : ∀ (n : Nat) (cs : List (Nat × α)),
    cs.length ≤ n → (collapse_cells cs).length ≤ cs.length := by
  intro n
  induction n with
  | zero =>
    intro cs hn
    have : cs = [] := List.length_eq_zero.1 (Nat.le_zero.1 hn)
    subst this
    simp [collapse_cells]
  | succ n ih =>
    intro cs hn
    cases cs with
    | nil => simp [collapse_cells]
    | cons c rest =>
      simp only [collapse_cells, List.length_cons] at hn ⊢
      have hle := length_dropWhile_le_self (fun d => decide (c.2 = d.2)) rest
      have := ih (rest.dropWhile (fun d => decide (c.2 = d.2))) (by omega)
      omega

/-- C4: for every well-formed list, `unique()` returns normally; afterwards
the traversal is the old traversal with every maximal run of consecutive
equal elements collapsed to its first element, `size()` is the number of
runs, the result holds the same values as before, and when the old traversal
is sorted the new one is strictly increasing (one representative of each
distinct value, in order). -/
theorem C4_unique [DecidableEq α] [PartialOrder α] (h : Heap α) (l : list)
    (cs : List (Nat × α)) (fuel : Nat)
    (hr : Rep h l cs) (hlen : LenOK l cs) (hf : cs.length < fuel) :
    ∃ h2 l2, l.unique fuel h = .ok (h2, l2) ∧
      l2.traverse (cs.length + 1) h2 = .ok (collapse_runs (cs.map Prod.snd)) ∧
      l2.size = run_count (cs.map Prod.snd) ∧
      (∀ z, z ∈ collapse_runs (cs.map Prod.snd) ↔ z ∈ cs.map Prod.snd) ∧
      ((cs.map Prod.snd).Sorted (· ≤ ·) → (collapse_runs (cs.map Prod.snd)).Sorted (· < ·)) := by
  have key := unique_rep hr hlen hf
  rw [Returns_iff] at key
  obtain ⟨⟨h2, l2⟩, he, e1, hr2⟩ := key
  simp only at e1 hr2
  subst e1
  have hmap := collapse_cells_map cs.length cs (le_refl _)
  have hlen2 := collapse_runs_length (cs.map Prod.snd).length (cs.map Prod.snd) (le_refl _)
  refine ⟨h2, _, he, ?_, ?_, mem_collapse_runs _ _ (le_refl _),
    collapse_runs_sorted _ _ (le_refl _)⟩
  · rw [← hmap]
    refine traverse_rep hr2 ?_
    have := collapse_cells_length_le cs.length cs (le_refl _)
    omega
  · have h1 := congrArg List.length hmap
    simp only [List.length_map] at h1
    simp only [list.size]
    rw [h1, hlen2]

/-- C4, on the list `[1, 1, 2, 3, 3]`: it becomes `[1, 2, 3]`, of size 3. -/
theorem C4_unique_witness :
    (∃ h2 l2, demo_u.unique 6 demo_heap_u = .ok (h2, l2) ∧
      l2.traverse 6 h2 = .ok (collapse_runs [1, 1, 2, 3, 3]) ∧
      l2.size = run_count [1, 1, 2, 3, 3] ∧
      (∀ z, z ∈ collapse_runs [1, 1, 2, 3, 3] ↔ z ∈ [1, 1, 2, 3, 3]) ∧
      (([1, 1, 2, 3, 3] : List Nat).Sorted (· ≤ ·) →
        (collapse_runs [1, 1, 2, 3, 3]).Sorted (· < ·))) ∧
    (demo_u.unique 6 demo_heap_u >>= fun r =>
      r.2.traverse 6 r.1 >>= fun t => pure (t, r.2.size)) = .ok ([1, 2, 3], 3) :=
  ⟨C4_unique demo_heap_u demo_u [(3, 1), (4, 1), (5, 2), (6, 3), (7, 3)] 6
    (by decide) (by decide) (by decide), rfl⟩

/-! ## sort -/

theorem bind_eq_ok {ε β γ : Type} {x : Except ε β} {f : β → Except ε γ} {r : γ}
    (h : (x >>= f) = .ok r) : ∃ a, x = .ok a ∧ f a = .ok r := by
  cases x with
  | error e => simp at h
  | ok a => exact ⟨a, rfl, h⟩

theorem push_back_len {h h2 : Heap α} {l l2 : list} {v : α}
    (he : l.push_back h v = .ok (h2, l2)) : l2.m_len = l.m_len + 1 := by
  simp only [list.push_back] at he
  obtain ⟨_, _, he⟩ := bind_eq_ok he
  obtain ⟨_, _, he⟩ := bind_eq_ok he
  obtain ⟨_, _, he⟩ := bind_eq_ok he
  obtain ⟨_, _, he⟩ := bind_eq_ok he
  obtain ⟨_, _, he⟩ := bind_eq_ok he
  obtain ⟨_, _, he⟩ := bind_eq_ok he
  simp only [pure, Except.pure, Except.ok.injEq, Prod.mk.injEq] at he
  rw [← he.2]

theorem list_count_loop_len [Inhabited α] (t : Nat) :
    ∀ (k : Nat) (h h2 : Heap α) (m m2 : Nat),
      list.list_count_loop t k h m = .ok (h2, m2) → m2 = m + k := by
  intro k
  induction k with
  | zero =>
    intro h h2 m m2 he
    simp only [list.list_count_loop, pure, Except.pure, Except.ok.injEq, Prod.mk.injEq] at he
    omega
  | succ k ih =>
    intro h h2 m m2 he
    simp only [list.list_count_loop] at he
    obtain ⟨_, _, he⟩ := bind_eq_ok he
    obtain ⟨_, _, he⟩ := bind_eq_ok he
    obtain ⟨_, _, he⟩ := bind_eq_ok he
    obtain ⟨_, _, he⟩ := bind_eq_ok he
    obtain ⟨_, _, he⟩ := bind_eq_ok he
    obtain ⟨_, _, he⟩ := bind_eq_ok he
    have := ih _ _ _ _ he
    omega

theorem list_count_len [Inhabited α] {h h2 : Heap α} {count : Nat} {l : list}
    (he : list.list_count h count = .ok (h2, l)) : l.m_len = count := by
  simp only [list.list_count] at he
  obtain ⟨_, _, he⟩ := bind_eq_ok he
  obtain ⟨_, _, he⟩ := bind_eq_ok he
  obtain ⟨⟨h3, m3⟩, h1, he⟩ := bind_eq_ok he
  have := list_count_loop_len _ _ _ _ _ _ h1
  simp only [pure, Except.pure, Except.ok.injEq, Prod.mk.injEq] at he
  rw [← he.2]
  simp only
  omega

theorem sort_fill_len :
    ∀ (k : Nat) (h h2 : Heap α) (it it2 : iterator) (dst dst2 : list),
      list.sort_fill k h it dst = .ok (h2, it2, dst2) → dst2.m_len = dst.m_len + k := by
  intro k
  induction k with
  | zero =>
    intro h h2 it it2 dst dst2 he
    simp only [list.sort_fill, pure, Except.pure, Except.ok.injEq, Prod.mk.injEq] at he
    rw [← he.2.2]; rfl
  | succ k ih =>
    intro h h2 it it2 dst dst2 he
    simp only [list.sort_fill] at he
    obtain ⟨_, _, he⟩ := bind_eq_ok he
    obtain ⟨⟨h3, dst3⟩, h1, he⟩ := bind_eq_ok he
    obtain ⟨_, _, he⟩ := bind_eq_ok he
    have := ih _ _ _ _ _ _ he
    have := push_back_len h1
    simp only at *
    omega

/-- On a list of length at least two `sort` never returns: every call recurses
on the sublist `right`, which is one element longer than the list itself. -/
theorem sort_never_returns [LT α] [DecidableRel (fun (x y : α) => x < y)] [Inhabited α] :
    ∀ (fuel : Nat) (h : Heap α) (l : list), 2 ≤ l.m_len →
      ∀ r, list.sort fuel h l ≠ .ok r := by
  intro fuel
  induction fuel with
  | zero => intro h l _ r he; simp [list.sort] at he
  | succ fuel ih =>
    intro h l hl r he
    have hnot : ¬ l.m_len ≤ 1 := by omega
    simp only [list.sort, hnot, if_false] at he
    obtain ⟨⟨h1, left⟩, _, he⟩ := bind_eq_ok he
    obtain ⟨⟨h2, right⟩, e2, he⟩ := bind_eq_ok he
    obtain ⟨it, _, he⟩ := bind_eq_ok he
    obtain ⟨⟨h3, it3, left3⟩, _, he⟩ := bind_eq_ok he
    obtain ⟨⟨h4, it4, right4⟩, e4, he⟩ := bind_eq_ok he
    obtain ⟨⟨h5, left5⟩, _, he⟩ := bind_eq_ok he
    obtain ⟨⟨h6, right6⟩, e6, _⟩ := bind_eq_ok he
    have hr1 := list_count_len e2
    have hr2 := sort_fill_len _ _ _ _ _ _ _ e4
    simp only at hr1 hr2 e6
    exact ih h5 right4 (by omega) _ e6

theorem push_back_all_len : ∀ (vs : List α) (h h2 : Heap α) (l l2 : list),
    list.push_back_all h l vs = .ok (h2, l2) → l2.m_len = l.m_len + vs.length := by
  intro vs
  induction vs with
  | nil =>
    intro h h2 l l2 he
    simp only [list.push_back_all, pure, Except.pure, Except.ok.injEq, Prod.mk.injEq] at he
    rw [← he.2]; rfl
  | cons v vs ih =>
    intro h h2 l l2 he
    simp only [list.push_back_all] at he
    obtain ⟨⟨h3, l3⟩, h1, he⟩ := bind_eq_ok he
    have := ih _ _ _ _ he
    have := push_back_len h1
    simp only [List.length_cons] at *
    omega

theorem list_default_len [Inhabited α] {h h2 : Heap α} {l : list}
    (he : list.list_default h = .ok (h2, l)) : l.m_len = 0 := by
  simp only [list.list_default] at he
  obtain ⟨_, _, he⟩ := bind_eq_ok he
  obtain ⟨_, _, he⟩ := bind_eq_ok he
  simp only [pure, Except.pure, Except.ok.injEq, Prod.mk.injEq] at he
  rw [← he.2]

/-- C3 (fails on the code): on the list built by `push_back` of 3, 1, 2,
`sort()` does not return, whatever the recursion budget; with a budget of 4
nested calls the run ends by exhausting it, not by a fault. -/
theorem C3_sort_never_returns :
    (∀ (fuel : Nat) (r : Heap Nat × list),
      (list.list_default (Heap.of_nodes ([] : List (Node Nat))) >>= fun s =>
        list.push_back_all s.1 s.2 [3, 1, 2] >>= fun s => list.sort fuel s.1 s.2) ≠ .ok r) ∧
    (list.list_default (Heap.of_nodes ([] : List (Node Nat))) >>= fun s =>
        list.push_back_all s.1 s.2 [3, 1, 2] >>= fun s => list.sort 4 s.1 s.2)
      = .error .out_of_fuel := by
  refine ⟨?_, rfl⟩
  intro fuel r he
  obtain ⟨⟨h1, l1⟩, e1, he⟩ := bind_eq_ok he
  obtain ⟨⟨h2, l2⟩, e2, he⟩ := bind_eq_ok he
  have := list_default_len e1
  have := push_back_all_len _ _ _ _ _ e2
  simp only [List.length_cons, List.length_nil] at *
  exact sort_never_returns fuel h2 l2 (by omega) r he

/-! ## Ranged insert: the returned iterator -/

/-- C11 (fails on the code): on the list `[1, 2]`, the ranged insert of
`[7, 8]` at `begin()` leaves the traversal `[7, 8, 1, 2]` and returns an
iterator that is equal to the position passed in and dereferences to `1`,
the value at `pos`, not to `8`, the last inserted value. -/
theorem C11_insert_range_returns_pos :
    (do let (h, l) ← list.list_default (Heap.of_nodes ([] : List (Node Nat)))
        let (h, l) ← list.push_back_all h l [1, 2]
        let b ← l.begin_ h
        let (h, l, r) ← l.insert_range h b [7, 8]
        let d ← r.deref h
        let t ← l.traverse 5 h
        pure (t, d, r.eq b)) = (.ok ([7, 8, 1, 2], 1, true) : Except Fault (List Nat × Nat × Bool)) := by
  rfl

/-! ## Single-position erase -/

theorem size_t_dec_pos {n : Nat} (hn : n ≠ 0) : size_t_dec n + 1 = n := by
  unfold size_t_dec
  rw [if_neg hn]
  omega

/-- C12: for a list with traversal `pre ++ [x] ++ post`, `erase` at the node
of `x` returns normally, leaves the traversal `pre ++ post`, decrements
`size()` (by one whenever it was not zero), and returns an iterator to the
first node of `post`, or `end()` when `post` is empty; `erase` at the head
sentinel or at `end()` returns the heap and the list unchanged together with
the iterator passed in. -/
theorem C12_erase (h : Heap α) (l : list) (pre post : List (Nat × α)) (x : Nat × α)
    (hr : Rep h l (pre ++ x :: post)) :
    (∃ h2 l2, l.erase h ⟨x.1⟩ = .ok (h2, l2, ⟨hdAddr post l.m_tail⟩) ∧
      l2.traverse (pre.length + post.length + 1) h2
        = .ok (pre.map Prod.snd ++ post.map Prod.snd) ∧
      l2.size = size_t_dec l.size ∧ (l.size ≠ 0 → l2.size + 1 = l.size) ∧
      (post = [] → (⟨hdAddr post l.m_tail⟩ : iterator) = l.end_)) ∧
    l.erase h ⟨l.m_head⟩ = .ok (h, l, ⟨l.m_head⟩) ∧
    l.erase h l.end_ = .ok (h, l, l.end_) := by
  refine ⟨?_, ?_, ?_⟩
  · have key := erase_rep hr
    rw [Returns_iff] at key
    obtain ⟨⟨h2, l2, it⟩, he, hl2, _, hr2, _, hit⟩ := key
    simp only at hl2 hit hr2
    subst hl2 hit
    refine ⟨h2, _, he, ?_, rfl, fun hn => size_t_dec_pos hn, ?_⟩
    · have := traverse_rep hr2 (k := pre.length + post.length + 1) (by simp)
      simpa using this
    · rintro rfl; rfl
  · simp [list.erase]; rfl
  · simp [list.erase, list.end_]; rfl

/-- C12, on the list `[1, 3, 5]`: erasing the node holding `3`. -/
theorem C12_erase_witness :
    ∃ h2 l2, demo_a.erase demo_heap ⟨4⟩ = .ok (h2, l2, ⟨5⟩) ∧
      l2.traverse 3 h2 = .ok [1, 5] ∧ l2.size = 2 :=
  let ⟨h2, l2, he, ht, hs, _, _⟩ :=
    (C12_erase demo_heap demo_a [(3, 1)] [(5, 5)] (4, 3) (by decide)).1
  ⟨h2, l2, he, ht, hs⟩


/-! ## `front`, `back`, `pop_back`, `pop_front` -/

theorem front_rep {h : Heap α} {l : list} {c : Nat × α} {rest : List (Nat × α)}
    (hr : Rep h l (c :: rest)) (hlen : l.m_len ≠ 0) : l.front h = .ok c.2 := by
  have hr0 : Rep h l ([] ++ c :: rest) := by simpa using hr
  obtain ⟨⟨nh, hh, hnext⟩, _, _⟩ := Rep_read_pos hr0
  have hx := Rep_read_mid hr0
  simp only [lastAddr_nil, hdAddr_cons] at hh hnext hx
  simp [list.front, list.empty, hlen, getNext, getData, hh, hnext, hx]

theorem back_rep {h : Heap α} {l : list} {c : Nat × α} {pre : List (Nat × α)}
    (hr : Rep h l (pre ++ [c])) (hlen : l.m_len ≠ 0) : l.back h = .ok c.2 := by
  have hr0 : Rep h l ((pre ++ [c]) ++ []) := by simpa using hr
  obtain ⟨_, ⟨nt, ht, hprev⟩, _⟩ := Rep_read_pos hr0
  have hx := Rep_read_mid hr
  simp only [hdAddr_nil, lastAddr_append, lastAddr_cons, lastAddr_nil] at ht hprev hx
  simp [list.back, list.empty, hlen, getPrev, getData, ht, hprev, hx]

/-- C14: on a well-formed list, `front()` and `back()` fail with the
out-of-range error exactly when the list is empty; on a non-empty list
`front()` returns the first value of the traversal and `back()` the last.
Both functions only read the heap and the list object: their result is a
value, and no heap or list is produced. -/
theorem C14_front_back (h : Heap α) (l : list) (cs : List (Nat × α))
    (hr : Rep h l cs) (hlen : LenOK l cs) :
    (l.front h = .error .out_of_range ↔ l.empty = true) ∧
    (l.back h = .error .out_of_range ↔ l.empty = true) ∧
    (l.empty = true ↔ cs.map Prod.snd = []) ∧
    (∀ v rest, cs.map Prod.snd = v :: rest → l.front h = .ok v) ∧
    (∀ v rest, cs.map Prod.snd = rest ++ [v] → l.back h = .ok v) := by
  unfold LenOK at hlen
  have hemp : l.empty = true ↔ cs = [] := by
    simp [list.empty, hlen]
  have hfront : ∀ c rest, cs = c :: rest → l.front h = .ok c.2 := by
    rintro c rest rfl
    exact front_rep hr (by simp [hlen])
  have hback : ∀ c pre, cs = pre ++ [c] → l.back h = .ok c.2 := by
    rintro c pre rfl
    exact back_rep hr (by simp [hlen])
  refine ⟨?_, ?_, ?_, ?_, ?_⟩
  · constructor
    · intro he
      by_contra hne
      obtain ⟨c, rest, rfl⟩ := List.exists_cons_of_ne_nil (fun hc => hne (hemp.2 hc))
      rw [hfront c rest rfl] at he
      cases he
    · intro he
      simp [list.front, he]
  · constructor
    · intro he
      by_contra hne
      have hcs : cs ≠ [] := fun hc => hne (hemp.2 hc)
      rw [hback (cs.getLast hcs) cs.dropLast (List.dropLast_append_getLast hcs).symm] at he
      cases he
    · intro he
      simp [list.back, he]
  · rw [hemp]; simp
  · intro v rest hv
    cases cs with
    | nil => simp at hv
    | cons c cs2 =>
      simp only [List.map_cons, List.cons.injEq] at hv
      rw [hfront c cs2 rfl, hv.1]
  · intro v rest hv
    have hcs : cs ≠ [] := by
      rintro rfl
      simp at hv
    have e := (List.dropLast_append_getLast hcs).symm
    rw [hback (cs.getLast hcs) cs.dropLast e]
    rw [e] at hv
    simp only [List.map_append, List.map_cons, List.map_nil] at hv
    have := List.append_inj_right' hv rfl
    simp only [List.cons.injEq, and_true] at this
    rw [this]

/-- C14, on the list `[1, 3, 5]`: `front()` is `1` and `back()` is `5`. -/
theorem C14_front_back_witness :
    demo_a.front demo_heap = .ok 1 ∧ demo_a.back demo_heap = .ok 5 :=
  let t := C14_front_back demo_heap demo_a [(3, 1), (4, 3), (5, 5)] (by decide) (by decide)
  ⟨t.2.2.2.1 1 [3, 5] rfl, t.2.2.2.2 5 [1, 3] rfl⟩

theorem pop_back_n_rep : ∀ (n : Nat) (cs : List (Nat × α)) (h : Heap α) (l : list),
    cs.length = n → Rep h l cs → LenOK l cs →
    Returns (list.pop_back_n n h l) fun r => Rep r.1 r.2 [] ∧
      LenOK r.2 ([] : List (Nat × α)) ∧ r.2.m_head = l.m_head ∧
      r.2.m_tail = l.m_tail := by
  intro n
  induction n with
  | zero =>
    intro cs h l hn hr hlen
    have : cs = [] := List.length_eq_zero.1 hn
    subst this
    exact ⟨hr, hlen, rfl, rfl⟩
  | succ n ih =>
    intro cs h l hn hr hlen
    have hcs : cs ≠ [] := by
      rintro rfl
      simp at hn
    have e := (List.dropLast_append_getLast hcs).symm
    have hr1 : Rep h l (cs.dropLast ++ [cs.getLast hcs]) := by rw [← e]; exact hr
    have hl0 : l.m_len ≠ 0 := by
      unfold LenOK at hlen
      rw [hlen, hn]
      omega
    have key := pop_back_rep hr1 hl0
    simp only [list.pop_back_n]
    refine Returns.bind key ?_
    rintro ⟨h2, l2⟩ ⟨hl2, _, hr2, _⟩
    simp only at hl2 hr2
    subst hl2
    have hlen2 : LenOK { l with m_len := size_t_dec l.m_len } cs.dropLast := by
      unfold LenOK at hlen ⊢
      have := size_t_dec_pos hl0
      simp only [List.length_dropLast]
      omega
    exact ih cs.dropLast h2 _ (by simp [hn]) hr2 hlen2

theorem pop_back_eq_exit (h : Heap α) (l : list) :
    l.pop_back h = (l.pop_back_exit h >>= exit_result) := by
  unfold list.pop_back list.pop_back_exit
  by_cases h0 : l.m_len = 0
  · simp only [h0, if_true]
    rfl
  · simp only [h0, if_false, bind_assoc]
    congr 1
    funext tp
    by_cases h1 : tp ≠ l.m_head
    · simp only [if_pos h1, bind_assoc]
      rfl
    · simp only [if_neg h1]
      rfl

theorem pop_back_exit_throw {h : Heap α} {l : list} {s : Heap α × list} {e : Fault}
    (he : l.pop_back_exit h = .ok (s, some e)) :
    e = .out_of_range ∧ s = (h, l) ∧ l.empty = true := by
  unfold list.pop_back_exit at he
  by_cases h0 : l.m_len = 0
  · simp only [h0, if_true, pure, Except.pure, Except.ok.injEq, Prod.mk.injEq,
      Option.some.injEq] at he
    exact ⟨he.2.symm, he.1.symm, by simp [list.empty, h0]⟩
  · exfalso
    simp only [h0, if_false] at he
    obtain ⟨tp, _, he⟩ := bind_eq_ok he
    by_cases h1 : tp ≠ l.m_head
    · simp only [if_pos h1] at he
      obtain ⟨_, _, he⟩ := bind_eq_ok he
      obtain ⟨_, _, he⟩ := bind_eq_ok he
      obtain ⟨_, _, he⟩ := bind_eq_ok he
      obtain ⟨_, _, he⟩ := bind_eq_ok he
      obtain ⟨_, _, he⟩ := bind_eq_ok he
      simp [pure, Except.pure] at he
    · simp only [if_neg h1] at he
      simp [pure, Except.pure] at he

/-- C15: on a well-formed list, `pop_back()` fails with the out-of-range
error exactly when the list is empty, and it then exits with the heap and
the list object it was called with (the error is raised by the first
statement, before any write); on a non-empty list it returns normally,
removes the last element and decrements `size()` by one.  For a list of `n`
elements, `n` successive `pop_back()` calls all return normally and leave
`empty()` true with an empty traversal, and one more call fails with the
out-of-range error and leaves that empty list as it is. -/
theorem C15_pop_back (h : Heap α) (l : list) (cs : List (Nat × α))
    (hr : Rep h l cs) (hlen : LenOK l cs) :
    (l.pop_back h = .error .out_of_range ↔ l.empty = true) ∧
    (l.empty = true ↔ cs.map Prod.snd = []) ∧
    (∀ pre x, cs = pre ++ [x] → ∃ h2 l2, l.pop_back h = .ok (h2, l2) ∧
      l2.traverse cs.length h2 = .ok (pre.map Prod.snd) ∧ l2.size + 1 = l.size) ∧
    (∃ h2 l2, list.pop_back_n cs.length h l = .ok (h2, l2) ∧ l2.empty = true ∧
      l2.traverse 1 h2 = .ok [] ∧ l2.pop_back h2 = .error .out_of_range ∧
      l2.pop_back_exit h2 = .ok ((h2, l2), some .out_of_range)) ∧
    (l.pop_back h = (l.pop_back_exit h >>= exit_result)) ∧
    (l.empty = true → l.pop_back_exit h = .ok ((h, l), some .out_of_range)) ∧
    (∀ s e, l.pop_back_exit h = .ok (s, some e) →
      e = .out_of_range ∧ s = (h, l) ∧ l.empty = true) := by
  have hlen0 := hlen
  unfold LenOK at hlen
  have hemp : l.empty = true ↔ cs = [] := by
    simp [list.empty, hlen]
  have hpop : ∀ pre x, cs = pre ++ [x] → ∃ h2 l2, l.pop_back h = .ok (h2, l2) ∧
      l2.traverse cs.length h2 = .ok (pre.map Prod.snd) ∧ l2.size + 1 = l.size := by
    rintro pre x rfl
    have hl0 : l.m_len ≠ 0 := by simp [hlen]
    have key := pop_back_rep hr hl0
    rw [Returns_iff] at key
    obtain ⟨⟨h2, l2⟩, he, hl2, _, hr2, _⟩ := key
    simp only at hl2 hr2
    subst hl2
    exact ⟨h2, _, he, traverse_rep hr2 (by simp), size_t_dec_pos hl0⟩
  have hthrow : ∀ (h3 : Heap α) (l3 : list), l3.m_len = 0 →
      l3.pop_back_exit h3 = .ok ((h3, l3), some .out_of_range) := by
    intro h3 l3 h0
    simp only [list.pop_back_exit, h0, if_true]
    rfl
  refine ⟨?_, ?_, hpop, ?_, pop_back_eq_exit h l, ?_, fun s e he => pop_back_exit_throw he⟩
  · constructor
    · intro he
      by_contra hne
      have hcs : cs ≠ [] := fun hc => hne (hemp.2 hc)
      obtain ⟨h2, l2, he2, _⟩ := hpop cs.dropLast (cs.getLast hcs)
        (List.dropLast_append_getLast hcs).symm
      rw [he2] at he
      cases he
    · intro he
      have : l.m_len = 0 := by simpa [list.empty] using he
      simp [list.pop_back, this]
  · rw [hemp]; simp
  · have key := pop_back_n_rep cs.length cs h l rfl hr hlen0
    rw [Returns_iff] at key
    obtain ⟨⟨h2, l2⟩, he, hr2, hl2, _⟩ := key
    simp only at hr2 hl2
    unfold LenOK at hl2
    simp only [List.length_nil] at hl2
    refine ⟨h2, l2, he, by simp [list.empty, hl2], ?_, by simp [list.pop_back, hl2],
      hthrow h2 l2 hl2⟩
    have := traverse_rep hr2 (k := 1) (by simp)
    simpa using this
  · intro he
    exact hthrow h l (by simpa [list.empty] using he)

/-- C15, on the list `[1, 3, 5]`: three `pop_back()` calls empty the list and
the fourth fails, exiting with the heap and the list object unchanged. -/
theorem C15_pop_back_witness :
    ∃ h2 l2, list.pop_back_n 3 demo_heap demo_a = .ok (h2, l2) ∧ l2.empty = true ∧
      l2.traverse 1 h2 = .ok [] ∧ l2.pop_back h2 = .error .out_of_range ∧
      l2.pop_back_exit h2 = .ok ((h2, l2), some .out_of_range) :=
  (C15_pop_back demo_heap demo_a [(3, 1), (4, 3), (5, 5)] (by decide) (by decide)).2.2.2.1

theorem pop_front_spec {h : Heap α} {l : list} {nh n nn : Node α}
    (hh : h.read l.m_head = some nh) (h1 : nh.next ≠ l.m_tail)
    (hx : h.read nh.next = some n) (hn : h.read n.next = some nn)
    (hne1 : l.m_head ≠ nh.next) (hne2 : n.next ≠ nh.next) (hne3 : l.m_head ≠ n.next) :
    Returns (l.pop_front h) fun r =>
      r.2 = { l with m_len := size_t_dec l.m_len } ∧ r.1.brk = h.brk ∧
      Unlinked h r.1 nh.next l.m_head n.next := by
  simp [list.pop_front, getPrev, getNext, setNext, setPrev, Heap.delete, Heap.read_write,
    Heap.read_free, hx, hh, hn, h1, hne1, hne2, hne3, hne1.symm, hne2.symm, hne3.symm,
    Unlinked]
  intro q
  split_ifs <;> simp_all

theorem pop_front_rep {h : Heap α} {l : list} {post : List (Nat × α)} {x : Nat × α}
    (hr : Rep h l (x :: post)) :
    Returns (l.pop_front h) fun r =>
      r.2 = { l with m_len := size_t_dec l.m_len } ∧ r.1.brk = h.brk ∧
      Rep r.1 r.2 post ∧
      (∀ q, q ∉ footprint l (x :: post) → r.1.read q = h.read q) := by
  have hr0 : Rep h l ([] ++ x :: post) := by simpa using hr
  obtain ⟨n1, n2, n3, n4, n5⟩ := hr0.mid_ne
  simp only [lastAddr_nil] at n3 n5
  have hx := Rep_read_mid hr0
  obtain ⟨⟨nh, hh, hnext⟩, _, _⟩ := Rep_read_pos hr0
  simp only [lastAddr_nil, hdAddr_cons] at hh hnext hx
  have hr2 : Rep h l (([] ++ [x]) ++ post) := by simpa using hr
  obtain ⟨_, ⟨nn, hn, _⟩, _⟩ := Rep_read_pos hr2
  have hx2 : h.read nh.next = some ⟨x.2, hdAddr post l.m_tail, l.m_head⟩ := by
    rw [hnext]; exact hx
  have key := pop_front_spec (l := l) hh (by rw [hnext]; exact n2) hx2 hn
    (by rw [hnext]; exact n3) (by rw [hnext]; exact n4) n5
  refine key.imp ?_
  rintro ⟨h2, l2⟩ ⟨rfl, hb, hl⟩
  rw [hnext] at hl
  have hl2 : Unlinked h h2 x.1 (lastAddr ([] : List (Nat × α)) l.m_head) (hdAddr post l.m_tail) := by
    simpa using hl
  have := Rep_unlink_frame hr0 hl2
  simp only [List.nil_append] at this
  exact ⟨rfl, hb, this.1, this.2⟩

theorem pop_front_empty {h : Heap α} {l : list} (hr : Rep h l []) :
    l.pop_front h = .ok (h, l) := by
  have hr0 : Rep h l ([] ++ []) := by simpa using hr
  obtain ⟨⟨nh, hh, hnext⟩, _, _⟩ := Rep_read_pos hr0
  simp only [lastAddr_nil, hdAddr_nil] at hh hnext
  simp [list.pop_front, getNext, hh, hnext]
  rfl

/-- C16 (fails on the code): on the empty list built by the default
constructor, `pop_front()` returns normally, with the heap and the list
object unchanged; no out-of-range error is raised. -/
theorem C16_pop_front_empty_returns :
    (do let (h, l) ← list.list_default (Heap.of_nodes ([] : List (Node Nat)))
        let (h2, l2) ← l.pop_front h
        let t ← l2.traverse 1 h2
        pure (l.empty, t, l2.size, l2 == l)) =
      (.ok (true, [], 0, true) : Except Fault (Bool × List Nat × Nat × Bool)) := by
  rfl

/-- C16 (amended): on a well-formed empty list `pop_front()` returns normally
and changes neither the heap nor the list object; on a list with traversal
`x :: post` it returns normally, leaves the traversal `post` and decrements
`size()` by one. -/
theorem C16_pop_front (h : Heap α) (l : list) (cs : List (Nat × α))
    (hr : Rep h l cs) (hlen : LenOK l cs) :
    (cs = [] → l.pop_front h = .ok (h, l)) ∧
    (∀ x post, cs = x :: post → ∃ h2 l2, l.pop_front h = .ok (h2, l2) ∧
      l2.traverse cs.length h2 = .ok (post.map Prod.snd) ∧ l2.size + 1 = l.size) := by
  constructor
  · rintro rfl
    exact pop_front_empty hr
  · rintro x post rfl
    unfold LenOK at hlen
    have hl0 : l.m_len ≠ 0 := by simp [hlen]
    have key := pop_front_rep hr
    rw [Returns_iff] at key
    obtain ⟨⟨h2, l2⟩, he, hl2, _, hr2, _⟩ := key
    simp only at hl2 hr2
    subst hl2
    exact ⟨h2, _, he, traverse_rep hr2 (by simp), size_t_dec_pos hl0⟩

/-- C16 (amended), on the list `[1, 3, 5]`: `pop_front()` leaves `[3, 5]`. -/
theorem C16_pop_front_witness :
    ∃ h2 l2, demo_a.pop_front demo_heap = .ok (h2, l2) ∧
      l2.traverse 3 h2 = .ok [3, 5] ∧ l2.size + 1 = 3 :=
  (C16_pop_front demo_heap demo_a [(3, 1), (4, 3), (5, 5)] (by decide) (by decide)).2
    (3, 1) [(4, 3), (5, 5)] rfl

/-! ## `find` -/

theorem find_loop_skip [DecidableEq α] {h : Heap α} {e nx : Nat} (v : α) :
    ∀ (pre : List (Nat × α)) (p fuel : Nat), Seg h p pre nx → e ∉ pre.map Prod.fst →
      v ∉ pre.map Prod.snd →
      list.find_loop ⟨e⟩ v (pre.length + fuel) h ⟨hdAddr pre nx⟩
        = list.find_loop ⟨e⟩ v fuel h ⟨nx⟩ := by
  intro pre
  induction pre with
  | nil =>
    intro p fuel _ _ _
    simp
  | cons c cs ih =>
    intro p fuel hs he hv
    rw [Seg_cons] at hs
    simp only [List.map_cons, List.mem_cons, not_or] at he hv
    have e1 : (c :: cs).length + fuel = (cs.length + fuel) + 1 := by simp; omega
    rw [e1]
    have := ih c.1 fuel hs.2 he.2 hv.2
    simp [list.find_loop, iterator.ne, iterator.deref, iterator.post_inc, getData, getNext,
      hs.1, Ne.symm he.1, this, Ne.symm hv.1]

theorem find_rep [DecidableEq α] {h : Heap α} {l : list} {cs : List (Nat × α)} (v : α)
    (hr : Rep h l cs) :
    (v ∉ cs.map Prod.snd → l.find (cs.length + 1) h v = .ok l.end_) ∧
    (∀ pre x post, cs = pre ++ x :: post → x.2 = v → v ∉ pre.map Prod.snd →
      l.find (cs.length + 1) h v = .ok ⟨x.1⟩) := by
  have hr0 := hr
  obtain ⟨hnd, hh, hs, _⟩ := hr
  cases hrh : h.read l.m_head with
  | none => simp [hrh] at hh
  | some nh =>
    simp only [hrh, Option.map_some', Option.some.injEq] at hh
    have hte : l.m_tail ∉ cs.map Prod.fst := by
      simp only [footprint, List.nodup_cons, List.nodup_append] at hnd
      intro hm
      exact hnd.2.2.2 hm (by simp)
    constructor
    · intro hv
      have := find_loop_skip v cs l.m_head 1 hs hte hv
      simp only [list.find, list.begin_, getNext, hrh, hh, list.end_, ok_bind, pure, Except.pure]
      rw [this]
      simp [list.find_loop, iterator.ne]
      rfl
    · rintro pre x post rfl hx hv
      rw [Seg_append, Seg_cons] at hs
      have hte2 : l.m_tail ∉ pre.map Prod.fst := fun hm => hte (by simp [hm])
      have hxt : x.1 ≠ l.m_tail := fun he => hte (by simp [← he])
      have := find_loop_skip v pre l.m_head (post.length + 1 + 1) hs.1 hte2 hv
      simp only [list.find, list.begin_, getNext, hrh, hh, list.end_, ok_bind, pure, Except.pure]
      have e1 : (pre ++ x :: post).length + 1 = pre.length + (post.length + 1 + 1) := by
        simp; omega
      rw [e1, hdAddr_append, this]
      simp [list.find_loop, iterator.ne, iterator.deref, getData, hs.2.1, hxt, hx]
      rfl

/-- C19: on a well-formed list, `find(v)` returns normally; the result is
`end()` if and only if no element equals `v`, and otherwise it references the
first node in traversal order whose value equals `v` (no earlier node holds
`v`).  The function only reads the heap and the list object: its result is an
iterator, and no heap or list is produced. -/
theorem C19_find [DecidableEq α] (h : Heap α) (l : list) (cs : List (Nat × α)) (v : α)
    (hr : Rep h l cs) :
    ∃ it, l.find (cs.length + 1) h v = .ok it ∧
      (it = l.end_ ↔ v ∉ cs.map Prod.snd) ∧
      (v ∈ cs.map Prod.snd → ∃ pre x post, cs = pre ++ x :: post ∧ it = ⟨x.1⟩ ∧
        it.deref h = .ok v ∧ v ∉ pre.map Prod.snd) := by
  obtain ⟨hmiss, hhit⟩ := find_rep v hr
  by_cases hv : v ∈ cs.map Prod.snd
  · obtain ⟨pre, post, hsplit, hpre⟩ :
        ∃ pre post, cs.map Prod.snd = pre ++ v :: post ∧ v ∉ pre := by
      obtain ⟨s, t, hst, hs⟩ := List.eq_append_cons_of_mem hv
      exact ⟨s, t, hst, hs⟩
    obtain ⟨cpre, crest, rfl, hcpre, hcrest⟩ := List.map_eq_append_iff.1 hsplit
    obtain ⟨x, cpost, rfl, hx, hcpost⟩ := List.map_eq_cons_iff.1 hcrest
    have hxt : x.1 ≠ l.m_tail := hr.mid_ne.2.1
    refine ⟨⟨x.1⟩, hhit cpre x cpost rfl hx (by rw [hcpre]; exact hpre), ?_, ?_⟩
    · constructor
      · intro he
        simp only [list.end_, iterator.mk.injEq] at he
        exact absurd he hxt
      · intro hn
        exact absurd hv hn
    · intro _
      refine ⟨cpre, x, cpost, rfl, rfl, ?_, by rw [hcpre]; exact hpre⟩
      simp [iterator.deref, getData, Rep_read_mid hr, hx]
  · exact ⟨l.end_, hmiss hv, ⟨fun _ => hv, fun _ => rfl⟩, fun hm => absurd hm hv⟩

/-- C19, on the list `[1, 1, 2, 3, 3]`: `find(3)` references node 6, the
first node holding `3`. -/
theorem C19_find_witness :
    ∃ it, demo_u.find 6 demo_heap_u 3 = .ok it ∧
      (it = demo_u.end_ ↔ 3 ∉ [1, 1, 2, 3, 3]) ∧
      (3 ∈ [1, 1, 2, 3, 3] → ∃ pre x post,
        [(3, 1), (4, 1), (5, 2), (6, 3), (7, 3)] = pre ++ x :: post ∧ it = ⟨x.1⟩ ∧
        it.deref demo_heap_u = .ok 3 ∧ 3 ∉ pre.map Prod.snd) :=
  C19_find demo_heap_u demo_u [(3, 1), (4, 1), (5, 2), (6, 3), (7, 3)] 3 (by decide)


/-! ## List equality -/

theorem list_eq_loop_seg [DecidableEq α] {h : Heap α} {e1 e2 : Nat} :
    ∀ (c1 c2 : List (Nat × α)) (p1 p2 : Nat), Seg h p1 c1 e1 → Seg h p2 c2 e2 →
      c1.length = c2.length →
      list.list_eq_loop c1.length h ⟨hdAddr c1 e1⟩ ⟨hdAddr c2 e2⟩
        = .ok (decide (c1.map Prod.snd = c2.map Prod.snd)) := by
  intro c1
  induction c1 with
  | nil =>
    intro c2 p1 p2 _ _ hl
    have : c2 = [] := List.length_eq_zero.1 hl.symm
    subst this
    simp [list.list_eq_loop]
    rfl
  | cons a c1 ih =>
    intro c2 p1 p2 hs1 hs2 hl
    cases c2 with
    | nil => simp at hl
    | cons b c2 =>
      rw [Seg_cons] at hs1 hs2
      simp only [List.length_cons, Nat.add_right_cancel_iff] at hl
      have := ih c2 a.1 b.1 hs1.2 hs2.2 hl
      by_cases hab : a.2 = b.2
      · simp [list.list_eq_loop, const_iterator.deref, const_iterator.post_inc, getData, getNext,
          hs1.1, hs2.1, hab, this]
      · simp [list.list_eq_loop, const_iterator.deref, const_iterator.post_inc, getData, getNext,
          hs1.1, hs2.1, hab]
        rfl

theorem list_eq_rep [DecidableEq α] {h : Heap α} {l1 l2 : list} {c1 c2 : List (Nat × α)}
    (hr1 : Rep h l1 c1) (hr2 : Rep h l2 c2) (hl1 : LenOK l1 c1) (hl2 : LenOK l2 c2) :
    list.list_eq h l1 l2 = .ok (decide (c1.map Prod.snd = c2.map Prod.snd)) := by
  unfold LenOK at hl1 hl2
  by_cases hlen : c1.length = c2.length
  · obtain ⟨_, hh1, hs1, _⟩ := hr1
    obtain ⟨_, hh2, hs2, _⟩ := hr2
    cases hrh1 : h.read l1.m_head with
    | none => simp [hrh1] at hh1
    | some n1 =>
      cases hrh2 : h.read l2.m_head with
      | none => simp [hrh2] at hh2
      | some n2 =>
        simp only [hrh1, hrh2, Option.map_some', Option.some.injEq] at hh1 hh2
        have := list_eq_loop_seg c1 c2 l1.m_head l2.m_head hs1 hs2 hlen
        simp [list.list_eq, list.size, list.cbegin, getNext, hl1, hl2, hlen, hrh1, hrh2, hh1,
          hh2]
        rw [← hlen, this]
  · have hne : c1.map Prod.snd ≠ c2.map Prod.snd := by
      intro he
      have := congrArg List.length he
      simp at this
      exact hlen this
    simp [list.list_eq, list.size, hl1, hl2, hlen, hne]
    rfl

/-- C18: for two well-formed lists (sentinel chain, and `size()` equal to the
number of real nodes) with traversals `t1` and `t2`, `l1 == l2` returns
normally with the value of `t1 = t2`, that is, true exactly when the lengths
agree and the values agree at every position; `l1 != l2` returns the
negation. -/
theorem C18_list_eq [DecidableEq α] (h : Heap α) (l1 l2 : list) (c1 c2 : List (Nat × α))
    (hr1 : Rep h l1 c1) (hr2 : Rep h l2 c2) (hl1 : LenOK l1 c1) (hl2 : LenOK l2 c2) :
    ∃ t1 t2 b, l1.traverse (l1.size + 1) h = .ok t1 ∧ l2.traverse (l2.size + 1) h = .ok t2 ∧
      list.list_eq h l1 l2 = .ok b ∧ list.list_ne h l1 l2 = .ok (!b) ∧
      (b = true ↔ t1.length = t2.length ∧ ∀ i, i < t1.length → t1[i]? = t2[i]?) := by
  have hl1' := hl1
  have hl2' := hl2
  unfold LenOK at hl1' hl2'
  have he := list_eq_rep hr1 hr2 hl1 hl2
  refine ⟨c1.map Prod.snd, c2.map Prod.snd, decide (c1.map Prod.snd = c2.map Prod.snd),
    traverse_rep hr1 (by simp [list.size, hl1']), traverse_rep hr2 (by simp [list.size, hl2']),
    he, ?_, ?_⟩
  · simp [list.list_ne, he]
  · rw [decide_eq_true_iff]
    constructor
    · intro hh
      rw [hh]
      exact ⟨rfl, fun _ _ => rfl⟩
    · rintro ⟨hlen, hi⟩
      apply List.ext_getElem?
      intro i
      by_cases hlt : i < (c1.map Prod.snd).length
      · exact hi i hlt
      · have h1 : (c1.map Prod.snd).length ≤ i := by omega
        have h2 : (c2.map Prod.snd).length ≤ i := by omega
        rw [List.getElem?_eq_none h1, List.getElem?_eq_none h2]

/-- C18, on the lists `[1, 3, 5]` and `[2, 4]`: `==` is false and `!=` is
true. -/
theorem C18_list_eq_witness :
    ∃ t1 t2 b, demo_a.traverse 4 demo_heap = .ok t1 ∧ demo_b.traverse 3 demo_heap = .ok t2 ∧
      list.list_eq demo_heap demo_a demo_b = .ok b ∧
      list.list_ne demo_heap demo_a demo_b = .ok (!b) ∧
      (b = true ↔ t1.length = t2.length ∧ ∀ i, i < t1.length → t1[i]? = t2[i]?) :=
  C18_list_eq demo_heap demo_a demo_b [(3, 1), (4, 3), (5, 5)] [(8, 2), (9, 4)]
    (by decide) (by decide) (by decide) (by decide)

/-! ## Range erase -/

theorem Seg_cut {h h2 : Heap α} {p0 e : Nat} {A M B : List (Nat × α)}
    (hs : Seg h p0 (A ++ (M ++ B)) e) (hA : A ≠ []) (hB : B ≠ [])
    (hnd : ((A ++ (M ++ B)).map Prod.fst).Nodup)
    (hl : Cut h h2 (M.map Prod.fst) (lastAddr A p0) (hdAddr B e)) :
    Seg h2 p0 (A ++ B) e := by
  obtain ⟨A', a, rfl⟩ : ∃ A' a, A = A' ++ [a] := by
    rcases List.eq_nil_or_concat A with h1 | ⟨A', a, h1⟩
    · exact absurd h1 hA
    · exact ⟨A', a, by simpa using h1⟩
  obtain ⟨b, B', rfl⟩ : ∃ b B', B = b :: B' := List.exists_cons_of_ne_nil hB
  simp only [lastAddr_append, lastAddr_cons, lastAddr_nil, hdAddr_cons] at hl
  have hnd2 : (A'.map Prod.fst ++ a.1 :: (M.map Prod.fst ++ b.1 :: B'.map Prod.fst)).Nodup := by
    simpa using hnd
  obtain ⟨_, hnd3, hdj⟩ := List.nodup_append.1 hnd2
  obtain ⟨ha, hnd4⟩ := List.nodup_cons.1 hnd3
  obtain ⟨_, hnd5, hdj2⟩ := List.nodup_append.1 hnd4
  obtain ⟨hb, _⟩ := List.nodup_cons.1 hnd5
  have haM : a.1 ∉ M.map Prod.fst := fun hm => ha (by simp [hm])
  have hab : a.1 ≠ b.1 := fun he => ha (by simp [he])
  have hbM : b.1 ∉ M.map Prod.fst := fun hm => hdj2 hm (by simp)
  have hA' : ∀ q ∈ A'.map Prod.fst, q ∉ M.map Prod.fst ∧ q ≠ a.1 ∧ q ≠ b.1 := by
    intro q hq
    refine ⟨fun hm => hdj hq (by simp [hm]), ?_, ?_⟩
    · rintro rfl; exact hdj hq (by simp)
    · rintro rfl; exact hdj hq (by simp)
  have hB' : ∀ q ∈ B'.map Prod.fst, q ∉ M.map Prod.fst ∧ q ≠ a.1 ∧ q ≠ b.1 := by
    intro q hq
    refine ⟨fun hm => hdj2 hm (by simp [hq]), ?_, ?_⟩
    · rintro rfl; exact ha (by simp [hq])
    · rintro rfl; exact hb hq
  simp only [Seg_append, Seg_cons, Seg_nil, hdAddr_cons, lastAddr_append, lastAddr_cons,
    lastAddr_nil, and_true, hdAddr_nil, hdAddr_append] at hs ⊢
  obtain ⟨⟨hsA, hra⟩, _, hrb, hsB⟩ := hs
  have frame : ∀ q, q ∉ M.map Prod.fst → q ≠ a.1 → q ≠ b.1 → h2.read q = h.read q := by
    intro q h1 h2' h3
    rw [hl q]; simp only [h1, h2', h3, if_false]
  refine ⟨⟨Seg_congr (fun q hq => ?_) hsA, ?_⟩, ?_, Seg_congr (fun q hq => ?_) hsB⟩
  · exact frame q (hA' q hq).1 (hA' q hq).2.1 (hA' q hq).2.2
  · rw [hl a.1]; simp [haM, hra]
  · rw [hl b.1]; simp only [hbM, Ne.symm hab, if_false, if_true, hrb, Option.map_some']
  · exact frame q (hB' q hq).1 (hB' q hq).2.1 (hB' q hq).2.2

theorem Rep_cut {h h2 : Heap α} {l : list} {pre mid post : List (Nat × α)}
    (hr : Rep h l (pre ++ (mid ++ post)))
    (hl : Cut h h2 (mid.map Prod.fst) (lastAddr pre l.m_head) (hdAddr post l.m_tail)) :
    Rep h2 l (pre ++ post) ∧
      ∀ q, q ∉ footprint l (pre ++ (mid ++ post)) → h2.read q = h.read q := by
  have hr0 := hr
  rw [Rep_iff_path] at hr ⊢
  obtain ⟨hnd, x0, y, p0, e, hs⟩ := hr
  have hs2 : Seg h p0 (((l.m_head, x0) :: pre) ++ (mid ++ (post ++ [(l.m_tail, y)]))) e := by
    simpa using hs
  have hfp : (((l.m_head, x0) :: pre) ++ (mid ++ (post ++ [(l.m_tail, y)]))).map Prod.fst
      = footprint l (pre ++ (mid ++ post)) := by simp [footprint]
  have key : Seg h2 p0 (((l.m_head, x0) :: pre) ++ (post ++ [(l.m_tail, y)])) e :=
    Seg_cut hs2 (by simp) (by simp) (by rw [hfp]; exact hnd)
      (by simpa [hdAddr_append] using hl)
  refine ⟨⟨?_, x0, y, p0, e, by simpa using key⟩, ?_⟩
  · have hsub : (footprint l (pre ++ post)).Sublist (footprint l (pre ++ (mid ++ post))) := by
      simp only [footprint, List.map_append, List.append_assoc]
      refine List.Sublist.cons₂ _ ?_
      refine List.Sublist.append (List.Sublist.refl _) ?_
      exact List.sublist_append_right _ _
    exact hnd.sublist hsub
  · intro q hq
    have h1 : q ∉ mid.map Prod.fst := fun hm => hq (by simp [footprint, hm])
    have h2' : q ≠ lastAddr pre l.m_head := by
      rintro rfl; exact hq (lastAddr_mem_footprint l pre (mid ++ post))
    have h3 : q ≠ hdAddr post l.m_tail := by
      rintro rfl
      have := hdAddr_mem_footprint l (pre ++ mid) post
      exact hq (by simpa using this)
    rw [hl q]; simp only [h1, h2', h3, if_false]

theorem erase_range_loop_seg {e : Nat} :
    ∀ (mid : List (Nat × α)) (h : Heap α) (p fuel m : Nat), Seg h p mid e →
      e ∉ mid.map Prod.fst → (mid.map Prod.fst).Nodup → mid.length < fuel →
      ∃ h2, list.erase_range_loop ⟨e⟩ fuel h ⟨hdAddr mid e⟩ m
          = .ok (h2, size_t_dec^[mid.length] m) ∧ h2.brk = h.brk ∧
        ∀ q, h2.read q = if q ∈ mid.map Prod.fst then none else h.read q := by
  intro mid
  induction mid with
  | nil =>
    intro h p fuel m _ _ _ hf
    obtain ⟨k, rfl⟩ : ∃ k, fuel = k + 1 := ⟨fuel - 1, by simp at hf; omega⟩
    refine ⟨h, ?_, rfl, fun q => by simp⟩
    simp [list.erase_range_loop, iterator.ne]
    rfl
  | cons c cs ih =>
    intro h p fuel m hs he hnd hf
    obtain ⟨k, rfl⟩ : ∃ k, fuel = k + 1 := ⟨fuel - 1, by simp at hf; omega⟩
    rw [Seg_cons] at hs
    simp only [List.map_cons, List.mem_cons, not_or, List.nodup_cons] at he hnd
    have hk : cs.length < k := by simp at hf; omega
    have hs2 : Seg (h.free c.1) c.1 cs e := by
      refine Seg_congr (fun q hq => ?_) hs.2
      rw [Heap.read_free]
      have : q ≠ c.1 := by rintro rfl; exact hnd.1 hq
      simp [this]
    obtain ⟨h2, hrun, hb, hrd⟩ := ih (h.free c.1) c.1 k (size_t_dec m) hs2 he.2 hnd.2 hk
    refine ⟨h2, ?_, by rw [hb]; rfl, fun q => ?_⟩
    · simp [list.erase_range_loop, iterator.ne, iterator.post_inc, getNext, Heap.delete,
        hs.1, Ne.symm he.1, hrun]
    · rw [hrd q, Heap.read_free]
      by_cases h1 : q = c.1
      · simp [h1]
      · by_cases h2' : q ∈ cs.map Prod.fst
        · simp [h2']
        · simp only [List.map_cons, List.mem_cons, h1, h2', if_false, or_self]

theorem size_t_dec_iterate : ∀ (k m : Nat), k ≤ m → size_t_dec^[k] m + k = m := by
  intro k
  induction k with
  | zero => intro m _; rfl
  | succ k ih =>
    intro m hm
    rw [Function.iterate_succ_apply]
    have h0 : m ≠ 0 := by omega
    have h1 := size_t_dec_pos h0
    have := ih (size_t_dec m) (by omega)
    omega

theorem erase_range_rep {h : Heap α} {l : list} {pre mid post : List (Nat × α)}
    (hr : Rep h l (pre ++ (mid ++ post))) {k : Nat} (hf : mid.length < k) :
    Returns (l.erase_range k h ⟨hdAddr (mid ++ post) l.m_tail⟩ ⟨hdAddr post l.m_tail⟩) fun r =>
      r.2.1 = { l with m_len := size_t_dec^[mid.length] l.m_len } ∧ r.1.brk = h.brk ∧
      Rep r.1 r.2.1 (pre ++ post) ∧
      (∀ q, q ∉ footprint l (pre ++ (mid ++ post)) → r.1.read q = h.read q) ∧
      (mid = [] → ∀ q, r.1.read q = h.read q) ∧
      r.2.2 = ⟨hdAddr post l.m_tail⟩ := by
  obtain ⟨⟨np, hp, hpn⟩, ⟨n, hn, hprev⟩, hne⟩ := Rep_read_pos hr
  have hr2 : Rep h l ((pre ++ mid) ++ post) := by simpa using hr
  obtain ⟨_, ⟨nn, hnn, _⟩, _⟩ := Rep_read_pos hr2
  have hnd := hr.nodup
  have hnd2 : ((l.m_head :: pre.map Prod.fst) ++ (mid.map Prod.fst ++
      (post.map Prod.fst ++ [l.m_tail]))).Nodup := by
    simpa [footprint] using hnd
  obtain ⟨_, hnd3, hdj⟩ := List.nodup_append.1 hnd2
  obtain ⟨hndm, _, hdj2⟩ := List.nodup_append.1 hnd3
  have hnxm : hdAddr post l.m_tail ∉ mid.map Prod.fst :=
    fun hm => hdj2 hm (hdAddr_mem_concat post l.m_tail)
  have hppm : lastAddr pre l.m_head ∉ mid.map Prod.fst :=
    fun hm => hdj (lastAddr_mem_cons pre l.m_head) (List.mem_append.2 (Or.inl hm))
  have hppnx : lastAddr pre l.m_head ≠ hdAddr post l.m_tail := by
    intro he
    exact hdj (lastAddr_mem_cons pre l.m_head)
      (List.mem_append.2 (Or.inr (he ▸ hdAddr_mem_concat post l.m_tail)))
  have hseg : Seg h (lastAddr pre l.m_head) mid (hdAddr post l.m_tail) := by
    have := hr.2.2.1
    rw [Seg_append, Seg_append] at this
    exact this.2.1
  obtain ⟨h2, hrun, hb, hrd⟩ := erase_range_loop_seg mid h (lastAddr pre l.m_head) k l.m_len
    hseg hnxm hndm hf
  have hp2 : h2.read (lastAddr pre l.m_head) = some np := by rw [hrd]; simp [hppm, hp]
  have hn2 : h2.read (hdAddr post l.m_tail) = some nn := by rw [hrd]; simp [hnxm, hnn]
  have hcut : Cut h ((h2.write (lastAddr pre l.m_head)
        { np with next := hdAddr post l.m_tail }).write (hdAddr post l.m_tail)
        { nn with prev := lastAddr pre l.m_head })
      (mid.map Prod.fst) (lastAddr pre l.m_head) (hdAddr post l.m_tail) := by
    intro q
    simp only [Heap.read_write, hrd, hp, hnn]
    split_ifs <;> simp_all
  have hrep := Rep_cut hr hcut
  have hrun2 : l.erase_range k h ⟨hdAddr (mid ++ post) l.m_tail⟩ ⟨hdAddr post l.m_tail⟩
      = .ok ((h2.write (lastAddr pre l.m_head)
        { np with next := hdAddr post l.m_tail }).write (hdAddr post l.m_tail)
        { nn with prev := lastAddr pre l.m_head },
        { l with m_len := size_t_dec^[mid.length] l.m_len }, ⟨hdAddr post l.m_tail⟩) := by
    rw [hdAddr_append] at hn ⊢
    simp [list.erase_range, getPrev, hn, hprev, hrun, setNext, setPrev, hp2, hn2,
      Heap.read_write, hppnx, Ne.symm hppnx]
  rw [hrun2, Returns_ok]
  refine ⟨rfl, ?_, hrep.1, hrep.2, ?_, rfl⟩
  · simp [Heap.write, hb]
  · rintro rfl q
    rw [hcut q]
    simp only [List.map_nil, List.not_mem_nil, if_false]
    simp only [List.nil_append] at hpn
    split_ifs with h1 h2'
    · rw [h1, hp]
      cases np
      simp only at hpn
      subst hpn
      rfl
    · rw [h2', hnn]
      have : nn = n := by
        simp only [List.nil_append] at hn
        rw [hnn] at hn
        exact Option.some.inj hn
      subst this
      cases nn
      simp only at hprev
      subst hprev
      rfl
    · rfl

/-- C13: for a list with traversal `pre ++ mid ++ post`, `first` the first
node of `mid ++ post` and `last` the first node of `post` (or `end()`),
`erase(first, last)` returns normally, leaves the traversal `pre ++ post`,
decreases `size()` by the length of `mid` (whenever `size()` was at least
that), and returns an iterator equal to `last`; when `mid` is empty, so that
`first == last`, the list object and every node of the heap are unchanged. -/
theorem C13_erase_range (h : Heap α) (l : list) (pre mid post : List (Nat × α))
    (hr : Rep h l (pre ++ (mid ++ post))) :
    ∃ h2 l2, l.erase_range (mid.length + 1) h ⟨hdAddr (mid ++ post) l.m_tail⟩
          ⟨hdAddr post l.m_tail⟩ = .ok (h2, l2, ⟨hdAddr post l.m_tail⟩) ∧
      l2.traverse (pre.length + post.length + 1) h2
        = .ok (pre.map Prod.snd ++ post.map Prod.snd) ∧
      (mid.length ≤ l.size → l2.size + mid.length = l.size) ∧
      (mid = [] → l2 = l ∧ ∀ q, h2.read q = h.read q) := by
  have key := erase_range_rep hr (k := mid.length + 1) (by omega)
  rw [Returns_iff] at key
  obtain ⟨⟨h2, l2, it⟩, he, hl2, _, hr2, _, hsame, hit⟩ := key
  simp only at hl2 hit hr2 hsame
  subst hl2 hit
  refine ⟨h2, _, he, ?_, fun hle => size_t_dec_iterate _ _ hle, ?_⟩
  · have := traverse_rep hr2 (k := pre.length + post.length + 1) (by simp)
    simpa using this
  · intro hm
    refine ⟨?_, hsame hm⟩
    subst hm
    rfl

/-- C13, on the list `[1, 3, 5]`: erasing the range of the first two nodes
leaves `[5]` with size 1 and returns the node holding `5`. -/
theorem C13_erase_range_witness :
    ∃ h2 l2, demo_a.erase_range 3 demo_heap ⟨3⟩ ⟨5⟩ = .ok (h2, l2, ⟨5⟩) ∧
      l2.traverse 2 h2 = .ok [5] ∧ l2.size + 2 = 3 :=
  let ⟨h2, l2, he, ht, hs, _⟩ :=
    C13_erase_range demo_heap demo_a [] [(3, 1), (4, 3)] [(5, 5)] (by decide)
  ⟨h2, l2, he, ht, hs (by decide)⟩

/-! ## Copy construction -/

/-- C17 (fails on the code): copy-constructing `c` from the empty list `l`
built by the default constructor.  Whatever the indeterminate value `uninit`
of the not yet assigned `m_tail` is, `c.begin()` is that value while
`c.end()` is the new tail sentinel (node 4), `c.size()` is 0 and `c == l`
returns true; with `uninit` the null pointer the traversal of `c` is an
invalid access instead of the empty sequence.  The traversal of `l` is
unchanged. -/
theorem C17_copy_empty_head_next :
    (∀ uninit : Nat,
      (do let (h, l) ← list.list_default (Heap.of_nodes ([] : List (Node Nat)))
          let (h2, c) ← list.list_copy 1 h uninit l
          let b ← c.begin_ h2
          let e ← list.list_eq h2 c l
          let t ← l.traverse 1 h2
          pure (b, c.end_, c.size, e, t))
        = (.ok (⟨uninit⟩, ⟨4⟩, 0, true, []) :
            Except Fault (iterator × iterator × Nat × Bool × List Nat))) ∧
    (do let (h, l) ← list.list_default (Heap.of_nodes ([] : List (Node Nat)))
        let (h2, c) ← list.list_copy 1 h 0 l
        c.traverse 3 h2) = (.error .invalid_access : Except Fault (List Nat)) := by
  refine ⟨fun uninit => ?_, ?_⟩
  · rfl
  · rfl

/-! ## Ties in `merge` -/

theorem traverse_nodes_loop_seg {h : Heap α} {e : Nat} :
    ∀ (cs : List (Nat × α)) (p fuel : Nat), Seg h p cs e → e ∉ cs.map Prod.fst →
      cs.length < fuel →
      list.traverse_nodes_loop ⟨e⟩ fuel h ⟨hdAddr cs e⟩ = .ok (cs.map Prod.fst) := by
  intro cs
  induction cs with
  | nil =>
    intro p fuel _ _ hf
    obtain ⟨k, rfl⟩ : ∃ k, fuel = k + 1 := ⟨fuel - 1, by simp at hf; omega⟩
    simp [list.traverse_nodes_loop, iterator.ne]
    rfl
  | cons c cs ih =>
    intro p fuel hs he hf
    obtain ⟨k, rfl⟩ : ∃ k, fuel = k + 1 := ⟨fuel - 1, by simp at hf; omega⟩
    rw [Seg_cons] at hs
    simp only [List.map_cons, List.mem_cons, not_or] at he
    have hk : cs.length < k := by simp at hf; omega
    have := ih c.1 k hs.2 he.2 hk
    simp [list.traverse_nodes_loop, iterator.ne, iterator.post_inc, getNext,
      hs.1, Ne.symm he.1, this]

theorem traverse_nodes_rep {h : Heap α} {l : list} {cs : List (Nat × α)} (hr : Rep h l cs)
    {k : Nat} (hf : cs.length < k) :
    l.traverse_nodes k h = .ok (cs.map Prod.fst) := by
  obtain ⟨hnd, hh, hs, _⟩ := hr
  cases hrh : h.read l.m_head with
  | none => simp [hrh] at hh
  | some nh =>
    simp only [hrh, Option.map_some', Option.some.injEq] at hh
    have hte : l.m_tail ∉ cs.map Prod.fst := by
      simp only [footprint, List.nodup_cons, List.nodup_append] at hnd
      intro hm
      exact hnd.2.2.2 hm (by simp)
    have := traverse_nodes_loop_seg cs l.m_head k hs hte hf
    simp [list.traverse_nodes, list.begin_, getNext, hrh, hh, list.end_, this]

theorem merge_other_first [LinearOrder α] : ∀ (ca cb : List (Nat × α)),
    (ca.map Prod.snd).Sorted (· ≤ ·) → (cb.map Prod.snd).Sorted (· ≤ ·) →
    ∀ x ∈ ca, ∀ y ∈ cb, ¬ x.2 < y.2 →
      [y, x].Sublist (merge_done ca cb ++ merge_rest ca cb) := by
  intro ca
  induction ca with
  | nil => intro cb _ _ x hx; simp at hx
  | cons a ca ih =>
    intro cb
    induction cb with
    | nil => intro _ _ x _ y hy; simp at hy
    | cons b cb ih2 =>
      intro ha hb x hx y hy hxy
      have ha' : (ca.map Prod.snd).Sorted (· ≤ ·) := by
        simp only [List.map_cons, List.sorted_cons] at ha; exact ha.2
      have hb' : (cb.map Prod.snd).Sorted (· ≤ ·) := by
        simp only [List.map_cons, List.sorted_cons] at hb; exact hb.2
      have hb1 : ∀ z ∈ cb, b.2 ≤ z.2 := by
        simp only [List.map_cons, List.sorted_cons] at hb
        intro z hz
        exact hb.1 z.2 (List.mem_map_of_mem _ hz)
      by_cases hlt : a.2 < b.2
      · simp only [merge_done, merge_rest, hlt, if_true, List.cons_append]
        have hxc : x ∈ ca := by
          rcases List.mem_cons.1 hx with rfl | h1
          · exfalso
            rcases List.mem_cons.1 hy with rfl | h2
            · exact hxy hlt
            · exact hxy (lt_of_lt_of_le hlt (hb1 y h2))
          · exact h1
        exact (ih (b :: cb) ha' hb x hxc y hy hxy).cons a
      · simp only [merge_done, merge_rest, hlt, if_false, List.cons_append]
        rcases List.mem_cons.1 hy with rfl | h2
        · refine List.Sublist.cons₂ _ ?_
          rw [List.singleton_sublist]
          exact (merge_done_rest_perm (a :: ca) cb).mem_iff.2 (List.mem_append.2 (Or.inl hx))
        · exact (ih2 ha hb' x hx y h2 hxy).cons b

/-- C20 (fails on the code): `a = [1]` (node 3) and `b = [1]` (node 6) are
well-formed sorted lists on distinct nodes; after `a.merge(b)` the traversal
of `a` visits node 6, which came from `b`, before node 3, the receiver's own
node with the equal value. -/
theorem C20_merge_tie_other_first :
    Rep demo_heap_t demo_ta [(3, 1)] ∧ Rep demo_heap_t demo_tb [(6, 1)] ∧
    (do let (h2, a2, _) ← demo_ta.merge 3 demo_heap_t demo_tb false
        let ns ← a2.traverse_nodes 3 h2
        let t ← a2.traverse 3 h2
        pure (ns, t)) = (.ok ([6, 3], [1, 1]) : Except Fault (List Nat × List Nat)) :=
  ⟨by decide, by decide, rfl⟩

/-- C20 (amended): `merge` resolves ties in favour of `other`.  For two
well-formed sorted lists `a` and `b` on distinct nodes, `a.merge(b)` returns
normally, and whenever a node `x` originally in `a` and a node `y` originally
in `b` hold equivalent values (neither `x < y` nor `y < x`), the traversal of
`a` after the merge visits `y` before `x`. -/
theorem C20_merge_ties [LinearOrder α] (h : Heap α) (a b : list) (ca cb : List (Nat × α))
    (fuel : Nat) (hA : Rep h a ca) (hB : Rep h b cb)
    (hdisj : ∀ q ∈ footprint a ca, q ∉ footprint b cb)
    (sa : (ca.map Prod.snd).Sorted (· ≤ ·)) (sb : (cb.map Prod.snd).Sorted (· ≤ ·))
    (hf : ca.length + cb.length < fuel) :
    ∃ h2 a2 b2 ns, a.merge fuel h b false = .ok (h2, a2, b2) ∧
      a2.traverse_nodes (ca.length + cb.length + 1) h2 = .ok ns ∧ ns.Nodup ∧
      ∀ x ∈ ca, ∀ y ∈ cb, ¬ x.2 < y.2 → ¬ y.2 < x.2 → [y.1, x.1].Sublist ns := by
  have key := merge_rep hA hB hdisj hf
  rw [Returns_iff] at key
  obtain ⟨⟨h2, a2, b2⟩, he, rfl, rfl, hr2, hr3, _, _⟩ := key
  have hperm := merge_done_rest_perm ca cb
  refine ⟨h2, _, _, (merge_done ca cb ++ merge_rest ca cb).map Prod.fst, he, ?_, ?_, ?_⟩
  · refine traverse_nodes_rep hr2 ?_
    rw [hperm.length_eq]
    simp
  · have hnd := hr2.nodup
    simp only [footprint, List.nodup_cons, List.nodup_append] at hnd
    exact hnd.2.1
  · intro x hx y hy hxy _
    have := (merge_other_first ca cb sa sb x hx y hy hxy).map Prod.fst
    simpa using this

/-- C20 (amended), on `a = [1]` (node 3) and `b = [1]` (node 6): node 6 is
visited before node 3. -/
theorem C20_merge_ties_witness :
    ∃ h2 a2 b2 ns, demo_ta.merge 3 demo_heap_t demo_tb false = .ok (h2, a2, b2) ∧
      a2.traverse_nodes 3 h2 = .ok ns ∧ ns.Nodup ∧
      ∀ x ∈ [((3 : Nat), (1 : Nat))], ∀ y ∈ [((6 : Nat), (1 : Nat))],
        ¬ x.2 < y.2 → ¬ y.2 < x.2 → [y.1, x.1].Sublist ns :=
  C20_merge_ties demo_heap_t demo_ta demo_tb [(3, 1)] [(6, 1)] 3
    (by decide) (by decide) (by decide) (by decide) (by decide) (by decide)

/-! ## Copy construction from a non-empty list -/

theorem list_copy_step {h : Heap α} {e T runo p : Nat} {nr np nt : Node α}
    (hrn : h.read runo = some nr) (hne0 : runo ≠ e)
    (hp : h.read p = some np) (ht : h.read T = some nt) (hne : p ≠ T)
    (hrp : runo ≠ p) (hrt : runo ≠ T) :
    ∃ h2, Linked h h2 (h.brk + 1) nr.data p T ∧ h2.brk = h.brk + 1 ∧
      ∀ fuel, list.list_copy_loop e T (fuel + 1) h runo p
        = list.list_copy_loop e T fuel h2 nr.next (h.brk + 1) := by
  have a1 := (Heap.read_some_le hp).1
  have a2 := (Heap.read_some_le ht).1
  have a3 := (Heap.read_some_le hrn).1
  have n1 : p ≠ h.brk + 1 := by omega
  have n2 : T ≠ h.brk + 1 := by omega
  have n3 : runo ≠ h.brk + 1 := by omega
  refine ⟨((h.alloc ⟨nr.data, T, p⟩).1.write p { np with next := h.brk + 1 }).write T
    { nt with prev := h.brk + 1 }, ?_, rfl, ?_⟩
  · intro q
    simp only [Heap.read_write, Heap.read_alloc]
    split_ifs <;> simp_all
  · intro fuel
    simp [list.list_copy_loop, getData, getNext, setNext, setPrev, Heap.read_write,
      Heap.read_alloc, hp, ht, hrn, hne0, hne, hne.symm, n1, n2, n3, n1.symm, n2.symm, hrp, hrt]

theorem list_copy_loop_rep {l c : list} :
    ∀ (todo done nc : List (Nat × α)) (h : Heap α) (fuel : Nat),
      Rep h l (done ++ todo) → Rep h c nc →
      (∀ q ∈ footprint l (done ++ todo), q ∉ footprint c nc) → todo.length < fuel →
      Returns (list.list_copy_loop l.m_tail c.m_tail fuel h (hdAddr todo l.m_tail)
          (lastAddr nc c.m_head))
        fun h2 => ∃ nc2, nc2.map Prod.snd = todo.map Prod.snd ∧ Rep h2 c (nc ++ nc2) ∧
          Rep h2 l (done ++ todo) ∧ h.brk ≤ h2.brk ∧
          (∀ q ∈ footprint l (done ++ todo), q ∉ footprint c (nc ++ nc2)) ∧
          ∀ q, q ≤ h.brk → q ∉ footprint c nc → h2.read q = h.read q := by
  intro todo
  induction todo with
  | nil =>
    intro done nc h fuel hl hc hd hf
    obtain ⟨k, rfl⟩ : ∃ k, fuel = k + 1 := ⟨fuel - 1, by simp at hf; omega⟩
    simp only [list.list_copy_loop, hdAddr_nil, ne_eq, not_true_eq_false, if_false,
      Returns_pure]
    exact ⟨[], rfl, by simpa using hc, hl, le_refl _, by simpa using hd, fun _ _ _ => trivial⟩
  | cons x todo ih =>
    intro done nc h fuel hl hc hd hf
    obtain ⟨k, rfl⟩ : ∃ k, fuel = k + 1 := ⟨fuel - 1, by simp at hf; omega⟩
    have hk : todo.length < k := by simp at hf; omega
    have hx := Rep_read_mid hl
    obtain ⟨_, hxt, _, _, _⟩ := hl.mid_ne
    have hc0 : Rep h c (nc ++ []) := by simpa using hc
    obtain ⟨⟨np, hp, _⟩, ⟨nt, ht, _⟩, hne⟩ := Rep_read_pos hc0
    simp only [hdAddr_nil] at ht hne
    have hxl : x.1 ∈ footprint l (done ++ x :: todo) := by simp [footprint]
    have hxc := hd x.1 hxl
    have hrp : x.1 ≠ lastAddr nc c.m_head := by
      intro he
      have := lastAddr_mem_footprint c nc []
      rw [List.append_nil, ← he] at this
      exact hxc this
    have hrt : x.1 ≠ c.m_tail := by
      intro he
      exact hxc (by rw [he]; simp [footprint])
    obtain ⟨h2, hlk, hb, heq⟩ := list_copy_step hx hxt hp ht hne hrp hrt
    simp only [hdAddr_cons]
    rw [heq k]
    simp only at hlk ⊢
    have hfresh : h.brk + 1 ∉ footprint c (nc ++ []) := hc0.fresh (q := h.brk + 1) (by omega)
    have hfr := Rep_link_frame hc0 hfresh (by simpa using hlk)
    have hc2 : Rep h2 c (nc ++ [(h.brk + 1, x.2)]) := hfr.1
    have hl2 : Rep h2 l ((done ++ [x]) ++ todo) := by
      have : Rep h2 l (done ++ x :: todo) := by
        refine Rep_congr hl (fun q hq => ?_)
        have hq1 := (Rep_alloc hl q hq).1
        exact hfr.2 q (by simpa using hd q hq) (by omega)
      simpa using this
    have hd2 : ∀ q ∈ footprint l ((done ++ [x]) ++ todo),
        q ∉ footprint c (nc ++ [(h.brk + 1, x.2)]) := by
      intro q hq
      have hq' : q ∈ footprint l (done ++ x :: todo) := by simpa using hq
      have hq1 := (Rep_alloc hl q hq').1
      have hq2 := hd q hq'
      have hqn : q ≠ h.brk + 1 := by omega
      simp only [footprint, List.map_append, List.map_cons, List.map_nil, List.mem_cons,
        List.mem_append, List.mem_singleton, List.not_mem_nil, or_false, not_or] at hq2 ⊢
      exact ⟨hq2.1, ⟨hq2.2.1, hqn⟩, hq2.2.2⟩
    have key := ih (done ++ [x]) (nc ++ [(h.brk + 1, x.2)]) h2 k hl2 hc2 hd2 hk
    simp only [lastAddr_append, lastAddr_cons, lastAddr_nil] at key
    refine key.imp ?_
    rintro h3 ⟨nc2, hnc, hc3, hl3, hb3, hd3, hfr3⟩
    refine ⟨(h.brk + 1, x.2) :: nc2, by simp [hnc], by simpa using hc3, by simpa using hl3,
      by omega, ?_, fun q hq hqc => ?_⟩
    · intro q hq
      have := hd3 q (by simpa using hq)
      simpa using this
    · have hqn : q ≠ h.brk + 1 := by omega
      have hqc2 : q ∉ footprint c (nc ++ [(h.brk + 1, x.2)]) := by
        simp only [footprint, List.map_append, List.map_cons, List.map_nil, List.mem_cons,
          List.mem_append, List.mem_singleton, List.not_mem_nil, or_false, not_or] at hqc ⊢
        exact ⟨hqc.1, ⟨hqc.2.1, hqn⟩, hqc.2.2⟩
      rw [hfr3 q (by omega) hqc2]
      exact hfr.2 q (by simpa using hqc) hqn

theorem list_copy_rep [Inhabited α] {h : Heap α} {l : list} {x : Nat × α}
    {todo : List (Nat × α)} (hr : Rep h l (x :: todo)) (uninit : Nat) {k : Nat}
    (hf : todo.length + 1 < k) :
    Returns (list.list_copy k h uninit l) fun r =>
      r.2 = ⟨l.m_len, h.brk + 1, h.brk + 2⟩ ∧
      ∃ nc, nc.map Prod.snd = (x :: todo).map Prod.snd ∧ Rep r.1 r.2 nc ∧
        Rep r.1 l (x :: todo) ∧ (∀ q ∈ footprint l (x :: todo), q ∉ footprint r.2 nc) ∧
        ∀ q, q ≤ h.brk → r.1.read q = h.read q := by
  obtain ⟨k, rfl⟩ : ∃ j, k = j + 1 := ⟨k - 1, by omega⟩
  have hk : todo.length < k := by omega
  have hr0 : Rep h l ([] ++ x :: todo) := by simpa using hr
  obtain ⟨⟨nh, hh, hnext⟩, _, _⟩ := Rep_read_pos hr0
  simp only [lastAddr_nil, hdAddr_cons] at hh hnext
  have hx := Rep_read_mid hr0
  simp only [lastAddr_nil] at hx
  obtain ⟨_, hxt, _, _, _⟩ := hr0.mid_ne
  have bh := (Heap.read_some_le hh).1
  have bx := (Heap.read_some_le hx).1
  -- the heap after the two sentinel allocations
  have hBdef : ∃ hB : Heap α, hB = ((h.alloc ⟨default, uninit, 0⟩).1.alloc
      ⟨default, 0, h.brk + 1⟩).1 := ⟨_, rfl⟩
  obtain ⟨hB, hBe⟩ := hBdef
  have hBb : hB.brk = h.brk + 2 := by rw [hBe]; rfl
  have hBr : ∀ q, hB.read q = if q = h.brk + 2 then some ⟨default, 0, h.brk + 1⟩
      else if q = h.brk + 1 then some ⟨default, uninit, 0⟩ else h.read q := by
    intro q
    rw [hBe]
    simp only [Heap.read_alloc]
    rfl
  have hBold : ∀ q, q ≤ h.brk → hB.read q = h.read q := by
    intro q hq
    rw [hBr q]
    have n1 : q ≠ h.brk + 2 := by omega
    have n2 : q ≠ h.brk + 1 := by omega
    simp only [n1, n2, if_false]
  have hBH : hB.read (h.brk + 1) = some ⟨default, uninit, 0⟩ := by rw [hBr]; simp
  have hBT : hB.read (h.brk + 2) = some ⟨default, 0, h.brk + 1⟩ := by rw [hBr]; simp
  have hBx : hB.read x.1 = some ⟨x.2, hdAddr todo l.m_tail, l.m_head⟩ := by
    rw [hBold x.1 bx]; exact hx
  have hBh : hB.read l.m_head = some nh := by rw [hBold l.m_head bh]; exact hh
  obtain ⟨hS, hlk, hSb, heq⟩ := list_copy_step (e := l.m_tail) hBx hxt hBH hBT
    (by omega) (by omega) (by omega)
  simp only at hlk heq
  rw [hBb] at hlk heq hSb
  -- the new list after the first iteration
  have hfix : Rep (hB.write (h.brk + 1) ⟨default, h.brk + 2, 0⟩)
      (⟨l.m_len, h.brk + 1, h.brk + 2⟩ : list) ([] ++ ([] : List (Nat × α))) := by
    simp [Rep, Heap.read_write, hBH, hBT]
  have hlk2 : Linked (hB.write (h.brk + 1) ⟨default, h.brk + 2, 0⟩) hS (h.brk + 2 + 1) x.2
      (lastAddr ([] : List (Nat × α)) (h.brk + 1)) (hdAddr ([] : List (Nat × α)) (h.brk + 2)) := by
    intro q
    rw [hlk q]
    simp only [Heap.read_write, hBH, lastAddr_nil, hdAddr_nil]
    split_ifs <;> simp_all
  have hfr := Rep_link_frame (l := (⟨l.m_len, h.brk + 1, h.brk + 2⟩ : list)) hfix
    (by simp [footprint]) hlk2
  have hc1 : Rep hS (⟨l.m_len, h.brk + 1, h.brk + 2⟩ : list) [(h.brk + 2 + 1, x.2)] := by
    simpa using hfr.1
  have hSold : ∀ q, q ≤ h.brk → hS.read q = h.read q := by
    intro q hq
    rw [Linked_frame hlk (by omega) (by omega) (by omega)]
    exact hBold q hq
  have hl1 : Rep hS l ([x] ++ todo) := by
    refine Rep_congr hr (fun q hq => ?_)
    exact hSold q (Rep_alloc hr q hq).1
  have hd1 : ∀ q ∈ footprint l ([x] ++ todo),
      q ∉ footprint (⟨l.m_len, h.brk + 1, h.brk + 2⟩ : list) [(h.brk + 2 + 1, x.2)] := by
    intro q hq
    have hq1 := (Rep_alloc hr q hq).1
    simp [footprint]
    omega
  have key := list_copy_loop_rep (l := l) (c := (⟨l.m_len, h.brk + 1, h.brk + 2⟩ : list))
    todo [x] [(h.brk + 2 + 1, x.2)] hS k hl1 hc1 hd1 hk
  simp only [lastAddr_cons, lastAddr_nil] at key
  have hrun : list.list_copy (k + 1) h uninit l
      = (list.list_copy_loop l.m_tail (h.brk + 2) k hS (hdAddr todo l.m_tail) (h.brk + 2 + 1)
          >>= fun h2 => pure (h2, (⟨l.m_len, h.brk + 1, h.brk + 2⟩ : list))) := by
    have e0 : list.list_copy (k + 1) h uninit l
        = (getNext hB l.m_head >>= fun runo =>
            list.list_copy_loop l.m_tail (h.brk + 2) (k + 1) hB runo (h.brk + 1)
              >>= fun h2 => pure (h2, (⟨l.m_len, h.brk + 1, h.brk + 2⟩ : list))) := by
      rw [hBe]
      rfl
    rw [e0]
    simp only [getNext, hBh, hnext, ok_bind, heq]
  rw [hrun]
  refine Returns.bind key ?_
  rintro h3 ⟨nc2, hnc, hc3, hl3, hb3, hd3, hfr3⟩
  rw [Returns_pure]
  refine ⟨rfl, (h.brk + 2 + 1, x.2) :: nc2, by simp [hnc], by simpa using hc3,
    by simpa using hl3, ?_, fun q hq => ?_⟩
  · intro q hq
    have := hd3 q (by simpa using hq)
    simpa using this
  · rw [hfr3 q (by omega) ?_]
    · exact hSold q hq
    · simp [footprint]
      omega

/-! ## The cached length under the mutating member functions -/

theorem LenInv_intro {h : Heap α} {l : list} {cs : List (Nat × α)} (hr : Rep h l cs)
    (hl : l.m_len = cs.length) : LenInv h l := ⟨cs, hr, hl⟩

theorem insert_head_rep {h : Heap α} {l : list} {cs : List (Nat × α)} (v : α)
    (hr : Rep h l cs) :
    Returns (l.insert h ⟨l.m_head⟩ v) fun r =>
      r.2.1 = { l with m_len := l.m_len + 1 } ∧ Rep r.1 r.2.1 ((h.brk + 1, v) :: cs) := by
  have key := push_front_rep v hr
  rw [Returns_iff] at key
  obtain ⟨⟨h2, l2⟩, he, hl2, _, hr2, _⟩ := key
  simp only at hl2 hr2
  subst hl2
  have hr0 : Rep h2 l ([] ++ (h.brk + 1, v) :: cs) := by simpa using hr2
  obtain ⟨⟨nh, hh, _⟩, _, _⟩ := Rep_read_pos hr0
  simp only [lastAddr_nil] at hh
  simp only [list.insert, if_true, he, ok_bind, getNext, hh]
  exact ⟨rfl, hr2⟩

/-- C21: the cached-length invariant is preserved by `push_front`,
`push_back`, `pop_front`, `pop_back`, `insert` (single value, range,
initializer sequence), `erase` (single position, range), `splice`, `clear`,
`unique` and `reverse`.  For a list `l` that satisfies it with real nodes
`cs`, each call at a valid position (a real node or `end()`, given as a split
of `cs`) returns normally and the invariant holds again for `l` (and, for
`splice`, for `other` as well), as does `insert` at the head sentinel;
`pop_back` on the empty list raises the out-of-range error before any write,
and `erase` at a sentinel and `splice` of a list into itself return with
nothing changed. -/
theorem C21_len_invariant [DecidableEq α] [LT α] [DecidableRel (fun (x y : α) => x < y)]
    [Inhabited α] (h : Heap α) (l : list) (cs : List (Nat × α))
    (hr : Rep h l cs) (hlen : LenOK l cs) :
    (∀ v, Returns (l.push_front h v) fun r => LenInv r.1 r.2) ∧
    (∀ v, Returns (l.push_back h v) fun r => LenInv r.1 r.2) ∧
    (Returns (l.pop_front h) fun r => LenInv r.1 r.2) ∧
    (cs = [] → l.pop_back h = .error .out_of_range) ∧
    (cs ≠ [] → Returns (l.pop_back h) fun r => LenInv r.1 r.2) ∧
    (∀ pre post v, cs = pre ++ post →
      Returns (l.insert h ⟨hdAddr post l.m_tail⟩ v) fun r => LenInv r.1 r.2.1) ∧
    (∀ v, Returns (l.insert h ⟨l.m_head⟩ v) fun r => LenInv r.1 r.2.1) ∧
    (∀ pre post ys, cs = pre ++ post →
      Returns (l.insert_range h ⟨hdAddr post l.m_tail⟩ ys) fun r => LenInv r.1 r.2.1) ∧
    (∀ pre post ys, cs = pre ++ post →
      Returns (l.insert_ilist h ⟨hdAddr post l.m_tail⟩ ys) fun r => LenInv r.1 r.2.1) ∧
    (∀ pre x post, cs = pre ++ x :: post →
      Returns (l.erase h ⟨x.1⟩) fun r => LenInv r.1 r.2.1) ∧
    (l.erase h ⟨l.m_head⟩ = .ok (h, l, ⟨l.m_head⟩) ∧ l.erase h l.end_ = .ok (h, l, l.end_)) ∧
    (∀ pre mid post, cs = pre ++ (mid ++ post) →
      Returns (l.erase_range (mid.length + 1) h ⟨hdAddr (mid ++ post) l.m_tail⟩
        ⟨hdAddr post l.m_tail⟩) fun r => LenInv r.1 r.2.1) ∧
    (∀ pre post (b : list) (cb : List (Nat × α)), cs = pre ++ post → Rep h b cb →
      LenOK b cb → (∀ q ∈ footprint l cs, q ∉ footprint b cb) →
      Returns (l.splice (cb.length + 1) h ⟨hdAddr post l.m_tail⟩ b false) fun r =>
        LenInv r.1 r.2.1 ∧ LenInv r.1 r.2.2) ∧
    (∀ pos fuel, l.splice fuel h pos l true = .ok (h, l, l)) ∧
    (Returns (l.clear (cs.length + 1) h) fun r => LenInv r.1 r.2) ∧
    (Returns (l.unique (cs.length + 1) h) fun r => LenInv r.1 r.2) ∧
    (Returns (l.reverse (cs.length + 1) h) fun r => LenInv r.1 r.2) := by
  have hlen0 := hlen
  unfold LenOK at hlen
  refine ⟨?_, ?_, ?_, ?_, ?_, ?_, ?_, ?_, ?_, ?_, ⟨?_, ?_⟩, ?_, ?_, ?_, ?_, ?_, ?_⟩
  · intro v
    refine (push_front_rep v hr).imp ?_
    rintro ⟨h2, l2⟩ ⟨hl2, _, hr2, _⟩
    simp only at hl2 hr2
    subst hl2
    exact LenInv_intro hr2 (by simp [hlen])
  · intro v
    refine (push_back_rep v hr).imp ?_
    rintro ⟨h2, l2⟩ ⟨hl2, _, hr2, _⟩
    simp only at hl2 hr2
    subst hl2
    exact LenInv_intro hr2 (by simp [hlen])
  · cases cs with
    | nil =>
      rw [pop_front_empty hr, Returns_ok]
      exact ⟨[], hr, hlen0⟩
    | cons x post =>
      refine (pop_front_rep hr).imp ?_
      rintro ⟨h2, l2⟩ ⟨hl2, _, hr2, _⟩
      simp only at hl2 hr2
      subst hl2
      exact LenInv_intro hr2 (by simp [hlen, size_t_dec_succ])
  · rintro rfl
    have : l.m_len = 0 := by simpa using hlen
    simp [list.pop_back, this]
  · intro hne
    have e := (List.dropLast_append_getLast hne).symm
    have hr1 : Rep h l (cs.dropLast ++ [cs.getLast hne]) := by rw [← e]; exact hr
    have hl0 : l.m_len ≠ 0 := by
      rw [hlen]
      exact fun hc => hne (List.length_eq_zero.1 hc)
    refine (pop_back_rep hr1 hl0).imp ?_
    rintro ⟨h2, l2⟩ ⟨hl2, _, hr2, _⟩
    simp only at hl2 hr2
    subst hl2
    refine LenInv_intro hr2 ?_
    have := size_t_dec_pos hl0
    simp only [List.length_dropLast]
    omega
  · rintro pre post v rfl
    refine (insert_rep v hr).imp ?_
    rintro ⟨h2, l2, it⟩ ⟨hl2, _, hr2, _⟩
    simp only at hl2 hr2
    subst hl2
    refine LenInv_intro hr2 ?_
    simp only [hlen, List.length_append, List.length_cons]
    omega
  · intro v
    refine (insert_head_rep v hr).imp ?_
    rintro ⟨h2, l2, it⟩ ⟨hl2, hr2⟩
    simp only at hl2 hr2
    subst hl2
    exact LenInv_intro hr2 (by simp [hlen])
  · rintro pre post ys rfl
    refine (insert_range_rep ys hr).imp ?_
    rintro ⟨h2, l2, it⟩ ⟨hl2, _, cs2, hcs, hr2, _⟩
    simp only at hl2 hr2
    subst hl2
    refine LenInv_intro hr2 ?_
    have : cs2.length = ys.length := by rw [← hcs]; simp
    simp only [hlen, List.length_append, this]
    omega
  · rintro pre post ys rfl
    refine (insert_range_rep ys hr).imp ?_
    rintro ⟨h2, l2, it⟩ ⟨hl2, _, cs2, hcs, hr2, _⟩
    simp only at hl2 hr2
    subst hl2
    refine LenInv_intro hr2 ?_
    have : cs2.length = ys.length := by rw [← hcs]; simp
    simp only [hlen, List.length_append, this]
    omega
  · rintro pre x post rfl
    refine (erase_rep hr).imp ?_
    rintro ⟨h2, l2, it⟩ ⟨hl2, _, hr2, _⟩
    simp only at hl2 hr2
    subst hl2
    refine LenInv_intro hr2 ?_
    have hl0 : l.m_len ≠ 0 := by simp [hlen]
    have := size_t_dec_pos hl0
    simp only [List.length_append, List.length_cons] at hlen ⊢
    omega
  · simp [list.erase]; rfl
  · simp [list.erase, list.end_]; rfl
  · rintro pre mid post rfl
    refine (erase_range_rep hr (k := mid.length + 1) (by omega)).imp ?_
    rintro ⟨h2, l2, it⟩ ⟨hl2, _, hr2, _⟩
    simp only at hl2 hr2
    subst hl2
    refine LenInv_intro hr2 ?_
    simp only [List.length_append] at hlen ⊢
    have := size_t_dec_iterate mid.length l.m_len (by omega)
    omega
  · rintro pre post b cb rfl hB hlb hdisj
    unfold LenOK at hlb
    refine (splice_rep hr hB hdisj (by omega)).imp ?_
    rintro ⟨h2, a2, b2⟩ ⟨ha2, hb2, hrA, hrB, _⟩
    simp only at ha2 hb2 hrA hrB
    subst ha2 hb2
    refine ⟨LenInv_intro hrA ?_, LenInv_intro hrB rfl⟩
    simp only [hlen, List.length_append]
    omega
  · intro pos fuel
    rfl
  · refine (clear_rep hr hlen0 (by omega)).imp ?_
    rintro ⟨h2, l2⟩ ⟨hl2, hr2, _⟩
    simp only at hl2 hr2
    subst hl2
    exact LenInv_intro hr2 rfl
  · refine (unique_rep hr hlen0 (by omega)).imp ?_
    rintro ⟨h2, l2⟩ ⟨hl2, hr2⟩
    simp only at hl2 hr2
    subst hl2
    exact LenInv_intro hr2 rfl
  · refine (reverse_rep hr hlen0 (by omega)).imp ?_
    rintro ⟨h2, l2⟩ ⟨hl2, cs2, hr2, hcs⟩
    simp only at hl2 hr2
    refine LenInv_intro hr2 ?_
    have : cs2.length = cs.length := by
      have := congrArg List.length hcs
      simpa using this
    rw [hl2, hlen, this]

/-- C21, on the list `[1, 3, 5]`: after `push_back(7)` the invariant holds
for the result, and the range erase of the first two nodes leaves a
list for which it holds. -/
theorem C21_len_invariant_witness :
    (Returns (demo_a.push_back demo_heap 7) fun r => LenInv r.1 r.2) ∧
    (Returns (demo_a.erase_range 3 demo_heap ⟨3⟩ ⟨5⟩) fun r => LenInv r.1 r.2.1) :=
  let t := C21_len_invariant demo_heap demo_a [(3, 1), (4, 3), (5, 5)] (by decide) (by decide)
  ⟨t.2.1 7, t.2.2.2.2.2.2.2.2.2.2.2.1 [] [(3, 1), (4, 3)] [(5, 5)] rfl⟩

/-! ## The cached length after `merge` -/

/-- C22 (fails on the code): `a = [1]` and `b = [0, 2]` are built by the
default constructor and `push_back`, so both have the right cached length
(1 and 2).  After `a.merge(b)` the traversal of `a` is `[0, 1, 2]`, three
nodes, but `a.size()` is 4; `b.size()` is 0. -/
theorem C22_merge_size_overcount :
    (do let (h, a) ← list.list_default (Heap.of_nodes ([] : List (Node Nat)))
        let (h, a) ← list.push_back_all h a [1]
        let (h, b) ← list.list_default h
        let (h, b) ← list.push_back_all h b [0, 2]
        let (h2, a2, b2) ← a.merge 4 h b false
        let t ← a2.traverse 4 h2
        pure (a.size, b.size, t, a2.size, b2.size))
      = (.ok (1, 2, [0, 1, 2], 4, 0) : Except Fault (Nat × Nat × List Nat × Nat × Nat)) := by
  rfl

/-! ## Iterator comparison -/

theorem const_iterator_ne_fuel :
    ∀ (fuel : Nat) (a b : const_iterator), const_iterator.ne fuel a b = .error .out_of_fuel := by
  intro fuel
  induction fuel with
  | zero => intro a b; rfl
  | succ k ih => intro a b; exact ih a ⟨b.m_ptr⟩

/-- C23 (fails on the code): `==` of both iterator variants is true exactly
when the two iterators reference the same node, and `!=` of `iterator` is
its negation; but `!=` of `const_iterator` does not return for any two
iterators: every call calls the same operator again, whatever the call
depth allowed. -/
theorem C23_const_iterator_ne_never_returns :
    (∀ a b : iterator, (a.eq b = true ↔ a.m_ptr = b.m_ptr) ∧ a.ne b = !a.eq b) ∧
    (∀ a b : const_iterator, a.eq b = true ↔ a.m_ptr = b.m_ptr) ∧
    (∀ (fuel : Nat) (a b : const_iterator) (r : Bool), const_iterator.ne fuel a b ≠ .ok r) := by
  refine ⟨fun a b => ⟨?_, ?_⟩, fun a b => ?_, fun fuel a b r he => ?_⟩
  · simp [iterator.eq]
  · simp [iterator.ne, iterator.eq]
  · simp [const_iterator.eq]
  · rw [const_iterator_ne_fuel] at he
    cases he

/-! ## The recursion of `sort` -/

theorem sort_unfold [LT α] [DecidableRel (fun (x y : α) => x < y)] [Inhabited α]
    (fuel : Nat) (h : Heap α) (l : list) (hl : ¬ l.m_len ≤ 1) :
    list.sort (fuel + 1) h l = (do
      let (h, left, right) ← list.sort_split h l
      let (h, left) ← list.sort fuel h left
      let (h, right) ← list.sort fuel h right
      let rb ← right.begin_ h
      let (h, left) ← if left.end_.eq rb then left.pop_back h else pure (h, left)
      let (h, right, left) ← right.merge fuel h left false
      let (h, left, right) ← left.merge fuel h right false
      let h ← right.destroy fuel h
      let h ← left.destroy fuel h
      pure (h, l)) := by
  simp only [list.sort, hl, if_false, list.sort_split, bind_assoc, pure_bind]

theorem sort_split_len [Inhabited α] {h h2 : Heap α} {l left right : list}
    (he : list.sort_split h l = .ok (h2, left, right)) :
    left.m_len = size_t_dec (l.m_len / 2) + l.m_len / 2 ∧
    right.m_len = l.m_len / 2 + 1 + (l.m_len - l.m_len / 2) := by
  simp only [list.sort_split] at he
  obtain ⟨⟨h1, left1⟩, e1, he⟩ := bind_eq_ok he
  obtain ⟨⟨h2, right2⟩, e2, he⟩ := bind_eq_ok he
  obtain ⟨it, _, he⟩ := bind_eq_ok he
  obtain ⟨⟨h3, it3, left3⟩, e3, he⟩ := bind_eq_ok he
  obtain ⟨⟨h4, it4, right4⟩, e4, he⟩ := bind_eq_ok he
  have hl1 := list_count_len e1
  have hr1 := list_count_len e2
  have hl2 := sort_fill_len _ _ _ _ _ _ _ e3
  have hr2 := sort_fill_len _ _ _ _ _ _ _ e4
  simp only [pure, Except.pure, Except.ok.injEq, Prod.mk.injEq] at he
  obtain ⟨_, rfl, rfl⟩ := he
  simp only at hl2 hr2
  omega

/-- C24 (fails on the code): on the list `[3, 1, 2, 4]` (`n = 4`) the two
temporaries on which `sort()` recurses are `left = [0, 3, 1]` and
`right = [0, 0, 0, 2, 4]`, of lengths 3 and 5 and with default elements in
front, not two halves of length 2.  Whenever the two temporaries of a list of
`n ≥ 2` elements are built, `left` has `2 * (n / 2) - 1` and `right` has
`n + 1` elements, so `right` is longer than the list, and `sort()` on such a
list returns for no recursion budget. -/
theorem C24_sort_split_lengths :
    (do let (h, l) ← list.list_default (Heap.of_nodes ([] : List (Node Nat)))
        let (h, l) ← list.push_back_all h l [3, 1, 2, 4]
        let (h2, left, right) ← list.sort_split h l
        let tl ← left.traverse 4 h2
        let tr ← right.traverse 6 h2
        pure (l.size, tl, left.size, tr, right.size))
      = (.ok (4, [0, 3, 1], 3, [0, 0, 0, 2, 4], 5) :
          Except Fault (Nat × List Nat × Nat × List Nat × Nat)) ∧
    (∀ (h h2 : Heap Nat) (l left right : list), 2 ≤ l.size →
      list.sort_split h l = .ok (h2, left, right) →
      left.size + 1 = 2 * (l.size / 2) ∧ right.size = l.size + 1) ∧
    (∀ (fuel : Nat) (h : Heap Nat) (l : list), 2 ≤ l.size →
      ∀ r, l.sort fuel h ≠ .ok r) := by
  refine ⟨rfl, ?_, ?_⟩
  · intro h h2 l left right hl he
    have := sort_split_len he
    simp only [list.size] at hl ⊢
    have h0 : l.m_len / 2 ≠ 0 := by omega
    have := size_t_dec_pos h0
    omega
  · intro fuel h l hl r
    exact sort_never_returns fuel h l hl r

/-! ## The sentinel chain after construction from an empty source -/

theorem Rep_empty_of_tail_prev {h : Heap α} {l : list} {cs : List (Nat × α)}
    (hr : Rep h l cs) (ht : (h.read l.m_tail).map Node.prev = some l.m_head) :
    cs = [] ∧ (h.read l.m_head).map Node.next = some l.m_tail := by
  obtain ⟨hnd, hh, _, hp⟩ := hr
  have hcs : cs = [] := by
    by_contra hne
    rw [ht] at hp
    have hm := lastAddr_mem cs l.m_head hne
    rw [← Option.some.inj hp] at hm
    simp only [footprint, List.nodup_cons, List.mem_append, not_or] at hnd
    exact hnd.1.1 hm
  subst hcs
  exact ⟨rfl, hh⟩

/-- C25 (fails on the code): the range constructor on an empty range and
the copy constructor on the empty list built by the default constructor.
Whatever the indeterminate value `uninit` of the not yet assigned `m_tail`
is, the new head sentinel's `next` (what `begin()` returns) is `uninit`,
while `end()` is the new tail sentinel and `size()` is 0; the new list has
a well-linked sentinel chain only if `uninit` happens to be the address the
tail sentinel is allocated at. -/
theorem C25_range_copy_empty_source :
    (∀ uninit : Nat, ∃ h2 c,
      list.list_range (Heap.of_nodes ([] : List (Node Nat))) uninit [] = .ok (h2, c) ∧
      c.begin_ h2 = .ok ⟨uninit⟩ ∧ c.end_ = ⟨2⟩ ∧ c.size = 0 ∧
      ((∃ cs, Rep h2 c cs) ↔ uninit = 2)) ∧
    (∀ uninit : Nat, ∃ h1 l h2 c,
      list.list_default (Heap.of_nodes ([] : List (Node Nat))) = .ok (h1, l) ∧
      Rep h1 l [] ∧ LenOK l ([] : List (Nat × Nat)) ∧
      list.list_copy 1 h1 uninit l = .ok (h2, c) ∧
      c.begin_ h2 = .ok ⟨uninit⟩ ∧ c.end_ = ⟨4⟩ ∧ c.size = 0 ∧
      ((∃ cs, Rep h2 c cs) ↔ uninit = 4)) := by
  constructor
  · intro uninit
    refine ⟨_, _, rfl, rfl, rfl, rfl, ?_, ?_⟩
    · rintro ⟨cs, hr⟩
      have := (Rep_empty_of_tail_prev hr rfl).2
      exact Option.some.inj this
    · rintro rfl
      exact ⟨[], by decide⟩
  · intro uninit
    refine ⟨_, _, _, _, rfl, by decide, by decide, rfl, rfl, rfl, rfl, ?_, ?_⟩
    · rintro ⟨cs, hr⟩
      have := (Rep_empty_of_tail_prev hr rfl).2
      exact Option.some.inj this
    · rintro rfl
      exact ⟨[], by decide⟩

/-! ## Range construction from a non-empty range -/

theorem list_range_loop_eq (vs : List α) : ∀ (h : Heap α) (l : list),
    list.list_range_loop h l vs = list.push_back_all h l vs := by
  induction vs with
  | nil => intro h l; rfl
  | cons v vs ih =>
    intro h l
    simp only [list.list_range_loop, list.push_back_all, ih]

theorem list_range_rep [Inhabited α] (h : Heap α) (uninit : Nat) (v : α) (vs : List α) :
    Returns (list.list_range h uninit (v :: vs)) fun r =>
      ∃ cs, Rep r.1 r.2 cs ∧ cs.map Prod.snd = v :: vs ∧ r.2.m_len = (v :: vs).length := by
  have hBdef : ∃ hB : Heap α, hB = ((h.alloc ⟨default, uninit, 0⟩).1.alloc
      ⟨default, 0, h.brk + 1⟩).1 := ⟨_, rfl⟩
  obtain ⟨hB, hBe⟩ := hBdef
  have hBb : hB.brk = h.brk + 2 := by rw [hBe]; rfl
  have hBr : ∀ q, hB.read q = if q = h.brk + 2 then some ⟨default, 0, h.brk + 1⟩
      else if q = h.brk + 1 then some ⟨default, uninit, 0⟩ else h.read q := by
    intro q
    rw [hBe]
    simp only [Heap.read_alloc]
    rfl
  have hBH : hB.read (h.brk + 1) = some ⟨default, uninit, 0⟩ := by rw [hBr]; simp
  have hBT : hB.read (h.brk + 2) = some ⟨default, 0, h.brk + 1⟩ := by rw [hBr]; simp
  have e0 : list.list_range h uninit (v :: vs)
      = ((⟨0, h.brk + 1, h.brk + 2⟩ : list).push_back hB v >>= fun s =>
          list.push_back_all s.1 s.2 vs) := by
    rw [hBe]
    simp only [list.list_range, list.list_range_loop, list_range_loop_eq]
    rfl
  rw [e0]
  have key := push_back_spec (l := (⟨0, h.brk + 1, h.brk + 2⟩ : list)) v hBT hBH
    (by simp)
  refine Returns.bind key ?_
  rintro ⟨h1, l1⟩ ⟨hl1, _, hlk⟩
  simp only at hl1 hlk
  subst hl1
  rw [hBb] at hlk
  have hfix : Rep (hB.write (h.brk + 1) ⟨default, h.brk + 2, 0⟩)
      (⟨0, h.brk + 1, h.brk + 2⟩ : list) ([] ++ ([] : List (Nat × α))) := by
    simp [Rep, Heap.read_write, hBH, hBT]
  have hlk2 : Linked (hB.write (h.brk + 1) ⟨default, h.brk + 2, 0⟩) h1 (h.brk + 2 + 1) v
      (lastAddr ([] : List (Nat × α)) (h.brk + 1)) (hdAddr ([] : List (Nat × α)) (h.brk + 2)) := by
    intro q
    rw [hlk q]
    simp only [Heap.read_write, hBH, lastAddr_nil, hdAddr_nil]
    split_ifs <;> simp_all
  have hfr := Rep_link_frame (l := (⟨0, h.brk + 1, h.brk + 2⟩ : list)) hfix
    (by simp [footprint]) hlk2
  have hc1 : Rep h1 ({ (⟨0, h.brk + 1, h.brk + 2⟩ : list) with m_len := 0 + 1 })
      [(h.brk + 2 + 1, v)] := by
    simpa using hfr.1
  refine (push_back_all_rep vs h1 _ _ hc1).imp ?_
  rintro ⟨h2, l2⟩ ⟨cs2, hr2, hcs, hm⟩
  refine ⟨_, hr2, by simp [hcs], ?_⟩
  simp only at hm
  simp only [hm, List.length_cons]
  omega

/-! ## The body of `sort`: what it leaves alone -/

theorem Returns.of_eq {ε β : Type} {r : Except ε β} {P : β → Prop} (hr : Returns r P)
    {x : β} (he : r = .ok x) : P x := by
  subst he
  exact hr

theorem mem_footprint (l : list) (cs : List (Nat × α)) (q : Nat) :
    q ∈ footprint l cs ↔ q = l.m_head ∨ q ∈ cs.map Prod.fst ∨ q = l.m_tail := by
  simp [footprint]

theorem Rep.frame_lt {h h2 : Heap α} {l : list} {cs : List (Nat × α)} (hr : Rep h l cs)
    {b : Nat} (hb : h.brk ≤ b) (hf : ∀ q, q ≤ b → h2.read q = h.read q) : Rep h2 l cs :=
  Rep_congr hr (fun q hq => hf q (le_trans (Rep_alloc hr q hq).1 hb))

theorem list_count_step [Inhabited α] {h : Heap α} {t : Nat} {nt np : Node α}
    (ht : h.read t = some nt) (hp : h.read nt.prev = some np) (hne : nt.prev ≠ t) :
    ∃ h2, Linked h h2 (h.brk + 1) (default : α) nt.prev t ∧ h2.brk = h.brk + 1 ∧
      ∀ (k m : Nat), list.list_count_loop t (k + 1) h m = list.list_count_loop t k h2 (m + 1) := by
  have a1 := (Heap.read_some_le hp).1
  have a2 := (Heap.read_some_le ht).1
  have n1 : nt.prev ≠ h.brk + 1 := by omega
  have n2 : t ≠ h.brk + 1 := by omega
  refine ⟨((((h.alloc ⟨default, 0, 0⟩).1.write (h.brk + 1) ⟨default, 0, nt.prev⟩).write
    (h.brk + 1) ⟨default, t, nt.prev⟩).write nt.prev { np with next := h.brk + 1 }).write t
    { nt with prev := h.brk + 1 }, ?_, rfl, ?_⟩
  · intro q
    simp only [Heap.read_write, Heap.read_alloc]
    split_ifs <;> simp_all
  · intro k m
    simp [list.list_count_loop, getPrev, setNext, setPrev, Heap.read_write, Heap.read_alloc,
      hp, ht, hne, hne.symm, n1, n2, n1.symm, n2.symm]

theorem list_count_loop_rep [Inhabited α] {l : list} :
    ∀ (k : Nat) (h : Heap α) (cs : List (Nat × α)) (m : Nat), Rep h l cs →
      Returns (list.list_count_loop l.m_tail k h m) fun r =>
        r.2 = m + k ∧ h.brk ≤ r.1.brk ∧ ∃ cn, cn.length = k ∧ Rep r.1 l (cs ++ cn) ∧
          (∀ q ∈ cn.map Prod.fst, h.brk < q) ∧
          ∀ q, q ∉ footprint l cs → q ≤ h.brk → r.1.read q = h.read q := by
  intro k
  induction k with
  | zero =>
    intro h cs m hr
    simp only [list.list_count_loop, Returns_pure]
    exact ⟨rfl, le_refl _, [], rfl, by simpa using hr, by simp, fun _ _ _ => trivial⟩
  | succ k ih =>
    intro h cs m hr
    have hr0 : Rep h l (cs ++ []) := by simpa using hr
    obtain ⟨⟨np, hp, _⟩, ⟨nt, ht, hprev⟩, hne⟩ := Rep_read_pos hr0
    simp only [hdAddr_nil] at ht hne
    rw [← hprev] at hp hne
    obtain ⟨h2, hl, hb, heq⟩ := list_count_step ht hp hne
    rw [heq]
    rw [hprev] at hl
    have hfr := Rep_link_frame hr0 (hr0.fresh (q := h.brk + 1) (by omega)) (by simpa using hl)
    have hr2 : Rep h2 l (cs ++ [(h.brk + 1, default)]) := hfr.1
    refine (ih h2 _ (m + 1) hr2).imp ?_
    rintro ⟨h3, m3⟩ ⟨hm, hb3, cn, hcn, hr3, hfresh, hfr3⟩
    simp only at hm hb3 hr3 hfr3
    refine ⟨by simp only; omega, by simp only; omega, (h.brk + 1, default) :: cn,
      by simp [hcn], by simpa using hr3,
      ?_, fun q hq hqb => ?_⟩
    · intro q hq
      simp only [List.map_cons, List.mem_cons] at hq
      rcases hq with rfl | hq
      · omega
      · have := hfresh q hq
        omega
    · have hqn : q ≠ h.brk + 1 := by omega
      rw [hfr3 q ?_ (by omega)]
      · exact hfr.2 q (by simpa using hq) hqn
      · rw [mem_footprint] at hq ⊢
        simp only [List.map_append, List.map_cons, List.map_nil, List.mem_append,
          List.mem_singleton]
        tauto

theorem list_count_rep [Inhabited α] (h : Heap α) (k : Nat) :
    Returns (list.list_count h k) fun r =>
      r.2.m_len = k ∧ h.brk ≤ r.1.brk ∧ (∀ q, q ≤ h.brk → r.1.read q = h.read q) ∧
      ∃ ct : List (Nat × α), Rep r.1 r.2 ct ∧ ct.length = k ∧
        ∀ q ∈ footprint r.2 ct, h.brk < q := by
  have e0 : list.list_count h k = (list.list_default h >>= fun s =>
      list.list_count_loop s.2.m_tail k s.1 0 >>= fun t =>
        pure (t.1, (⟨t.2, s.2.m_head, s.2.m_tail⟩ : list))) := by
    simp only [list.list_count, list.list_default, bind_assoc, pure_bind]
  rw [e0]
  refine (list_default_spec h).bind ?_
  rintro ⟨h1, l1⟩ ⟨hl1, hb1, hr1, hfr1⟩
  simp only at hl1 hb1 hr1 hfr1
  subst hl1
  refine (list_count_loop_rep (l := (⟨0, h.brk + 1, h.brk + 2⟩ : list)) k h1 [] 0 hr1).bind ?_
  rintro ⟨h2, m2⟩ ⟨hm, hb2, cn, hcn, hr2, hfresh, hfr2⟩
  simp only at hm hb2 hr2 hfr2
  rw [Returns_pure]
  refine ⟨by simp [hm], by simp only; omega, fun q hq => ?_, cn, by simpa using hr2, hcn, ?_⟩
  · simp only
    rw [hfr2 q (by simp [footprint]; omega) (by omega)]
    exact hfr1 q hq
  · intro q hq
    rw [mem_footprint] at hq
    rcases hq with rfl | hq | rfl
    · simp only; omega
    · have := hfresh q hq
      omega
    · simp only; omega

theorem mem_footprint_append (l : list) (a b : List (Nat × α)) (q : Nat) :
    q ∈ footprint l (a ++ b) ↔ q ∈ footprint l a ∨ q ∈ b.map Prod.fst := by
  simp only [mem_footprint, List.map_append, List.mem_append]
  tauto

theorem sort_fill_rep {l d : list} :
    ∀ (k : Nat) (todo done cd : List (Nat × α)) (h : Heap α) (m : Nat),
      Rep h l (done ++ todo) → k ≤ todo.length → Rep h d cd →
      (∀ q ∈ footprint l (done ++ todo), q ∉ footprint d cd) →
      Returns (list.sort_fill k h ⟨hdAddr todo l.m_tail⟩ { d with m_len := m }) fun r =>
        r.2.1 = ⟨hdAddr (todo.drop k) l.m_tail⟩ ∧ r.2.2 = { d with m_len := m + k } ∧
        h.brk ≤ r.1.brk ∧ ∃ cn, cn.length = k ∧ Rep r.1 d (cd ++ cn) ∧
          (∀ q ∈ cn.map Prod.fst, h.brk < q) ∧
          ∀ q, q ∉ footprint d cd → q ≤ h.brk → r.1.read q = h.read q := by
  intro k
  induction k with
  | zero =>
    intro todo done cd h m hL hk hD hdisj
    unfold list.sort_fill
    rw [Returns_pure]
    exact ⟨rfl, rfl, le_refl _, [], rfl, by simpa using hD, by simp, fun _ _ _ => rfl⟩
  | succ k ih =>
    intro todo done cd h m hL hk hD hdisj
    cases todo with
    | nil => simp at hk
    | cons x todo =>
      have hx := Rep_read_mid hL
      have hD' : Rep h { d with m_len := m } cd := hD
      simp only [list.sort_fill, hdAddr_cons, iterator.deref, getData, hx, ok_bind]
      refine (push_back_rep x.2 hD').bind ?_
      rintro ⟨h2, dst2⟩ ⟨hd2, hb, hD2, hfr⟩
      simp only at hd2 hb hD2 hfr
      subst hd2
      have hfrL : ∀ q ∈ footprint l (done ++ x :: todo), h2.read q = h.read q := by
        intro q hq
        refine hfr q (hdisj q hq) ?_
        have := (Rep_alloc hL q hq).1
        omega
      have hL2 := Rep_congr hL hfrL
      have hx2 : h2.read x.1 = _ := (hfrL x.1 (by simp [footprint])).trans hx
      simp only [iterator.post_inc, getNext, hx2, ok_bind]
      have hL3 : Rep h2 l ((done ++ [x]) ++ todo) := by simpa using hL2
      have hD3 : Rep h2 d (cd ++ [(h.brk + 1, x.2)]) := hD2
      have hdisj2 : ∀ q ∈ footprint l ((done ++ [x]) ++ todo),
          q ∉ footprint d (cd ++ [(h.brk + 1, x.2)]) := by
        intro q hq hm
        have hq' : q ∈ footprint l (done ++ x :: todo) := by simpa using hq
        have hle := (Rep_alloc hL q hq').1
        rw [mem_footprint_append] at hm
        rcases hm with h1 | h1
        · exact hdisj q hq' h1
        · simp only [List.map_cons, List.map_nil, List.mem_singleton] at h1
          omega
      have key := ih todo (done ++ [x]) (cd ++ [(h.brk + 1, x.2)]) h2 (m + 1) hL3
        (by simp at hk; omega) hD3 hdisj2
      refine key.imp ?_
      rintro ⟨h3, it3, dst3⟩ ⟨hit, hd3, hb3, cn, hcn, hD4, hfresh, hfr3⟩
      simp only at hit hd3 hb3 hD4 hfr3
      refine ⟨by simpa using hit, by simp only [hd3]; congr 1; omega, by simp only; omega,
        (h.brk + 1, x.2) :: cn, by simp [hcn], by simpa using hD4, ?_, fun q hq hqb => ?_⟩
      · intro q hq
        simp only [List.map_cons, List.mem_cons] at hq
        rcases hq with rfl | hq
        · omega
        · have := hfresh q hq
          omega
      · have hqn : q ≠ h.brk + 1 := by omega
        rw [hfr3 q ?_ (by omega)]
        · exact hfr q hq hqn
        · rw [mem_footprint_append]
          simp only [List.map_cons, List.map_nil, List.mem_singleton]
          tauto

theorem begin_rep {h : Heap α} {l : list} {cs : List (Nat × α)} (hr : Rep h l cs) :
    l.begin_ h = .ok ⟨hdAddr cs l.m_tail⟩ := by
  have hr0 : Rep h l ([] ++ cs) := by simpa using hr
  obtain ⟨⟨nh, hh, hnext⟩, _, _⟩ := Rep_read_pos hr0
  simp only [lastAddr_nil] at hh
  simp [list.begin_, getNext, hh, hnext]

theorem sort_split_rep [Inhabited α] {h : Heap α} {l : list} {cs : List (Nat × α)}
    (hr : Rep h l cs) (hlen : LenOK l cs) :
    Returns (list.sort_split h l) fun r =>
      h.brk ≤ r.1.brk ∧ (∀ q, q ≤ h.brk → r.1.read q = h.read q) ∧
      ∃ cl cr, Rep r.1 r.2.1 cl ∧ LenOK r.2.1 cl ∧ Rep r.1 r.2.2 cr ∧ LenOK r.2.2 cr ∧
        (∀ q ∈ footprint r.2.1 cl, h.brk < q) ∧ (∀ q ∈ footprint r.2.2 cr, h.brk < q) ∧
        (∀ q ∈ footprint r.2.1 cl, q ∉ footprint r.2.2 cr) := by
  unfold LenOK at hlen
  simp only [list.sort_split]
  refine (list_count_rep h (size_t_dec (l.m_len / 2))).bind ?_
  rintro ⟨h1, left0⟩ ⟨hm1, hb1, hfr1, cl0, hrl0, hcl0, hfl0⟩
  simp only at hm1 hb1 hfr1 hrl0 hfl0 ⊢
  refine (list_count_rep h1 (l.m_len / 2 + 1)).bind ?_
  rintro ⟨h2, right0⟩ ⟨hm2, hb2, hfr2, cr0, hrr0, hcr0, hfr0⟩
  simp only at hm2 hb2 hfr2 hrr0 hfr0 ⊢
  -- the three lists in the heap after the two constructors
  have hL1 : Rep h1 l cs := hr.frame_lt (le_refl _) hfr1
  have hL2 : Rep h2 l cs := hL1.frame_lt (le_refl _) hfr2
  have hl2 : Rep h2 left0 cl0 := hrl0.frame_lt (le_refl _) hfr2
  have bL : ∀ q ∈ footprint l cs, q ≤ h.brk := fun q hq => (Rep_alloc hr q hq).1
  have bl0 : ∀ q ∈ footprint left0 cl0, q ≤ h1.brk := fun q hq => (Rep_alloc hrl0 q hq).1
  have br0 : ∀ q ∈ footprint right0 cr0, q ≤ h2.brk := fun q hq => (Rep_alloc hrr0 q hq).1
  rw [begin_rep hL2]
  simp only [ok_bind]
  have hL2' : Rep h2 l ([] ++ cs) := by simpa using hL2
  have hk1 : l.m_len / 2 ≤ cs.length := by rw [← hlen]; exact Nat.div_le_self _ _
  refine (sort_fill_rep (l := l) (d := left0) (l.m_len / 2) cs [] cl0 h2 left0.m_len hL2' hk1
    hl2 ?_).bind ?_
  · intro q hq hm
    have h1' := bL q (by simpa using hq)
    have h2' := hfl0 q hm
    omega
  rintro ⟨h3, it3, left3⟩ ⟨hit3, hl3, hb3, cn1, hcn1, hrl3, hfn1, hfr3⟩
  simp only at hit3 hl3 hb3 hrl3 hfr3 ⊢
  subst hit3 hl3
  have hL3 : Rep h3 l cs := by
    refine Rep_congr hL2 (fun q hq => hfr3 q (fun hm => ?_) ?_)
    · have h1' := bL q hq
      have h2' := hfl0 q hm
      omega
    · have := bL q hq
      omega
  have hr3 : Rep h3 right0 cr0 := by
    refine Rep_congr hrr0 (fun q hq => hfr3 q (fun hm => ?_) (br0 q hq))
    have h1' := hfr0 q hq
    have h2' := bl0 q hm
    omega
  have hL3' : Rep h3 l (cs.take (l.m_len / 2) ++ cs.drop (l.m_len / 2)) := by
    rw [List.take_append_drop]; exact hL3
  have hk2 : l.m_len - l.m_len / 2 ≤ (cs.drop (l.m_len / 2)).length := by
    rw [List.length_drop, hlen]
  refine (sort_fill_rep (l := l) (d := right0) (l.m_len - l.m_len / 2)
    (cs.drop (l.m_len / 2)) (cs.take (l.m_len / 2)) cr0 h3 right0.m_len hL3' hk2 hr3 ?_).bind ?_
  · intro q hq hm
    rw [List.take_append_drop] at hq
    have h1' := bL q hq
    have h2' := hfr0 q hm
    omega
  rintro ⟨h4, it4, right4⟩ ⟨_, hr4, hb4, cn2, hcn2, hrr4, hfn2, hfr4⟩
  simp only at hr4 hb4 hrr4 hfr4 ⊢
  subst hr4
  rw [Returns_pure]
  have bn1 : ∀ q ∈ cn1.map Prod.fst, q ≤ h3.brk := fun q hq =>
    (Rep_alloc hrl3 q ((mem_footprint_append left0 cl0 cn1 q).2 (Or.inr hq))).1
  have hl4 : Rep h4 left0 (cl0 ++ cn1) := by
    refine Rep_congr hrl3 (fun q hq => hfr4 q (fun hm => ?_) (Rep_alloc hrl3 q hq).1)
    have h1' := hfr0 q hm
    have h2' := br0 q hm
    rcases (mem_footprint_append left0 cl0 cn1 q).1 hq with h3' | h3'
    · have := bl0 q h3'
      omega
    · have := hfn1 q h3'
      omega
  refine ⟨by simp only; omega, fun q hq => ?_, cl0 ++ cn1, cr0 ++ cn2, hl4, ?_, hrr4, ?_, ?_, ?_,
    ?_⟩
  · simp only
    rw [hfr4 q ?_ (by omega), hfr3 q ?_ (by omega), hfr2 q (by omega), hfr1 q hq]
    · intro hm
      have := hfl0 q hm
      omega
    · intro hm
      have := hfr0 q hm
      omega
  · simp only [LenOK, List.length_append, hcl0, hcn1, hm1]
  · simp only [LenOK, List.length_append, hcr0, hcn2, hm2]
  · intro q hq
    rcases (mem_footprint_append left0 cl0 cn1 q).1 hq with h3' | h3'
    · have := hfl0 q h3'
      omega
    · have := hfn1 q h3'
      omega
  · intro q hq
    rcases (mem_footprint_append right0 cr0 cn2 q).1 hq with h3' | h3'
    · have := hfr0 q h3'
      omega
    · have := hfn2 q h3'
      omega
  · intro q hq hm
    rcases (mem_footprint_append left0 cl0 cn1 q).1 hq with h3' | h3' <;>
      rcases (mem_footprint_append right0 cr0 cn2 q).1 hm with h4' | h4'
    · have := bl0 q h3'
      have := hfr0 q h4'
      omega
    · have := bl0 q h3'
      have := hfn2 q h4'
      omega
    · have := hfn1 q h3'
      have := br0 q h4'
      omega
    · have := bn1 q h3'
      have := hfn2 q h4'
      omega


theorem merge_loop_succ [LT α] [DecidableRel (fun (x y : α) => x < y)] (t u : Nat) :
    ∀ (fuel : Nat) (h : Heap α) (a a2 m : Nat) (r : Heap α × Nat × Nat × Nat),
      list.merge_loop t u fuel h a a2 m = .ok r →
      list.merge_loop t u (fuel + 1) h a a2 m = .ok r := by
  intro fuel
  induction fuel with
  | zero => intro h a a2 m r he; simp [list.merge_loop] at he
  | succ k ih =>
    intro h a a2 m r he
    rw [list.merge_loop] at he ⊢
    by_cases hc : a ≠ t ∧ a2 ≠ u
    · rw [if_pos hc] at he ⊢
      obtain ⟨d, hd, he⟩ := bind_eq_ok he
      obtain ⟨d2, hd2, he⟩ := bind_eq_ok he
      rw [hd, ok_bind, hd2, ok_bind]
      by_cases hlt : d < d2
      · rw [if_pos hlt] at he ⊢
        obtain ⟨x, hx, he⟩ := bind_eq_ok he
        rw [hx, ok_bind]
        exact ih _ _ _ _ _ he
      · rw [if_neg hlt] at he ⊢
        obtain ⟨x1, hx1, he⟩ := bind_eq_ok he
        obtain ⟨x2, hx2, he⟩ := bind_eq_ok he
        obtain ⟨x3, hx3, he⟩ := bind_eq_ok he
        obtain ⟨x4, hx4, he⟩ := bind_eq_ok he
        obtain ⟨x5, hx5, he⟩ := bind_eq_ok he
        obtain ⟨x6, hx6, he⟩ := bind_eq_ok he
        obtain ⟨x7, hx7, he⟩ := bind_eq_ok he
        rw [hx1, ok_bind, hx2, ok_bind, hx3, ok_bind, hx4, ok_bind, hx5, ok_bind, hx6, ok_bind,
          hx7, ok_bind]
        exact ih _ _ _ _ _ he
    · rw [if_neg hc] at he ⊢
      exact he

theorem merge_loop_mono [LT α] [DecidableRel (fun (x y : α) => x < y)] (t u : Nat)
    {fuel : Nat} {h : Heap α} {a a2 m : Nat} {r : Heap α × Nat × Nat × Nat}
    (he : list.merge_loop t u fuel h a a2 m = .ok r) :
    ∀ k, list.merge_loop t u (fuel + k) h a a2 m = .ok r := by
  intro k
  induction k with
  | zero => exact he
  | succ k ih => exact merge_loop_succ t u _ _ _ _ _ _ ih

theorem merge_mono [LT α] [DecidableRel (fun (x y : α) => x < y)] {fuel : Nat} {h : Heap α}
    {a b : list} {r : Heap α × list × list} (he : a.merge fuel h b false = .ok r) (k : Nat) :
    a.merge (fuel + k) h b false = .ok r := by
  simp only [list.merge, Bool.false_eq_true, if_false] at he ⊢
  obtain ⟨x1, hx1, he⟩ := bind_eq_ok he
  obtain ⟨x2, hx2, he⟩ := bind_eq_ok he
  obtain ⟨x3, hx3, he⟩ := bind_eq_ok he
  rw [hx1, ok_bind, hx2, ok_bind, merge_loop_mono _ _ hx3 k, ok_bind]
  exact he

theorem merge_ok [LT α] [DecidableRel (fun (x y : α) => x < y)] {h : Heap α} {a b : list}
    {ca cb : List (Nat × α)} {fuel : Nat} (hA : Rep h a ca) (hB : Rep h b cb)
    (hdisj : ∀ q ∈ footprint a ca, q ∉ footprint b cb)
    {r : Heap α × list × list} (he : a.merge fuel h b false = .ok r) :
    (∃ m, r.2.1 = { a with m_len := m }) ∧ r.2.2 = { b with m_len := 0 } ∧
      Rep r.1 a (merge_done ca cb ++ merge_rest ca cb) ∧ Rep r.1 b [] ∧ r.1.brk = h.brk ∧
      ∀ q, q ∉ footprint a ca → q ∉ footprint b cb → r.1.read q = h.read q := by
  have he2 := merge_mono he (ca.length + cb.length + 1)
  have hf : ca.length + cb.length < fuel + (ca.length + cb.length + 1) := by omega
  have key := merge_rep hA hB hdisj hf
  have := key.of_eq he2
  obtain ⟨h1, h2, h3, h4, h5, h6⟩ := this
  exact ⟨⟨_, h1⟩, h2, h3, h4, h5, h6⟩

theorem delete_frame {h h2 : Heap α} {p : Nat} (he : h.delete p = .ok h2) :
    h2.brk = h.brk ∧ ∀ q, q ≠ p → h2.read q = h.read q := by
  unfold Heap.delete at he
  cases hp : h.read p with
  | none => simp [hp] at he
  | some n =>
    simp only [hp, Except.ok.injEq] at he
    subst he
    refine ⟨rfl, fun q hq => ?_⟩
    rw [Heap.read_free, if_neg hq]

theorem setNext_frame {h h2 : Heap α} {p v : Nat} (he : setNext h p v = .ok h2) :
    h2.brk = h.brk ∧ ∀ q, q ≠ p → h2.read q = h.read q := by
  unfold setNext at he
  cases hp : h.read p with
  | none => simp [hp] at he
  | some n =>
    simp only [hp, Except.ok.injEq] at he
    subst he
    refine ⟨rfl, fun q hq => ?_⟩
    rw [Heap.read_write, if_neg hq]

theorem setPrev_frame {h h2 : Heap α} {p v : Nat} (he : setPrev h p v = .ok h2) :
    h2.brk = h.brk ∧ ∀ q, q ≠ p → h2.read q = h.read q := by
  unfold setPrev at he
  cases hp : h.read p with
  | none => simp [hp] at he
  | some n =>
    simp only [hp, Except.ok.injEq] at he
    subst he
    refine ⟨rfl, fun q hq => ?_⟩
    rw [Heap.read_write, if_neg hq]

theorem pop_back_nodes_empty {h : Heap α} {l : list} (hr : Rep h l ([] : List (Nat × α)))
    (hl : l.m_len ≠ 0) : l.pop_back h = .ok (h, l) := by
  have hr0 : Rep h l (([] : List (Nat × α)) ++ []) := by simpa using hr
  obtain ⟨_, ⟨nt, ht, hprev⟩, _⟩ := Rep_read_pos hr0
  simp only [hdAddr_nil, lastAddr_nil] at ht hprev
  simp [list.pop_back, hl, getPrev, ht, hprev]
  rfl

theorem clear_loop_ok : ∀ (fuel : Nat) (h : Heap α) (l : list) (ct : List (Nat × α))
    (r : Heap α × list), Rep h l ct → list.clear_loop fuel h l = .ok r →
    r.2.m_head = l.m_head ∧ r.2.m_tail = l.m_tail ∧ r.1.brk = h.brk ∧
      ∀ q, q ∉ footprint l ct → r.1.read q = h.read q := by
  intro fuel
  induction fuel with
  | zero => intro h l ct r _ he; simp [list.clear_loop] at he
  | succ k ih =>
    intro h l ct r hr he
    rw [list.clear_loop] at he
    by_cases hem : l.empty = true
    · simp only [hem, Bool.not_true, Bool.false_eq_true, if_false, pure, Except.pure,
        Except.ok.injEq] at he
      subst he
      exact ⟨rfl, rfl, rfl, fun _ _ => rfl⟩
    · have hl0 : l.m_len ≠ 0 := by simpa [list.empty] using hem
      simp only [hem, Bool.not_false, if_true] at he
      obtain ⟨⟨h1, l1⟩, hp, he⟩ := bind_eq_ok he
      simp only at he
      rcases List.eq_nil_or_concat ct with hct | ⟨pre, x, hct⟩
      · subst hct
        rw [pop_back_nodes_empty hr hl0] at hp
        simp only [Except.ok.injEq, Prod.mk.injEq] at hp
        obtain ⟨rfl, rfl⟩ := hp
        exact ih h l [] r hr he
      · have hct' : ct = pre ++ [x] := by simpa using hct
        subst hct'
        obtain ⟨hl1, hb1, hr1, hfr1⟩ := (pop_back_rep hr hl0).of_eq hp
        simp only at hl1 hb1 hr1 hfr1
        subst hl1
        obtain ⟨e1, e2, e3, e4⟩ := ih h1 _ pre r hr1 he
        refine ⟨e1, e2, by rw [e3, hb1], fun q hq => ?_⟩
        rw [e4 q ?_, hfr1 q hq]
        intro hm
        apply hq
        rw [mem_footprint_append]
        exact Or.inl hm

theorem destroy_ok [Inhabited α] {fuel : Nat} {h h2 : Heap α} {l : list}
    {ct : List (Nat × α)} (hr : Rep h l ct) (he : l.destroy fuel h = .ok h2) :
    h.brk ≤ h2.brk ∧ ∀ q, q ∉ footprint l ct → q ≤ h.brk → h2.read q = h.read q := by
  simp only [list.destroy, list.clear, bind_assoc] at he
  obtain ⟨⟨h1, l1⟩, hc, he⟩ := bind_eq_ok he
  obtain ⟨e1, e2, e3, e4⟩ := clear_loop_ok fuel h l ct _ hr hc
  simp only at e1 e2 e3 e4 he
  obtain ⟨h3, hd1, he⟩ := bind_eq_ok he
  obtain ⟨h4, hd2, he⟩ := bind_eq_ok he
  obtain ⟨b3, f3⟩ := delete_frame hd1
  obtain ⟨b4, f4⟩ := delete_frame hd2
  obtain ⟨h5, hs1, he⟩ := bind_eq_ok he
  obtain ⟨h6, hs2, he⟩ := bind_eq_ok he
  obtain ⟨b5, f5⟩ := setNext_frame hs1
  obtain ⟨b6, f6⟩ := setPrev_frame hs2
  obtain ⟨⟨h7, l7⟩, hp7, he⟩ := bind_eq_ok he
  simp only [pure, Except.pure, Except.ok.injEq, Prod.mk.injEq] at hp7
  obtain ⟨rfl, rfl⟩ := hp7
  simp only at he
  obtain ⟨h8, hd3, he⟩ := bind_eq_ok he
  obtain ⟨b7, f7⟩ := delete_frame hd3
  obtain ⟨b8, f8⟩ := delete_frame he
  have ea3 : ∀ (g : Heap α) (n : Node α), (g.alloc n).1.brk = g.brk + 1 := fun _ _ => rfl
  have ea4 : ∀ (g : Heap α) (n : Node α), (g.alloc n).2 = g.brk + 1 := fun _ _ => rfl
  simp only [ea3, ea4] at b5 f5 b6 f6 b7 f7 b8 f8
  have hb4 : h4.brk = h.brk := by rw [b4, b3, e3]
  refine ⟨by omega, fun q hq hqb => ?_⟩
  rw [mem_footprint] at hq
  have n1 : q ≠ l1.m_head := by rw [e1]; tauto
  have n2 : q ≠ l1.m_tail := by rw [e2]; tauto
  have n3 : q ≠ h4.brk + 1 := by omega
  have n4 : q ≠ h4.brk + 1 + 1 := by omega
  rw [f8 q n4, f7 q n3, f6 q n4, f5 q n3, Heap.read_alloc, if_neg (by simpa [ea3] using n4),
    Heap.read_alloc, if_neg n3, f4 q n2, f3 q n1]
  exact e4 q (by rw [mem_footprint]; exact hq)

theorem Rep.head_not_mem {h : Heap α} {l : list} {cs : List (Nat × α)} (hr : Rep h l cs) :
    l.m_head ∉ cs.map Prod.fst ∧ l.m_tail ∉ cs.map Prod.fst ∧ l.m_head ≠ l.m_tail := by
  have hnd := hr.nodup
  simp only [footprint, List.nodup_cons, List.nodup_append, List.mem_append, not_or,
    List.mem_singleton] at hnd
  refine ⟨hnd.1.1, fun hm => hnd.2.2.2 hm (by simp), hnd.1.2⟩

theorem mem_footprint_perm (l : list) {cs a b : List (Nat × α)} (hp : cs.Perm (a ++ b))
    {q : Nat} (hq : q ∈ footprint l cs) : q ∈ footprint l a ∨ q ∈ b.map Prod.fst := by
  rw [mem_footprint] at hq
  rw [mem_footprint]
  have := (hp.map Prod.fst).mem_iff (a := q)
  simp only [List.map_append, List.mem_append] at this
  tauto

theorem merge_perm [LT α] [DecidableRel (fun (x y : α) => x < y)]
    (ca cb : List (Nat × α)) : (merge_done ca cb ++ merge_rest ca cb).Perm (ca ++ cb) := by
  obtain ⟨mv, h1, h2⟩ := merge_split ca cb
  have e : ca ++ cb = (ca ++ mv) ++ merge_rest ca cb := by rw [List.append_assoc, ← h1]
  rw [e]
  exact h2.append_right _

/-- The frame property of `sort` is an invariant of its body: if the two
recursive calls leave alone what was there before them, so does the body. -/
theorem sort_body_frame [LT α] [DecidableRel (fun (x y : α) => x < y)] [Inhabited α]
    {f : Heap α → list → Except Fault (Heap α × list)} (hrec : SortFrame f) (fuel : Nat) :
    SortFrame (list.sort_body f fuel) := by
  intro h l cs hr hlen r he
  unfold list.sort_body at he
  by_cases hl : l.m_len ≤ 1
  · simp only [hl, if_true, pure, Except.pure, Except.ok.injEq] at he
    subst he
    exact ⟨rfl, le_refl _, fun _ _ => rfl⟩
  simp only [hl, if_false] at he
  -- the two temporaries
  obtain ⟨⟨h1, left, right⟩, e1, he1⟩ := bind_eq_ok he
  clear he
  obtain ⟨hb1, hfr1, cl, cr, hRl, hLl, hRr, hLr, hfl, hfrr, hdisj⟩ :=
    (sort_split_rep hr hlen).of_eq e1
  simp only at hb1 hfr1 hRl hLl hRr hLr hfl hfrr hdisj he1
  -- the two recursive calls
  obtain ⟨⟨h2, left2⟩, e2, he2⟩ := bind_eq_ok he1
  clear he1
  obtain ⟨hl2, hb2, hfr2⟩ := hrec h1 left cl hRl hLl _ e2
  simp only at hl2 hb2 hfr2 he2
  subst hl2
  have hRl2 : Rep h2 left2 cl := hRl.frame_lt (le_refl _) hfr2
  have hRr2 : Rep h2 right cr := hRr.frame_lt (le_refl _) hfr2
  obtain ⟨⟨h3, right3⟩, e3, he3⟩ := bind_eq_ok he2
  clear he2
  obtain ⟨hr3, hb3, hfr3⟩ := hrec h2 right cr hRr2 hLr _ e3
  simp only at hr3 hb3 hfr3 he3
  subst hr3
  have hRl3 : Rep h3 left2 cl := hRl2.frame_lt (le_refl _) hfr3
  have hRr3 : Rep h3 right3 cr := hRr2.frame_lt (le_refl _) hfr3
  -- `left.end() == right.begin()` is false
  rw [begin_rep hRr3] at he3
  simp only [ok_bind] at he3
  have hne : left2.end_.eq ⟨hdAddr cr right3.m_tail⟩ = false := by
    simp only [list.end_, iterator.eq, beq_eq_false_iff_ne, ne_eq]
    intro heq
    have hm1 : left2.m_tail ∈ footprint left2 cl := by simp [footprint]
    have hm2 := hdAddr_mem_footprint right3 [] cr
    rw [← heq] at hm2
    exact hdisj _ hm1 (by simpa using hm2)
  simp only [hne, Bool.false_eq_true, if_false, pure_bind] at he3
  -- the two merges
  have hdisj' : ∀ q ∈ footprint right3 cr, q ∉ footprint left2 cl :=
    fun q hq hm => hdisj q hm hq
  obtain ⟨⟨h5, right5, left5⟩, e6, he4⟩ := bind_eq_ok he3
  clear he3
  obtain ⟨⟨m5, hm5⟩, hl5, hRr5, hRl5, hb5, hfr5⟩ := merge_ok hRr3 hRl3 hdisj' e6
  simp only at hm5 hl5 hRr5 hRl5 hb5 hfr5 he4
  subst hm5 hl5
  have hperm1 := merge_perm cr cl
  have hnl := hRl.head_not_mem
  have hnr := hRr.head_not_mem
  have hmemR : ∀ q, q ∈ footprint right3 (merge_done cr cl ++ merge_rest cr cl) →
      q ∈ footprint right3 cr ∨ q ∈ cl.map Prod.fst :=
    fun q hq => mem_footprint_perm right3 hperm1 hq
  have hdisj2 : ∀ q ∈ footprint left2 ([] : List (Nat × α)),
      q ∉ footprint right3 (merge_done cr cl ++ merge_rest cr cl) := by
    intro q hq hm
    have hq' : q ∈ footprint left2 cl := by
      rw [mem_footprint] at hq ⊢
      simp only [List.map_nil, List.not_mem_nil, false_or] at hq
      tauto
    rcases hmemR q hm with h1' | h1'
    · exact hdisj q hq' h1'
    · rw [mem_footprint] at hq
      simp only [List.map_nil, List.not_mem_nil, false_or] at hq
      rcases hq with rfl | rfl
      · exact hnl.1 h1'
      · exact hnl.2.1 h1'
  obtain ⟨⟨h6, left6, right6⟩, e7, he5⟩ := bind_eq_ok he4
  clear he4
  have hRl5' : Rep h5 { left2 with m_len := 0 } ([] : List (Nat × α)) := hRl5
  have hRr5' : Rep h5 { right3 with m_len := m5 }
      (merge_done cr cl ++ merge_rest cr cl) := hRr5
  obtain ⟨⟨m6, hm6⟩, hr6, hRl6, hRr6, hb6, hfr6⟩ := merge_ok hRl5' hRr5' hdisj2 e7
  simp only at hm6 hr6 hRl6 hRr6 hb6 hfr6 he5
  subst hm6 hr6
  have hperm2 := merge_perm ([] : List (Nat × α))
    (merge_done cr cl ++ merge_rest cr cl)
  have hmemL : ∀ q, q ∈ footprint left2 (merge_done [] (merge_done cr cl ++ merge_rest cr cl)
        ++ merge_rest [] (merge_done cr cl ++ merge_rest cr cl)) →
      q ∈ footprint left2 cl ∨ q ∈ cr.map Prod.fst := by
    intro q hq
    rcases mem_footprint_perm left2 hperm2 hq with h1' | h1'
    · left
      rw [mem_footprint] at h1' ⊢
      simp only [List.map_nil, List.not_mem_nil, false_or] at h1'
      tauto
    · have h2' := (hperm1.map Prod.fst).mem_iff.1 h1'
      simp only [List.map_append, List.mem_append] at h2'
      rcases h2' with h3' | h3'
      · right; exact h3'
      · left; rw [mem_footprint]; tauto
  -- the two destructors
  obtain ⟨h7, e8, he6⟩ := bind_eq_ok he5
  clear he5
  have hRr6' : Rep h6 { right3 with m_len := 0 } ([] : List (Nat × α)) := hRr6
  obtain ⟨hb7, hfr7⟩ := destroy_ok hRr6' e8
  obtain ⟨h8, e9, he7⟩ := bind_eq_ok he6
  clear he6
  have hRl7 : Rep h7 { left2 with m_len := m6 }
      (merge_done [] (merge_done cr cl ++ merge_rest cr cl)
        ++ merge_rest [] (merge_done cr cl ++ merge_rest cr cl)) := by
    refine Rep_congr hRl6 (fun q hq => hfr7 q ?_ (Rep_alloc hRl6 q hq).1)
    intro hm
    rw [mem_footprint] at hm
    simp only [List.map_nil, List.not_mem_nil, false_or] at hm
    rcases hmemL q hq with h1' | h1'
    · refine hdisj q h1' ?_
      rw [mem_footprint]
      tauto
    · rcases hm with rfl | rfl
      · exact hnr.1 h1'
      · exact hnr.2.1 h1'
  obtain ⟨hb8, hfr8⟩ := destroy_ok hRl7 e9
  simp only [pure, Except.pure, Except.ok.injEq] at he7
  subst he7
  refine ⟨rfl, by simp only; omega, fun q hq => ?_⟩
  have hA : ∀ p, p ∈ footprint left2 cl ∨ p ∈ footprint right3 cr → h.brk < p := by
    rintro p (hp | hp)
    · exact hfl p hp
    · exact hfrr p hp
  have hqA : ¬ (q ∈ footprint left2 cl ∨ q ∈ footprint right3 cr) := by
    intro hm
    have := hA q hm
    omega
  have n1 : q ∉ footprint left2 cl := fun hm => hqA (Or.inl hm)
  have n2 : q ∉ footprint right3 cr := fun hm => hqA (Or.inr hm)
  have k8 : q ∉ footprint left2 (merge_done [] (merge_done cr cl ++ merge_rest cr cl)
      ++ merge_rest [] (merge_done cr cl ++ merge_rest cr cl)) := by
    intro hm
    rcases hmemL q hm with h1' | h1'
    · exact n1 h1'
    · exact n2 (by rw [mem_footprint]; tauto)
  have k7 : q ∉ footprint right3 ([] : List (Nat × α)) := by
    intro hm
    apply n2
    rw [mem_footprint] at hm ⊢
    simp only [List.map_nil, List.not_mem_nil, false_or] at hm
    tauto
  have k6a : q ∉ footprint left2 ([] : List (Nat × α)) := by
    intro hm
    apply n1
    rw [mem_footprint] at hm ⊢
    simp only [List.map_nil, List.not_mem_nil, false_or] at hm
    tauto
  have k6b : q ∉ footprint right3 (merge_done cr cl ++ merge_rest cr cl) := by
    intro hm
    rcases hmemR q hm with h1' | h1'
    · exact n2 h1'
    · exact n1 (by rw [mem_footprint]; tauto)
  simp only
  rw [hfr8 q k8 (by omega), hfr7 q k7 (by omega), hfr6 q k6a k6b, hfr5 q n2 n1,
    hfr3 q (by omega), hfr2 q (by omega), hfr1 q hq]


theorem sort_eq_body [LT α] [DecidableRel (fun (x y : α) => x < y)] [Inhabited α]
    (n : Nat) (h : Heap α) (l : list) :
    l.sort (n + 1) h = list.sort_body (fun h2 t => t.sort n h2) n h l := by
  by_cases hl : l.m_len ≤ 1
  · simp only [list.sort, list.sort_body, hl, if_true]
  · rw [sort_unfold n h l hl]
    simp only [list.sort_body, hl, if_false]

theorem sort_frame [LT α] [DecidableRel (fun (x y : α) => x < y)] [Inhabited α] :
    ∀ n : Nat, SortFrame (fun (h : Heap α) (t : list) => t.sort n h) := by
  intro n
  induction n with
  | zero =>
    intro h l cs _ _ r he
    simp [list.sort] at he
  | succ n ih =>
    have key := sort_body_frame ih n
    intro h l cs hr hlen r he
    have he2 : l.sort (n + 1) h = .ok r := he
    rw [sort_eq_body] at he2
    exact key h l cs hr hlen r he2

/-- C26: `sort()` does not modify the list it is called on.  The body of
`sort()` copies the elements of `l` into the temporaries `left` and `right`
and, after the two recursive calls, merges and destroys the temporaries; if
each recursive call leaves alone what was there before it, then whenever the
body returns, the list object `l` is unchanged, every heap cell that existed
before the call reads as before, and so the traversal and `size()` of `l` are
the same as before.  `sort` is this body with itself for the recursive
calls, hence whenever `l.sort()` returns the traversal and `size()` of `l`
are identical to those before the call (and then in fact `size() ≤ 1` and
the whole heap is the one before the call). -/
theorem C26_sort_frame [LT α] [DecidableRel (fun (x y : α) => x < y)] [Inhabited α]
    (f : Heap α → list → Except Fault (Heap α × list)) (fuel : Nat) (h : Heap α) (l : list)
    (cs : List (Nat × α)) (r : Heap α × list)
    (hr : Rep h l cs) (hlen : LenOK l cs) (hrec : SortFrame f)
    (he : list.sort_body f fuel h l = .ok r) :
    (r.2 = l ∧ r.2.size = l.size ∧ (∀ q, q ≤ h.brk → r.1.read q = h.read q) ∧
      Rep r.1 r.2 cs ∧ l.traverse (cs.length + 1) h = .ok (cs.map Prod.snd) ∧
      r.2.traverse (cs.length + 1) r.1 = .ok (cs.map Prod.snd)) ∧
    (∀ (n : Nat) (h2 : Heap α) (t : list),
      t.sort (n + 1) h2 = list.sort_body (fun h3 t3 => t3.sort n h3) n h2 t) ∧
    (∀ (n : Nat) (r2 : Heap α × list), l.sort n h = .ok r2 →
      r2.2 = l ∧ r2.2.size = l.size ∧ (∀ q, q ≤ h.brk → r2.1.read q = h.read q) ∧
      Rep r2.1 r2.2 cs ∧ r2.2.traverse (cs.length + 1) r2.1 = .ok (cs.map Prod.snd)) ∧
    (∀ (n : Nat) (r2 : Heap α × list), l.sort n h = .ok r2 → r2 = (h, l) ∧ l.size ≤ 1) := by
  have concl : ∀ (g : Heap α → list → Except Fault (Heap α × list)), SortFrame g →
      ∀ r3, g h l = .ok r3 →
        r3.2 = l ∧ r3.2.size = l.size ∧ (∀ q, q ≤ h.brk → r3.1.read q = h.read q) ∧
        Rep r3.1 r3.2 cs ∧ r3.2.traverse (cs.length + 1) r3.1 = .ok (cs.map Prod.snd) := by
    intro g hg r3 he3
    obtain ⟨e1, _, e3⟩ := hg h l cs hr hlen r3 he3
    have hr3 : Rep r3.1 l cs := hr.frame_lt (le_refl _) e3
    rw [e1]
    exact ⟨rfl, rfl, e3, hr3, traverse_rep hr3 (by omega)⟩
  obtain ⟨c1, c2, c3, c4, c5⟩ := concl _ (sort_body_frame hrec fuel) r he
  refine ⟨⟨c1, c2, c3, c4, traverse_rep hr (by omega), c5⟩, fun n h2 t => sort_eq_body n h2 t,
    fun n r2 he2 => concl _ (sort_frame n) r2 he2, fun n r2 he2 => ?_⟩
  by_cases hl : l.m_len ≤ 1
  · cases n with
    | zero => simp [list.sort] at he2
    | succ k =>
      simp only [list.sort, hl, if_true, pure, Except.pure, Except.ok.injEq] at he2
      subst he2
      exact ⟨rfl, hl⟩
  · exact absurd he2 (sort_never_returns n h l (by omega) r2)

/-- C26, on the list `[1, 3, 5]` with recursive calls that return at once:
the body builds `left = [1]` and `right = [0, 0, 3, 5]`, merges and destroys
them and returns; the list object is unchanged and still traverses as
`[1, 3, 5]`. -/
theorem C26_sort_frame_witness :
    ∃ r, list.sort_body (fun h t => pure (h, t)) 7 demo_heap demo_a = .ok r ∧
      r.2 = demo_a ∧ r.2.size = 3 ∧ r.2.traverse 4 r.1 = .ok [1, 3, 5] := by
  have hrun : ∃ r, list.sort_body (fun h t => pure (h, t)) 7 demo_heap demo_a = .ok r :=
    ⟨_, rfl⟩
  obtain ⟨r, he⟩ := hrun
  have t := (C26_sort_frame (fun h t => pure (h, t)) 7 demo_heap demo_a
    [(3, 1), (4, 3), (5, 5)] r (by decide) (by decide)
    (fun h l _ _ _ r he => by cases he; exact ⟨rfl, le_refl _, fun _ _ => rfl⟩) he).1
  exact ⟨r, he, t.1, t.2.1, t.2.2.2.2.2⟩

end sc
